import Mathlib

set_option autoImplicit false

/-!
# qframe: filter kernels of the int column, and the frame operations built on them

Shallow embedding of `internal/icolumn/filters_gen.go`, of the comparison types of
`internal/column/column.go` and of the typed view accessors that
`internal/qframe/generator/generator.go` generates from `viewTemplate`.

* `index.Int` is `[]uint32`: a `List Nat` of physical positions.
* `[]int` column storage is a `List Int`; the kernels only compare values, so the width of
  `int` plays no part.
* `index.Bool` is `[]bool`: a `List Bool`, the selection mask written in place.

A Go function that writes a slice in place is embedded as a function from the slices it can
reach to those slices after the call.  A slice access outside its bounds stops the call; the
embedding records that as `Outcome.outOfRange`, together with the memory as it was left.
-/

namespace Icolumn

/-- How a call ends: it returns, or a slice access is out of range and the call stops. In both
cases `mem` is the memory the call leaves behind. -/
inductive Outcome (σ : Type) where
  | returned (mem : σ) : Outcome σ
  | outOfRange (mem : σ) : Outcome σ
  deriving Repr, DecidableEq

/-- Memory left behind by a call, however it ended. -/
def Outcome.mem {σ : Type} : Outcome σ → σ
  | .returned m => m
  | .outOfRange m => m

/-- The slices reachable by a constant-operand kernel `f(index, column, comp, bIndex)`. -/
structure Mem where
  index : List Nat
  column : List Int
  bIndex : List Bool
  deriving Repr, DecidableEq

/-- The slices reachable by a column-operand kernel `f2(index, column, compCol, bIndex)`. -/
structure Mem2 where
  index : List Nat
  column : List Int
  compCol : List Int
  bIndex : List Bool
  deriving Repr, DecidableEq

/-- The loop `for i := range s` over `n` positions starting at `i`: the body runs once per
position, in order, and an out-of-range access in the body ends the loop. -/
def rangeLoop {σ : Type} (body : Nat → σ → Outcome σ) : Nat → Nat → σ → Outcome σ
  | 0, _, s => .returned s
  | n + 1, i, s =>
    match body i s with
    | .returned s' => rangeLoop body n (i + 1) s'
    | .outOfRange s' => .outOfRange s'

/-- Loop body of the constant-operand kernels, for the comparison operator `op`:
`x := bIndex[i]; if !x { bIndex[i] = column[index[i]] OP comp }`. -/
def constBody (op : Int → Int → Bool) (comp : Int) (i : Nat) (m : Mem) : Outcome Mem :=
  match m.bIndex[i]? with
  | none => .outOfRange m
  | some x =>
    if !x then
      match m.index[i]? with
      | none => .outOfRange m
      | some pos =>
        match m.column[pos]? with
        | none => .outOfRange m
        | some v => .returned { m with bIndex := m.bIndex.set i (op v comp) }
    else .returned m

/-- Loop body of the column-operand kernels, for the comparison operator `op`:
`x := bIndex[i]; if !x { pos := index[i]; bIndex[i] = column[pos] OP compCol[pos] }`. -/
def colBody (op : Int → Int → Bool) (i : Nat) (m : Mem2) : Outcome Mem2 :=
  match m.bIndex[i]? with
  | none => .outOfRange m
  | some x =>
    if !x then
      match m.index[i]? with
      | none => .outOfRange m
      | some pos =>
        match m.column[pos]? with
        | none => .outOfRange m
        | some v =>
          match m.compCol[pos]? with
          | none => .outOfRange m
          | some w => .returned { m with bIndex := m.bIndex.set i (op v w) }
    else .returned m

/-- The template all six constant-operand kernels are generated from. -/
def filterConst (op : Int → Int → Bool) (index : List Nat) (column : List Int) (comp : Int)
    (bIndex : List Bool) : Outcome Mem :=
  rangeLoop (constBody op comp) bIndex.length 0 ⟨index, column, bIndex⟩

/-- The template all six column-operand kernels are generated from. -/
def filterCol (op : Int → Int → Bool) (index : List Nat) (column compCol : List Int)
    (bIndex : List Bool) : Outcome Mem2 :=
  rangeLoop (colBody op) bIndex.length 0 ⟨index, column, compCol, bIndex⟩

/-- Kernel `lt`: `bIndex[i] = column[index[i]] < comp`. -/
def lt (index : List Nat) (column : List Int) (comp : Int) (bIndex : List Bool) : Outcome Mem :=
  filterConst (fun a b => decide (a < b)) index column comp bIndex

/-- Kernel `lte`: `bIndex[i] = column[index[i]] <= comp`. -/
def lte (index : List Nat) (column : List Int) (comp : Int) (bIndex : List Bool) : Outcome Mem :=
  filterConst (fun a b => decide (a ≤ b)) index column comp bIndex

/-- Kernel `gt`: `bIndex[i] = column[index[i]] > comp`. -/
def gt (index : List Nat) (column : List Int) (comp : Int) (bIndex : List Bool) : Outcome Mem :=
  filterConst (fun a b => decide (a > b)) index column comp bIndex

/-- Kernel `gte`: `bIndex[i] = column[index[i]] >= comp`. -/
def gte (index : List Nat) (column : List Int) (comp : Int) (bIndex : List Bool) : Outcome Mem :=
  filterConst (fun a b => decide (a ≥ b)) index column comp bIndex

/-- Kernel `eq`: `bIndex[i] = column[index[i]] == comp`. -/
def eq (index : List Nat) (column : List Int) (comp : Int) (bIndex : List Bool) : Outcome Mem :=
  filterConst (fun a b => decide (a = b)) index column comp bIndex

/-- Kernel `neq`: `bIndex[i] = column[index[i]] != comp`. -/
def neq (index : List Nat) (column : List Int) (comp : Int) (bIndex : List Bool) : Outcome Mem :=
  filterConst (fun a b => decide (a ≠ b)) index column comp bIndex

/-- Kernel `lt2`: `bIndex[i] = column[pos] < compCol[pos]`. -/
def lt2 (index : List Nat) (column compCol : List Int) (bIndex : List Bool) : Outcome Mem2 :=
  filterCol (fun a b => decide (a < b)) index column compCol bIndex

/-- Kernel `lte2`: `bIndex[i] = column[pos] <= compCol[pos]`. -/
def lte2 (index : List Nat) (column compCol : List Int) (bIndex : List Bool) : Outcome Mem2 :=
  filterCol (fun a b => decide (a ≤ b)) index column compCol bIndex

/-- Kernel `gt2`: `bIndex[i] = column[pos] > compCol[pos]`. -/
def gt2 (index : List Nat) (column compCol : List Int) (bIndex : List Bool) : Outcome Mem2 :=
  filterCol (fun a b => decide (a > b)) index column compCol bIndex

/-- Kernel `gte2`: `bIndex[i] = column[pos] >= compCol[pos]`. -/
def gte2 (index : List Nat) (column compCol : List Int) (bIndex : List Bool) : Outcome Mem2 :=
  filterCol (fun a b => decide (a ≥ b)) index column compCol bIndex

/-- Kernel `eq2`: `bIndex[i] = column[pos] == compCol[pos]`. -/
def eq2 (index : List Nat) (column compCol : List Int) (bIndex : List Bool) : Outcome Mem2 :=
  filterCol (fun a b => decide (a = b)) index column compCol bIndex

/-- Kernel `neq2`: `bIndex[i] = column[pos] != compCol[pos]`. -/
def neq2 (index : List Nat) (column compCol : List Int) (bIndex : List Bool) : Outcome Mem2 :=
  filterCol (fun a b => decide (a ≠ b)) index column compCol bIndex

/-- Reference mask: a position keeps a `true`; a `false` position takes the test of the
physical row its index entry points at. -/
def orMask (test : Nat → Bool) (bIndex : List Bool) (index : List Nat) : List Bool :=
  List.zipWith (fun x pos => x || test pos) bIndex index

/-- Whether the call returned, that is, no slice access was out of range. -/
def Outcome.isReturned {σ : Type} : Outcome σ → Bool
  | .returned _ => true
  | .outOfRange _ => false

/-- Postcondition of a constant-operand call for the comparison `rel`: the call returns, `index`
and `column` are as before, the mask has kept its length, and every position that was `false`
holds the truth value of `column[index[i]] rel comp`. -/
def ConstPost (rel : Int → Int → Prop) (index : List Nat) (column : List Int) (comp : Int)
    (bIndex : List Bool) (out : Outcome Mem) : Prop :=
  ∃ m : List Bool, out = .returned ⟨index, column, m⟩ ∧ m.length = bIndex.length ∧
    ∀ i : Nat, bIndex[i]? = some false →
      ∃ (pos : Nat) (v : Int) (b : Bool), index[i]? = some pos ∧ column[pos]? = some v ∧ m[i]? = some b ∧
        (b = true ↔ rel v comp)

/-- Postcondition of a column-operand call for the comparison `rel`: the call returns, `index`,
`column` and `compCol` are as before, the mask has kept its length, and every position that was
`false` holds the truth value of `column[index[i]] rel compCol[index[i]]`. -/
def ColPost (rel : Int → Int → Prop) (index : List Nat) (column compCol : List Int)
    (bIndex : List Bool) (out : Outcome Mem2) : Prop :=
  ∃ m : List Bool, out = .returned ⟨index, column, compCol, m⟩ ∧ m.length = bIndex.length ∧
    ∀ i : Nat, bIndex[i]? = some false →
      ∃ (pos : Nat) (v w : Int) (b : Bool), index[i]? = some pos ∧ column[pos]? = some v ∧ compCol[pos]? = some w ∧
        m[i]? = some b ∧ (b = true ↔ rel v w)

/-- A constant-operand kernel, passed as a value. -/
abbrev Kernel := List Nat → List Int → Int → List Bool → Outcome Mem

/-- The six constant-operand kernels. -/
def kernels : List Kernel := [lt, lte, gt, gte, eq, neq]

/-- Calls made one after the other on the same slices,
`f₁(index, column, c₁, bIndex); f₂(index, column, c₂, bIndex); ...`: each call starts from the
memory the previous one left, and a call that stops on an out-of-range access ends the run. -/
def callSeq : List (Kernel × Int) → Mem → Outcome Mem
  | [], m => .returned m
  | (f, c) :: rest, m =>
    match f m.index m.column c m.bIndex with
    | .returned m' => callSeq rest m'
    | .outOfRange m' => .outOfRange m'

/-- A column-operand kernel, passed as a value. -/
abbrev Kernel2 := List Nat → List Int → List Int → List Bool → Outcome Mem2

/-- The six column-operand kernels. -/
def kernels2 : List Kernel2 := [lt2, lte2, gt2, gte2, eq2, neq2]

/-- One filter call, with its own column and operand: a constant-operand kernel with a column
and a constant, or a column-operand kernel with two columns. -/
inductive Call where
  | const (f : Kernel) (column : List Int) (comp : Int)
  | col (f : Kernel2) (column compCol : List Int)

/-- The call is one of the twelve filter functions. -/
def Call.Known : Call → Prop
  | .const f _ _ => f ∈ kernels
  | .col f _ _ => f ∈ kernels2

/-- Every index entry is a valid position of the column (and of the compared column). -/
def Call.InRange : Call → List Nat → Prop
  | .const _ column _, index => ∀ p ∈ index, p < column.length
  | .col _ column compCol, index =>
    (∀ p ∈ index, p < column.length) ∧ (∀ p ∈ index, p < compCol.length)

/-- Run a call on an index and a mask; the outcome carries the mask the call leaves. -/
def Call.run (c : Call) (index : List Nat) (bIndex : List Bool) : Outcome (List Bool) :=
  match c with
  | .const f column comp =>
    match f index column comp bIndex with
    | .returned m => .returned m.bIndex
    | .outOfRange m => .outOfRange m.bIndex
  | .col f column compCol =>
    match f index column compCol bIndex with
    | .returned m => .returned m.bIndex
    | .outOfRange m => .outOfRange m.bIndex

/-- Two calls one after the other on the same index and mask; a call that stops on an
out-of-range access ends the run. -/
def Call.andThen (c₁ c₂ : Call) (index : List Nat) (bIndex : List Bool) : Outcome (List Bool) :=
  match c₁.run index bIndex with
  | .returned m => c₂.run index m
  | .outOfRange m => .outOfRange m

/-- Re-indexing of a slice by a list of logical positions: the entries at the positions `s`, in
the order of `s`; a position outside the slice has no entry. -/
def reindex {α : Type} (xs : List α) (s : List Nat) : List α :=
  s.filterMap (fun k => xs[k]?)

end Icolumn

namespace Column

/-- Type `CompareResult` of `internal/column/column.go`, with its three constants in `iota`
order. -/
inductive CompareResult where
  | LessThan
  | Equal
  | GreaterThan
  deriving Repr, DecidableEq

/-- Interface `Comparable` of `internal/column/column.go`: `Compare(i, j uint32) CompareResult`
over two physical positions. -/
structure Comparable where
  Compare : Nat → Nat → CompareResult

end Column

namespace Icolumn

/-- Modelled from the spec: the int column's `Comparable(reverse)`, whose implementation is not
among the sources. §4.1: "returns a two-position comparator over raw physical positions, used
by sort"; §4.4: the reverse flag flips the order of that key. Both positions are in range by
the Index invariant of §3; a position outside the column reads as `0`. -/
def Comparable (column : List Int) (reverse : Bool) : Column.Comparable where
  Compare i j :=
    if column.getD i 0 < column.getD j 0 then
      (if reverse then Column.CompareResult.GreaterThan else Column.CompareResult.LessThan)
    else if column.getD i 0 > column.getD j 0 then
      (if reverse then Column.CompareResult.LessThan else Column.CompareResult.GreaterThan)
    else Column.CompareResult.Equal

end Icolumn

namespace Qframe

open Column

/-- Error kinds of §7 that the frame operations below can latch. -/
inductive Error where
  | ColumnNotFound
  | CardinalityExceeded
  deriving Repr, DecidableEq

/-- The six built-in comparators of §4.3 that have a generated kernel: `<, <=, >, >=, =, !=`. -/
inductive Comparator where
  | Lt
  | Lte
  | Gt
  | Gte
  | Eq
  | Neq
  deriving Repr, DecidableEq

/-- Operand of a clause (§4.3): "either a constant or a reference to another column". -/
inductive Arg where
  | const (c : Int)
  | columnName (name : String)
  deriving Repr, DecidableEq

/-- One filter clause `{column, comparator, operand, invert}` of §4.3 (`filter.Filter` in the
tests). -/
structure FilterClause where
  column : String
  comparator : Comparator
  arg : Arg
  inverse : Bool
  deriving Repr, DecidableEq

/-- One sort key `(column, reverse)` of §4.4 (`qframe.Order` in the tests). -/
structure Order where
  column : String
  reverse : Bool
  deriving Repr, DecidableEq

/-- Modelled from the spec: the frame type `QFrame`, whose declaration is not among the sources,
restricted to int columns. §3: a mapping from column name to column, in insertion order, one
Index shared by all columns, and an optional latched error. -/
structure QFrame where
  columns : List (String × List Int)
  index : List Nat
  Err : Option Error
  deriving Repr, DecidableEq

/-- The invariants of §3 for a frame whose columns have `N` physical rows: every column has
length `N` and every index entry is in `[0, N)`. -/
def WellFormed (qf : QFrame) (N : Nat) : Prop :=
  (∀ c ∈ qf.columns, c.2.length = N) ∧ (∀ p ∈ qf.index, p < N)

/-- The naive per-row evaluator of a comparator on two values. -/
def Comparator.holds : Comparator → Int → Int → Bool
  | .Lt, a, b => decide (a < b)
  | .Lte, a, b => decide (a ≤ b)
  | .Gt, a, b => decide (a > b)
  | .Gte, a, b => decide (a ≥ b)
  | .Eq, a, b => decide (a = b)
  | .Neq, a, b => decide (a ≠ b)

/-- Result of evaluating a clause: a mask, an error to latch, or a stop on an out-of-range
slice access inside a kernel. -/
inductive MaskResult where
  | ok (bIndex : List Bool)
  | err (e : Error)
  | outOfRange
  deriving Repr, DecidableEq

/-- Modelled from the spec: the dispatch from a comparator to the constant-operand kernel of the
int column (the column's `Filter` method is not among the sources; the kernels are). -/
def constKernel : Comparator → Icolumn.Kernel
  | .Lt => Icolumn.lt
  | .Lte => Icolumn.lte
  | .Gt => Icolumn.gt
  | .Gte => Icolumn.gte
  | .Eq => Icolumn.eq
  | .Neq => Icolumn.neq

/-- Modelled from the spec: the dispatch from a comparator to the column-operand kernel of the
int column (the column's `Filter` method is not among the sources; the kernels are). -/
def colKernel : Comparator →
    List Nat → List Int → List Int → List Bool → Icolumn.Outcome Icolumn.Mem2
  | .Lt => Icolumn.lt2
  | .Lte => Icolumn.lte2
  | .Gt => Icolumn.gt2
  | .Gte => Icolumn.gte2
  | .Eq => Icolumn.eq2
  | .Neq => Icolumn.neq2

/-- Modelled from the spec: the int column's `filter(index, comparator, operand, mask)` of §4.1,
whose implementation is not among the sources: it runs the kernel of the comparator on the
mask; a column operand that names no column is an error. -/
def columnFilter (qf : QFrame) (column : List Int) (cmp : Comparator) (arg : Arg)
    (bIndex : List Bool) : MaskResult :=
  match arg with
  | .const c =>
    match constKernel cmp qf.index column c bIndex with
    | .returned m => .ok m.bIndex
    | .outOfRange _ => .outOfRange
  | .columnName name =>
    match qf.columns.lookup name with
    | none => .err .ColumnNotFound
    | some compCol =>
      match colKernel cmp qf.index column compCol bIndex with
      | .returned m => .ok m.bIndex
      | .outOfRange _ => .outOfRange

/-- Modelled from the spec: one clause of a filter call (§4.3). A plain clause is OR-ed into the
mask by the column's `filter`; "`invert` complements that clause's own contribution before
OR-ing": the clause is evaluated on a fresh all-false mask, and its complement is OR-ed in. -/
def clauseMask (qf : QFrame) (f : FilterClause) (bIndex : List Bool) : MaskResult :=
  match qf.columns.lookup f.column with
  | none => .err .ColumnNotFound
  | some col =>
    if f.inverse then
      match columnFilter qf col f.comparator f.arg (List.replicate qf.index.length false) with
      | .ok own => .ok (List.zipWith (fun x y => x || !y) bIndex own)
      | r => r
    else columnFilter qf col f.comparator f.arg bIndex

/-- Modelled from the spec: the clauses of one filter call, evaluated in order on the same mask
(§4.3: "multiple clauses passed together are unioned"); the first failure ends the call. -/
def filterMask (qf : QFrame) : List FilterClause → List Bool → MaskResult
  | [], bIndex => .ok bIndex
  | f :: rest, bIndex =>
    match clauseMask qf f bIndex with
    | .ok bIndex' => filterMask qf rest bIndex'
    | r => r

/-- Modelled from the spec: the Index of a filter result (§4.3): "the subsequence of positions
where the mask is true, order preserved". -/
def indexFilter (index : List Nat) (bIndex : List Bool) : List Nat :=
  (List.zip index bIndex).filterMap (fun pb => if pb.2 then some pb.1 else none)

/-- Modelled from the spec: `QFrame.Filter` (§4.3, §7), which is not among the sources. A frame
with a latched error passes through; otherwise the clauses build a mask from all-false, a
failed clause latches its error on the result, and the result shares the columns and carries
the filtered Index. `none` stands for a stop on an out-of-range slice access in a kernel. -/
def QFrame.Filter (qf : QFrame) (filters : List FilterClause) : Option QFrame :=
  if qf.Err.isSome then some qf
  else
    match filterMask qf filters (List.replicate qf.index.length false) with
    | .ok bIndex => some { qf with index := indexFilter qf.index bIndex }
    | .err e => some { qf with Err := some e }
    | .outOfRange => none

/-- Modelled from the spec: the composite comparator of §4.4, which "evaluates keys in the order
given, first non-equal key decides". -/
def compareRows : List Comparable → Nat → Nat → CompareResult
  | [], _, _ => CompareResult.Equal
  | c :: rest, i, j =>
    match c.Compare i j with
    | CompareResult.Equal => compareRows rest i j
    | r => r

/-- Row `i` may stand before row `j`: the composite comparator does not say `GreaterThan`. -/
def notAfter (cs : List Comparable) (i j : Nat) : Prop :=
  compareRows cs i j ≠ CompareResult.GreaterThan

instance (cs : List Comparable) : DecidableRel (notAfter cs) :=
  fun i j => inferInstanceAs (Decidable (compareRows cs i j ≠ CompareResult.GreaterThan))

/-- Modelled from the spec: the "single stable sort over the full row sequence" of §4.4, as an
insertion sort: each row is placed before the first row of the sorted rest that it may stand
before, so rows that compare `Equal` keep their order. -/
def stableSort (cs : List Comparable) (index : List Nat) : List Nat :=
  List.insertionSort (notAfter cs) index

/-- The comparators of a key list, in the order given; `none` if a key names no column. -/
def comparables (qf : QFrame) : List Order → Option (List Comparable)
  | [] => some []
  | o :: rest =>
    match qf.columns.lookup o.column, comparables qf rest with
    | some col, some cs => some (Icolumn.Comparable col o.reverse :: cs)
    | _, _ => none

/-- Modelled from the spec: `QFrame.Sort` (§4.4, §7), which is not among the sources. A frame
with a latched error passes through; a key that names no column latches `ColumnNotFound`;
otherwise the result shares the columns and carries the stably sorted Index. -/
def QFrame.Sort (qf : QFrame) (orders : List Order) : QFrame :=
  if qf.Err.isSome then qf
  else
    match comparables qf orders with
    | none => { qf with Err := some .ColumnNotFound }
    | some cs => { qf with index := stableSort cs qf.index }

/-- The lexicographic order on rows that a key list describes, on the column values: the first
key on which the two rows differ decides, ascending, or descending when the key is reversed. -/
def keysLe (qf : QFrame) : List Order → Nat → Nat → Prop
  | [], _, _ => True
  | o :: rest, i, j =>
    match qf.columns.lookup o.column with
    | none => False
    | some col =>
      (if o.reverse then col.getD j 0 < col.getD i 0 else col.getD i 0 < col.getD j 0)
        ∨ (col.getD i 0 = col.getD j 0 ∧ keysLe qf rest i j)

/-- The order `keysLe` can be computed. -/
def keysLe.decide (qf : QFrame) :
    (orders : List Order) → (i j : Nat) → Decidable (keysLe qf orders i j)
  | [], _, _ => isTrue trivial
  | o :: rest, i, j =>
    match h : qf.columns.lookup o.column with
    | none => isFalse (by simp [keysLe, h])
    | some col =>
      have : Decidable (keysLe qf rest i j) := keysLe.decide qf rest i j
      decidable_of_iff
        ((if o.reverse then col.getD j 0 < col.getD i 0 else col.getD i 0 < col.getD j 0)
          ∨ (col.getD i 0 = col.getD j 0 ∧ keysLe qf rest i j))
        (by simp [keysLe, h])

instance (qf : QFrame) (orders : List Order) : DecidableRel (keysLe qf orders) :=
  keysLe.decide qf orders

/-- The sort-key tuple of a physical row: its values in the key columns, in key order. -/
def keyTuple (qf : QFrame) (orders : List Order) (p : Nat) : List (Option Int) :=
  orders.map (fun o => (qf.columns.lookup o.column).bind (fun col => col[p]?))

instance (qf : QFrame) (N : Nat) : Decidable (WellFormed qf N) :=
  inferInstanceAs (Decidable ((∀ c ∈ qf.columns, c.2.length = N) ∧ (∀ p ∈ qf.index, p < N)))

/-- The values of a column at the positions of an Index, in order; `none` if a position is
outside the column. -/
def readAll (col : List Int) : List Nat → Option (List Int)
  | [] => some []
  | p :: rest =>
    match col[p]?, readAll col rest with
    | some v, some vs => some (v :: vs)
    | _, _ => none

/-- Modelled from the spec: View `toSequence()` of §4.2, "a flat sequence in current logical
order", of the int column `name`. -/
def QFrame.toSequence (qf : QFrame) (name : String) : Option (List Int) :=
  (qf.columns.lookup name).bind (fun col => readAll col qf.index)

/-! ### Grouping, distinct and filtered assign on int frames -/

/-- A group of the partition of §4.5: its key and its rows, in logical order. -/
structure Group (κ : Type) where
  key : κ
  rows : List Nat
  deriving Repr, DecidableEq

/-- Assign one row to its group: the row joins the group that has its key, or, when its key is
seen for the first time, a new group is created after the existing ones. -/
def addRow {κ : Type} [DecidableEq κ] (key : κ) (p : Nat) : List (Group κ) → List (Group κ)
  | [] => [⟨key, [p]⟩]
  | g :: rest =>
    if g.key = key then ⟨g.key, g.rows ++ [p]⟩ :: rest else g :: addRow key p rest

/-- Modelled from the spec: the partitioning of §4.5, which is not among the sources: "scan rows
in current logical order and assign each row to a group keyed by the tuple of its key-column
values; a new group is created the first time a key tuple is seen, and groups are emitted in
first-occurrence order". -/
def groupRows {κ : Type} [DecidableEq κ] (rowKey : Nat → κ) (index : List Nat) :
    List (Group κ) :=
  index.foldl (fun groups p => addRow (rowKey p) p groups) []

/-- The list `groups` is the partition of the rows of `index` by `rowKey`, in first-occurrence
order: the keys of the groups are listed in the order in which they first occur among the rows
(so no key is listed twice), every key that occurs has its group, and the rows of a group are
exactly the rows with its key, in their order in `index`. -/
def IsPartition {κ : Type} [DecidableEq κ] (rowKey : Nat → κ) (index : List Nat)
    (groups : List (Group κ)) : Prop :=
  (groups.map (fun g => g.key)).Pairwise
      (fun s t => (index.map rowKey).indexOf s < (index.map rowKey).indexOf t)
    ∧ (∀ t : κ, t ∈ groups.map (fun g => g.key) ↔ t ∈ index.map rowKey)
    ∧ (∀ g ∈ groups, g.rows = index.filter (fun p => decide (rowKey p = g.key)))

/-- The key tuple of a physical row: its values in the named columns, in the order given. -/
def rowKey (columns : List (String × List Int)) (names : List String) (p : Nat) :
    List (Option Int) :=
  names.map (fun n => (columns.lookup n).bind (fun col => col[p]?))

/-- Rows `p` and `q` of a frame hold the same value in every one of the named columns, read
from the columns themselves (a position outside a column holds no value). -/
def sameKey (qf : QFrame) (names : List String) (p q : Nat) : Bool :=
  names.all (fun n =>
    match qf.columns.lookup n with
    | some col => decide (col[p]? = col[q]?)
    | none => true)

/-- Modelled from the spec: the result of `GroupBy` (§4.5), which is not among the sources: the
frame, the names of the key columns and the groups of the rows. A key that names no column
latches `ColumnNotFound`. -/
structure Grouper where
  qf : QFrame
  groupedColumns : List String
  groups : List (Group (List (Option Int)))
  Err : Option Error
  deriving Repr, DecidableEq

/-- Modelled from the spec: `QFrame.GroupBy` (§4.5), which is not among the sources. -/
def QFrame.GroupBy (qf : QFrame) (columns : List String) : Grouper :=
  if qf.Err.isSome then ⟨qf, columns, [], qf.Err⟩
  else if columns.all (fun n => (qf.columns.lookup n).isSome) then
    ⟨qf, columns, groupRows (rowKey qf.columns columns) qf.index, none⟩
  else ⟨qf, columns, [], some .ColumnNotFound⟩

/-- Modelled from the spec: an Aggregation Spec of §3, "a pairing of (reduction function, source
column name)", the reduction a function "from a sequence-of-values to a scalar". -/
structure Aggregation where
  fn : List Int → Int
  column : String

/-- Modelled from the spec: the built-in reduction `sum` of §4.5, "numeric sum". -/
def sum (values : List Int) : Int := values.sum

/-- Modelled from the spec: the int column's `aggregate(groups, fn)` of §4.1: "reduces each
supplied group of positions to one value". -/
def aggregate (column : List Int) (groups : List (List Nat)) (fn : List Int → Int) : List Int :=
  groups.map (fun rows => fn (rows.map (fun p => column.getD p 0)))

/-- The key columns of the result: for each key column, its value at the first row of each
group. -/
def keyColumns (qf : QFrame) (groups : List (List Nat)) :
    List String → Option (List (String × List Int))
  | [] => some []
  | n :: rest =>
    match qf.columns.lookup n, keyColumns qf groups rest with
    | some col, some cs => some ((n, groups.map (fun rows => col.getD (rows.headD 0) 0)) :: cs)
    | _, _ => none

/-- The aggregated columns of the result, one per aggregation. -/
def aggColumns (qf : QFrame) (groups : List (List Nat)) :
    List Aggregation → Option (List (String × List Int))
  | [] => some []
  | a :: rest =>
    match qf.columns.lookup a.column, aggColumns qf groups rest with
    | some col, some cs => some ((a.column, aggregate col groups a.fn) :: cs)
    | _, _ => none

/-- Modelled from the spec: `Grouper.Aggregate` (§4.5), which is not among the sources: "Result
Table has one row per group, columns = group-key columns (original values) followed by
aggregated columns (new storage)"; a name that is no column latches `ColumnNotFound`. -/
def Grouper.Aggregate (g : Grouper) (aggs : List Aggregation) : QFrame :=
  if g.Err.isSome then { g.qf with Err := g.Err }
  else
    match keyColumns g.qf (g.groups.map (fun gr => gr.rows)) g.groupedColumns,
        aggColumns g.qf (g.groups.map (fun gr => gr.rows)) aggs with
    | some ks, some as =>
      { columns := ks ++ as, index := List.range g.groups.length, Err := none }
    | _, _ => { g.qf with Err := some .ColumnNotFound }

/-- Modelled from the spec: `QFrame.Distinct` (§4.5), which is not among the sources: "group-by
with no aggregation, keeping one representative row — the first — per group, over all columns
as keys". -/
def QFrame.Distinct (qf : QFrame) : QFrame :=
  if qf.Err.isSome then qf
  else
    { qf with index := (List.filterMap (fun g => g.rows.head?)
        (groupRows (rowKey qf.columns (qf.columns.map (fun c => c.1))) qf.index)) }

/-- Modelled from the spec: an instruction of §4.6 with a one-argument function on ints: the
function, the destination column and the source column. -/
structure Instruction where
  fn : Int → Int
  dstCol : String
  srcCol1 : String

/-- Modelled from the spec: the int column's `apply1(fn, index)` of §4.1/§4.6: new storage of
the same number of physical rows, holding the function's output at the positions of the Index
and the zero value at every other position. -/
def apply1 (fn : Int → Int) (column : List Int) (index : List Nat) : List Int :=
  (List.range column.length).map
    (fun p => if p ∈ index then fn (column.getD p 0) else 0)

/-- Modelled from the spec: §4.6, "assigning to an existing column name replaces that column in
place (same position in column order); assigning to a new name appends it at the end". -/
def setColumn (columns : List (String × List Int)) (name : String) (data : List Int) :
    List (String × List Int) :=
  if (columns.lookup name).isSome then
    columns.map (fun c => if c.1 = name then (name, data) else c)
  else columns ++ [(name, data)]

/-- Modelled from the spec: `QFrame.Assign` with one instruction (§4.6), which is not among the
sources; a source that names no column latches `ColumnNotFound`. -/
def QFrame.Assign (qf : QFrame) (ins : Instruction) : QFrame :=
  if qf.Err.isSome then qf
  else
    match qf.columns.lookup ins.srcCol1 with
    | none => { qf with Err := some .ColumnNotFound }
    | some col =>
      { qf with columns := setColumn qf.columns ins.dstCol (apply1 ins.fn col qf.index) }

/-- Modelled from the spec: `QFrame.FilteredAssign` (§4.6), which is not among the sources:
"only rows satisfying the filter receive the function's output; rows not satisfying it are
written as the destination type's null/zero value": the instructions are applied through the
Index of the rows that satisfy the clause, and the result carries the Index of the input. -/
def QFrame.FilteredAssign (qf : QFrame) (clause : FilterClause)
    (instructions : List Instruction) : Option QFrame :=
  match qf.Filter [clause] with
  | none => none
  | some filtered =>
    if filtered.Err.isSome then some filtered
    else
      some { (instructions.foldl QFrame.Assign { qf with index := filtered.index }) with
        index := qf.index }

/-- The input frame of the group-by test. -/
def groupByInput : QFrame :=
  ⟨[("COL.1", [0, 0, 1, 2]), ("COL.2", [0, 0, 1, 1]), ("COL.3", [1, 2, 5, 7])], [0, 1, 2, 3],
    none⟩

/-- The input frame of the distinct test. -/
def distinctInput : QFrame :=
  ⟨[("COL.1", [0, 1, 0, 1]), ("COL.2", [0, 1, 0, 1])], [0, 1, 2, 3], none⟩

/-- The input frame of the filtered-assign test. -/
def assignInput : QFrame := ⟨[("COL1", [3, 2, 1])], [0, 1, 2], none⟩

end Qframe

namespace Scolumn

/-- Modelled from the spec: the nullable-string column's `Comparable(reverse)`, whose
implementation is not among the sources. §4.4: a null "always sorts to the logically first
position under ascending order and last under descending order", "flipping ends with the
reverse flag exactly as regular values would"; two nulls are equal. Strings compare byte by
byte, which on UTF-8 text is the lexicographic order of the code points. A position outside
the column reads as null. -/
def Comparable (column : List (Option String)) (reverse : Bool) : Column.Comparable where
  Compare i j :=
    match column.getD i none, column.getD j none with
    | none, none => Column.CompareResult.Equal
    | none, some _ =>
      if reverse then Column.CompareResult.GreaterThan else Column.CompareResult.LessThan
    | some _, none =>
      if reverse then Column.CompareResult.LessThan else Column.CompareResult.GreaterThan
    | some x, some y =>
      if x.toList < y.toList then
        (if reverse then Column.CompareResult.GreaterThan else Column.CompareResult.LessThan)
      else if y.toList < x.toList then
        (if reverse then Column.CompareResult.LessThan else Column.CompareResult.GreaterThan)
      else Column.CompareResult.Equal

/-- Modelled from the spec: the sort of §4.4 with one nullable-string key: the stable sort of
the Index under the comparator of the column. -/
def sortIndex (column : List (Option String)) (reverse : Bool) (index : List Nat) : List Nat :=
  Qframe.stableSort [Comparable column reverse] index

/-- The values of the column at the positions of an Index, in order. -/
def readAll (column : List (Option String)) (index : List Nat) : List (Option String) :=
  index.map (fun p => column.getD p none)

/-- The order "nulls first, then ascending lexical order" on nullable strings. -/
def nullFirstLe : Option String → Option String → Prop
  | none, _ => True
  | some _, none => False
  | some a, some b => a.toList ≤ b.toList

end Scolumn

namespace Ecolumn

/-- Modelled from the spec: the size limit of an enum dictionary, §3 "an ordered set of up to
255 distinct string values". -/
def maxCardinality : Nat := 255

/-- Modelled from the spec: the "one reserved code value" of §3 that denotes null. -/
def nullValue : Nat := 255

/-- Modelled from the spec: the enum column of §3, a dictionary (position = code) and one code
per row. -/
structure Column where
  values : List String
  data : List Nat
  deriving Repr, DecidableEq

/-- The distinct non-null values observed in an input sequence. -/
def distinctValues (input : List (Option String)) : List String :=
  (input.filterMap id).dedup

/-- The code of a value under a dictionary; null takes the reserved code. -/
def encode (dict : List String) : Option String → Nat
  | none => nullValue
  | some v => dict.indexOf v

/-- The value of a code under the dictionary of the column; the reserved code is null. -/
def Column.decode (c : Column) (code : Nat) : Option String :=
  if code = nullValue then none else c.values[code]?

/-- Modelled from the spec: construction of an enum column with an inferred dictionary, which is
not among the sources. §3: the dictionary is "inferred as the sorted set of distinct observed
values; construction fails if more than 255 distinct values are observed". -/
def New (input : List (Option String)) : Except Qframe.Error Column :=
  if (distinctValues input).length > maxCardinality then
    .error Qframe.Error.CardinalityExceeded
  else
    .ok
      { values := (distinctValues input).insertionSort (fun a b => a.toList ≤ b.toList)
        data := input.map
          (encode ((distinctValues input).insertionSort (fun a b => a.toList ≤ b.toList))) }

end Ecolumn

namespace Qframe

open Column

/-- A column of one of the five variants of §3. -/
inductive AnyColumn where
  | int (data : List Int)
  | float (data : List Float)
  | bool (data : List Bool)
  | string (data : List (Option String))
  | enum (col : Ecolumn.Column)

/-- Number of physical rows of a column. -/
def AnyColumn.Len : AnyColumn → Nat
  | .int data => data.length
  | .float data => data.length
  | .bool data => data.length
  | .string data => data.length
  | .enum col => col.data.length

/-- The type tag of a column (`DataType()` of the `Column` interface). -/
def AnyColumn.DataType : AnyColumn → String
  | .int _ => "int"
  | .float _ => "float"
  | .bool _ => "bool"
  | .string _ => "string"
  | .enum _ => "enum"

/-- The value of one cell of a column of any variant. -/
inductive Cell where
  | int (v : Int)
  | float (v : Float)
  | bool (v : Bool)
  | string (v : Option String)

/-- The cell at a physical position; `none` outside the column. An enum cell is decoded through
the dictionary. -/
def AnyColumn.cellAt : AnyColumn → Nat → Option Cell
  | .int data, p => (data[p]?).map Cell.int
  | .float data, p => (data[p]?).map Cell.float
  | .bool data, p => (data[p]?).map Cell.bool
  | .string data, p => (data[p]?).map Cell.string
  | .enum col, p => (col.data[p]?).map (fun code => Cell.string (col.decode code))

/-- Modelled from the spec: the frame type `QFrame` with columns of all five variants (its
declaration is not among the sources): named columns in insertion order, one Index shared by
all columns, an optional latched error (§3). `QFrame` above is its restriction to int
columns. -/
structure Frame where
  columns : List (String × AnyColumn)
  index : List Nat
  Err : Option Error

/-- An int frame as a frame of any columns. -/
def QFrame.toFrame (qf : QFrame) : Frame :=
  { columns := qf.columns.map (fun c => (c.1, AnyColumn.int c.2))
    index := qf.index
    Err := qf.Err }

/-- The cells of the column `name` in the current logical row order. -/
def Frame.rows (qf : Frame) (name : String) : Option (List (Option Cell)) :=
  (qf.columns.lookup name).map (fun c => qf.index.map c.cellAt)

/-- Modelled from the spec: `QFrame.Slice` (§4.2), which is not among the sources: "creates a
new Index that is a contiguous subsequence of positions from the current Index", the logical
positions `start .. end - 1`; the columns are shared. A frame with a latched error passes
through (§7). -/
def Frame.Slice (qf : Frame) (start stop : Nat) : Frame :=
  if qf.Err.isSome then qf
  else { qf with index := (qf.index.drop start).take (stop - start) }

/-- Modelled from the spec: the View of §4.2, "a read-only, randomly-indexable projection of one
column through one Index" (the per-variant `View` types are not among the sources). -/
structure View (α : Type) where
  data : List α
  index : List Nat

/-- View `length()`. -/
def View.Len {α : Type} (v : View α) : Nat := v.index.length

/-- View `itemAt(i)`: "index lookup + storage lookup"; `none` when out of range. -/
def View.ItemAt {α : Type} (v : View α) (i : Nat) : Option α :=
  (v.index[i]?).bind (fun p => v.data[p]?)

/-- View `toSequence()`: the items in current logical order. -/
def View.Slice {α : Type} (v : View α) : List (Option α) :=
  v.index.map (fun p => v.data[p]?)

/-- The two errors of the view template: `errors.New(fn, "no such column: %s", colName)` and
`errors.New(fn, "invalid column type, expected %s, was: %s", lowerType, DataType())`. -/
inductive ViewError where
  | noSuchColumn (fn : String) (colName : String)
  | invalidColumnType (fn : String) (expected : String) (was : String)
  deriving Repr, DecidableEq

/-- Instance `view("Int", "icolumn")` of `viewTemplate`: look the name up in `columnsByName`,
assert the column to `icolumn.Column`, return `IntView{View: col.View(qf.index)}`. -/
def Frame.IntView (qf : Frame) (colName : String) : Except ViewError (View Int) :=
  match qf.columns.lookup colName with
  | none => .error (.noSuchColumn "IntView" colName)
  | some (.int data) => .ok ⟨data, qf.index⟩
  | some namedColumn => .error (.invalidColumnType "IntView" "int" namedColumn.DataType)

/-- Instance `view("Float", "fcolumn")` of `viewTemplate`. -/
def Frame.FloatView (qf : Frame) (colName : String) : Except ViewError (View Float) :=
  match qf.columns.lookup colName with
  | none => .error (.noSuchColumn "FloatView" colName)
  | some (.float data) => .ok ⟨data, qf.index⟩
  | some namedColumn => .error (.invalidColumnType "FloatView" "float" namedColumn.DataType)

/-- Instance `view("Bool", "bcolumn")` of `viewTemplate`. -/
def Frame.BoolView (qf : Frame) (colName : String) : Except ViewError (View Bool) :=
  match qf.columns.lookup colName with
  | none => .error (.noSuchColumn "BoolView" colName)
  | some (.bool data) => .ok ⟨data, qf.index⟩
  | some namedColumn => .error (.invalidColumnType "BoolView" "bool" namedColumn.DataType)

/-- Instance `view("String", "scolumn")` of `viewTemplate`. -/
def Frame.StringView (qf : Frame) (colName : String) :
    Except ViewError (View (Option String)) :=
  match qf.columns.lookup colName with
  | none => .error (.noSuchColumn "StringView" colName)
  | some (.string data) => .ok ⟨data, qf.index⟩
  | some namedColumn => .error (.invalidColumnType "StringView" "string" namedColumn.DataType)

/-- Instance `view("Enum", "ecolumn")` of `viewTemplate`; the items of an enum view are the
codes of the rows decoded through the dictionary. -/
def Frame.EnumView (qf : Frame) (colName : String) :
    Except ViewError (View (Option String)) :=
  match qf.columns.lookup colName with
  | none => .error (.noSuchColumn "EnumView" colName)
  | some (.enum col) => .ok ⟨col.data.map col.decode, qf.index⟩
  | some namedColumn => .error (.invalidColumnType "EnumView" "enum" namedColumn.DataType)

/-- Whether an accessor returned an error. -/
def isError {ε α : Type} : Except ε α → Bool
  | .error _ => true
  | .ok _ => false

/-- Input of one column to the frame constructor (§6): a physical value sequence with its
element type; for an enum input the dictionary is inferred from the values. -/
inductive ColumnInput where
  | int (data : List Int)
  | float (data : List Float)
  | bool (data : List Bool)
  | string (data : List (Option String))
  | enum (data : List (Option String))

/-- The column built from one input; only the construction of an enum column can fail. -/
def ColumnInput.build : ColumnInput → Except Error AnyColumn
  | .int data => .ok (.int data)
  | .float data => .ok (.float data)
  | .bool data => .ok (.bool data)
  | .string data => .ok (.string data)
  | .enum data =>
    match Ecolumn.New data with
    | .ok col => .ok (.enum col)
    | .error e => .error e

/-- The columns built from the inputs, in order; the first failure ends the construction. -/
def buildColumns : List (String × ColumnInput) → Except Error (List (String × AnyColumn))
  | [] => .ok []
  | (name, input) :: rest =>
    match input.build with
    | .error e => .error e
    | .ok col =>
      match buildColumns rest with
      | .error e => .error e
      | .ok cols => .ok ((name, col) :: cols)

/-- Modelled from the spec: the frame constructor `New`, which is not among the sources. §6, §7:
a failure while building a column "must be reported as errors the core latches on the produced
Table"; "partial results are not produced for a failed operation". Otherwise the frame holds
the columns with the identity Index over their rows. The inputs are of uniform length (§6). -/
def Frame.New (inputs : List (String × ColumnInput)) : Frame :=
  match buildColumns inputs with
  | .error e => { columns := [], index := [], Err := some e }
  | .ok cols =>
    { columns := cols
      index := List.range (match cols with
        | [] => 0
        | c :: _ => c.2.Len)
      Err := none }

end Qframe

namespace Generator

/-- Type `template.Spec`, with the three fields that `spec` fills (its declaration is not among
the sources); the values of the map are the strings `spec` puts in it. -/
structure Spec where
  Name : String
  Template : String
  Values : List (String × String)
  deriving Repr, DecidableEq

/-- The lines of the constant `viewTemplate` of `generator.go`, in order; the first and the last
two are empty. -/
def viewTemplateLines : List String :=
  ["",
    "// \x7b\x7b.Type\x7d\x7dView provides a \"view\" into an \x7b\x7b.lowerType\x7d\x7d column and can be used for access to individual elements.",
    "type \x7b\x7b.type\x7d\x7dView struct \x7b",
    "\t\x7b\x7b.package\x7d\x7d.View",
    "\x7d",
    "",
    "// \x7b\x7b.type\x7d\x7dView returns a view into an \x7b\x7b.lowerType\x7d\x7d column identified by name.",
    "//",
    "// colName - Name of the column.",
    "//",
    "// Returns an error if the column is missing or of wrong type.",
    "// Time complexity O(1).",
    "func (qf QFrame) \x7b\x7b.type\x7d\x7dView(colName string) (\x7b\x7b.type\x7d\x7dView, error) \x7b",
    "\tnamedColumn, ok := qf.columnsByName[colName]",
    "\tif !ok \x7b",
    "\t\treturn \x7b\x7b.type\x7d\x7dView\x7b\x7d, errors.New(\"\x7b\x7b.type\x7d\x7dView\", \"no such column: %s\", colName)",
    "\t\x7d",
    "",
    "\tcol, ok := namedColumn.Column.(\x7b\x7b.package\x7d\x7d.Column)",
    "\tif !ok \x7b",
    "\t\treturn \x7b\x7b.type\x7d\x7dView\x7b\x7d, errors.New(",
    "\t\t\t\"\x7b\x7b.type\x7d\x7dView\",",
    "\t\t\t\"invalid column type, expected %s, was: %s\", \"\x7b\x7b.lowerType\x7d\x7d\", namedColumn.DataType(),",
    "\t\t\treflect.TypeOf(namedColumn.Column))",
    "\t\x7d",
    "",
    "\treturn  \x7b\x7b.type\x7d\x7dView\x7bView: col.View(qf.index)\x7d, nil",
    "\x7d",
    "",
    ""]

/-- The constant `viewTemplate`: its lines joined by newlines. -/
def viewTemplate : String := String.intercalate "\n" viewTemplateLines

/-- Library function `strings.ToLower`, on ASCII letters. -/
def toLower (s : String) : String := String.mk (s.toList.map Char.toLower)

/-- Function `spec` of `generator.go`. -/
def spec (typeName srcPackage : String) : Spec :=
  { Name := typeName
    Template := viewTemplate
    Values := [("type", typeName), ("lowerType", toLower typeName), ("package", srcPackage)] }

/-- Function `view` of `generator.go`. -/
def view (typeName srcPackage : String) : Spec := spec typeName srcPackage

/-- The five specs that `GenerateQFrame` hands to `template.Generate`, one per column
variant. -/
def generatedViews : List Spec :=
  [view "Int" "icolumn", view "Float" "fcolumn", view "Bool" "bcolumn",
    view "String" "scolumn", view "Enum" "ecolumn"]

/-- Scanner for the placeholders of a template: outside a placeholder (`none`) it waits for the
three characters that open a field reference, two opening braces and a dot; inside (`some acc`)
it collects the name up to the closing brace. -/
def placeholdersFrom : List Char → Option (List Char) → List String
  | [], _ => []
  | c :: cs, some acc =>
    if c = Char.ofNat 125 then String.mk acc.reverse :: placeholdersFrom cs none
    else placeholdersFrom cs (some (c :: acc))
  | c₁ :: c₂ :: c₃ :: cs, none =>
    if c₁ = Char.ofNat 123 ∧ c₂ = Char.ofNat 123 ∧ c₃ = Char.ofNat 46 then
      placeholdersFrom cs (some [])
    else placeholdersFrom (c₂ :: c₃ :: cs) none
  | _ :: cs, none => placeholdersFrom cs none

/-- The names of the placeholders a template refers to, in order of occurrence. -/
def placeholders (template : String) : List String :=
  placeholdersFrom template.toList none

/-- The placeholders of the template of a spec that are no key of its `Values` map, each listed
once. -/
def unbound (s : Spec) : List String :=
  ((placeholders s.Template).filter (fun k => (s.Values.lookup k).isNone)).dedup

end Generator

namespace Icolumn

/-! ## Loop lemmas -/

/-- Whatever the body keeps true of the memory, the loop keeps true of it, whether the loop
returns or stops on an out-of-range access. -/
theorem rangeLoop_mem_inv {σ : Type} (body : Nat → σ → Outcome σ) (I : σ → Prop)
    (hbody : ∀ i s, I s → I (body i s).mem) :
    ∀ n i s, I s → I (rangeLoop body n i s).mem := by
  intro n
  induction n with
  | zero => intro i s h; simpa [rangeLoop, Outcome.mem] using h
  | succ n ih =>
    intro i s h
    have hb := hbody i s h
    unfold rangeLoop
    cases hbs : body i s with
    | returned s' => rw [hbs] at hb; exact ih (i + 1) s' hb
    | outOfRange s' => rw [hbs] at hb; exact hb

theorem constBody_frame (op : Int → Int → Bool) (comp : Int) (i : Nat) (m : Mem) :
    (constBody op comp i m).mem.index = m.index ∧ (constBody op comp i m).mem.column = m.column
      ∧ (constBody op comp i m).mem.bIndex.length = m.bIndex.length := by
  unfold constBody
  repeat' split
  all_goals simp [Outcome.mem]

theorem colBody_frame (op : Int → Int → Bool) (i : Nat) (m : Mem2) :
    (colBody op i m).mem.index = m.index ∧ (colBody op i m).mem.column = m.column
      ∧ (colBody op i m).mem.compCol = m.compCol
      ∧ (colBody op i m).mem.bIndex.length = m.bIndex.length := by
  unfold colBody
  repeat' split
  all_goals simp [Outcome.mem]

theorem constBody_keeps_true (op : Int → Int → Bool) (comp : Int) (i j : Nat) (m : Mem)
    (h : m.bIndex[j]? = some true) : (constBody op comp i m).mem.bIndex[j]? = some true := by
  unfold constBody
  split
  · simpa [Outcome.mem] using h
  · next x hx =>
    split
    · next hfalse =>
      have hij : i ≠ j := by
        rintro rfl
        rw [hx] at h
        simp_all
      repeat' split
      all_goals simp [Outcome.mem, List.getElem?_set_ne hij, h]
    · simpa [Outcome.mem] using h

theorem colBody_keeps_true (op : Int → Int → Bool) (i j : Nat) (m : Mem2)
    (h : m.bIndex[j]? = some true) : (colBody op i m).mem.bIndex[j]? = some true := by
  unfold colBody
  split
  · simpa [Outcome.mem] using h
  · next x hx =>
    split
    · next hfalse =>
      have hij : i ≠ j := by
        rintro rfl
        rw [hx] at h
        simp_all
      repeat' split
      all_goals simp [Outcome.mem, List.getElem?_set_ne hij, h]
    · simpa [Outcome.mem] using h

/-- The constant-operand template leaves `index` and `column` as they were and keeps the length
of the mask, on every input. -/
theorem filterConst_frame (op : Int → Int → Bool) (index : List Nat) (column : List Int)
    (comp : Int) (bIndex : List Bool) :
    (filterConst op index column comp bIndex).mem.index = index
      ∧ (filterConst op index column comp bIndex).mem.column = column
      ∧ (filterConst op index column comp bIndex).mem.bIndex.length = bIndex.length := by
  refine rangeLoop_mem_inv (constBody op comp)
    (fun s => s.index = index ∧ s.column = column ∧ s.bIndex.length = bIndex.length)
    ?_ bIndex.length 0 ⟨index, column, bIndex⟩ ⟨rfl, rfl, rfl⟩
  intro i s hs
  obtain ⟨h1, h2, h3⟩ := constBody_frame op comp i s
  exact ⟨h1.trans hs.1, h2.trans hs.2.1, h3.trans hs.2.2⟩

/-- The column-operand template leaves `index`, `column` and `compCol` as they were and keeps
the length of the mask, on every input. -/
theorem filterCol_frame (op : Int → Int → Bool) (index : List Nat) (column compCol : List Int)
    (bIndex : List Bool) :
    (filterCol op index column compCol bIndex).mem.index = index
      ∧ (filterCol op index column compCol bIndex).mem.column = column
      ∧ (filterCol op index column compCol bIndex).mem.compCol = compCol
      ∧ (filterCol op index column compCol bIndex).mem.bIndex.length = bIndex.length := by
  refine rangeLoop_mem_inv (colBody op)
    (fun s => s.index = index ∧ s.column = column ∧ s.compCol = compCol
      ∧ s.bIndex.length = bIndex.length)
    ?_ bIndex.length 0 ⟨index, column, compCol, bIndex⟩ ⟨rfl, rfl, rfl, rfl⟩
  intro i s hs
  obtain ⟨h1, h2, h3, h4⟩ := colBody_frame op i s
  exact ⟨h1.trans hs.1, h2.trans hs.2.1, h3.trans hs.2.2.1, h4.trans hs.2.2.2⟩

/-- A position of the mask that is true before a constant-operand call is true after it. -/
theorem filterConst_keeps_true (op : Int → Int → Bool) (index : List Nat) (column : List Int)
    (comp : Int) (bIndex : List Bool) (j : Nat) (h : bIndex[j]? = some true) :
    (filterConst op index column comp bIndex).mem.bIndex[j]? = some true :=
  rangeLoop_mem_inv (constBody op comp) (fun s => s.bIndex[j]? = some true)
    (fun i s hs => constBody_keeps_true op comp i j s hs) bIndex.length 0
    ⟨index, column, bIndex⟩ h

/-- A position of the mask that is true before a column-operand call is true after it. -/
theorem filterCol_keeps_true (op : Int → Int → Bool) (index : List Nat)
    (column compCol : List Int) (bIndex : List Bool) (j : Nat) (h : bIndex[j]? = some true) :
    (filterCol op index column compCol bIndex).mem.bIndex[j]? = some true :=
  rangeLoop_mem_inv (colBody op) (fun s => s.bIndex[j]? = some true)
    (fun i s hs => colBody_keeps_true op i j s hs) bIndex.length 0
    ⟨index, column, compCol, bIndex⟩ h

/-! ## The mask a filter call leaves when every access is in range -/

theorem constLoop_closed (op : Int → Int → Bool) (comp : Int) (index : List Nat)
    (column : List Int) (hcol : ∀ p ∈ index, p < column.length) :
    ∀ (suf pre : List Bool), pre.length + suf.length ≤ index.length →
      rangeLoop (constBody op comp) suf.length pre.length ⟨index, column, pre ++ suf⟩
        = .returned ⟨index, column,
            pre ++ orMask (fun p => op (column.getD p 0) comp) suf (index.drop pre.length)⟩ := by
  intro suf
  induction suf with
  | nil => intro pre _; simp [rangeLoop, orMask]
  | cons x suf ih =>
    intro pre hlen
    have hlt : pre.length < index.length := by simp at hlen; omega
    have hp : index[pre.length] < column.length := hcol _ (List.getElem_mem _)
    have hdrop : index.drop pre.length = index[pre.length] :: index.drop (pre.length + 1) :=
      List.drop_eq_getElem_cons hlt
    have hih := ih (pre ++ [x || op (column.getD index[pre.length] 0) comp])
      (by simp at hlen ⊢; omega)
    simp only [List.length_append, List.length_singleton, List.append_assoc,
      List.singleton_append, List.getD_eq_getElem _ 0 hp] at hih
    rw [hdrop]
    simp only [List.length_cons, rangeLoop, constBody, orMask, List.zipWith_cons_cons]
    have hx : (pre ++ x :: suf)[pre.length]? = some x := by
      rw [List.getElem?_append_right (le_refl _)]; simp
    rw [hx]
    cases x with
    | true =>
      simp only [Bool.not_true, Bool.false_eq_true, if_false]
      simpa [orMask] using hih
    | false =>
      simp only [Bool.not_false, if_true, List.getElem?_eq_getElem hlt,
        List.getElem?_eq_getElem hp]
      have hset : (pre ++ false :: suf).set pre.length (op column[index[pre.length]] comp)
          = pre ++ op column[index[pre.length]] comp :: suf := by simp
      rw [hset]
      simpa [orMask, List.getElem?_eq_getElem hp] using hih

theorem colLoop_closed (op : Int → Int → Bool) (index : List Nat) (column compCol : List Int)
    (hcol : ∀ p ∈ index, p < column.length) (hcomp : ∀ p ∈ index, p < compCol.length) :
    ∀ (suf pre : List Bool), pre.length + suf.length ≤ index.length →
      rangeLoop (colBody op) suf.length pre.length ⟨index, column, compCol, pre ++ suf⟩
        = .returned ⟨index, column, compCol,
            pre ++ orMask (fun p => op (column.getD p 0) (compCol.getD p 0)) suf
              (index.drop pre.length)⟩ := by
  intro suf
  induction suf with
  | nil => intro pre _; simp [rangeLoop, orMask]
  | cons x suf ih =>
    intro pre hlen
    have hlt : pre.length < index.length := by simp at hlen; omega
    have hp : index[pre.length] < column.length := hcol _ (List.getElem_mem _)
    have hq : index[pre.length] < compCol.length := hcomp _ (List.getElem_mem _)
    have hdrop : index.drop pre.length = index[pre.length] :: index.drop (pre.length + 1) :=
      List.drop_eq_getElem_cons hlt
    have hih := ih
      (pre ++ [x || op (column.getD index[pre.length] 0) (compCol.getD index[pre.length] 0)])
      (by simp at hlen ⊢; omega)
    simp only [List.length_append, List.length_singleton, List.append_assoc,
      List.singleton_append, List.getD_eq_getElem _ 0 hp, List.getD_eq_getElem _ 0 hq] at hih
    rw [hdrop]
    simp only [List.length_cons, rangeLoop, colBody, orMask, List.zipWith_cons_cons]
    have hx : (pre ++ x :: suf)[pre.length]? = some x := by
      rw [List.getElem?_append_right (le_refl _)]; simp
    rw [hx]
    cases x with
    | true =>
      simp only [Bool.not_true, Bool.false_eq_true, if_false]
      simpa [orMask] using hih
    | false =>
      simp only [Bool.not_false, if_true, List.getElem?_eq_getElem hlt,
        List.getElem?_eq_getElem hp, List.getElem?_eq_getElem hq]
      have hset : (pre ++ false :: suf).set pre.length
            (op column[index[pre.length]] compCol[index[pre.length]])
          = pre ++ op column[index[pre.length]] compCol[index[pre.length]] :: suf := by simp
      rw [hset]
      simpa [orMask, List.getElem?_eq_getElem hp, List.getElem?_eq_getElem hq] using hih

/-- With every access in range, a constant-operand call returns, and the mask it leaves is the
reference mask. -/
theorem filterConst_eq (op : Int → Int → Bool) (index : List Nat) (column : List Int)
    (comp : Int) (bIndex : List Bool) (hlen : bIndex.length ≤ index.length)
    (hcol : ∀ p ∈ index, p < column.length) :
    filterConst op index column comp bIndex
      = .returned ⟨index, column, orMask (fun p => op (column.getD p 0) comp) bIndex index⟩ := by
  have h := constLoop_closed op comp index column hcol bIndex [] (by simpa using hlen)
  simpa [filterConst] using h

/-- With every access in range, a column-operand call returns, and the mask it leaves is the
reference mask. -/
theorem filterCol_eq (op : Int → Int → Bool) (index : List Nat) (column compCol : List Int)
    (bIndex : List Bool) (hlen : bIndex.length ≤ index.length)
    (hcol : ∀ p ∈ index, p < column.length) (hcomp : ∀ p ∈ index, p < compCol.length) :
    filterCol op index column compCol bIndex
      = .returned ⟨index, column, compCol,
          orMask (fun p => op (column.getD p 0) (compCol.getD p 0)) bIndex index⟩ := by
  have h := colLoop_closed op index column compCol hcol hcomp bIndex [] (by simpa using hlen)
  simpa [filterCol] using h

theorem length_orMask (test : Nat → Bool) (bIndex : List Bool) (index : List Nat)
    (hlen : bIndex.length ≤ index.length) : (orMask test bIndex index).length = bIndex.length := by
  simp [orMask, hlen]

theorem getElem?_orMask (test : Nat → Bool) (bIndex : List Bool) (index : List Nat) (i : Nat)
    (x : Bool) (pos : Nat) (hx : bIndex[i]? = some x) (hpos : index[i]? = some pos) :
    (orMask test bIndex index)[i]? = some (x || test pos) := by
  simp [orMask, List.getElem?_zipWith, hx, hpos]

theorem constPost_of_eq (rel : Int → Int → Prop) (op : Int → Int → Bool)
    (hop : ∀ a b, op a b = true ↔ rel a b) (index : List Nat) (column : List Int) (comp : Int)
    (bIndex : List Bool) (hlen : bIndex.length ≤ index.length)
    (hcol : ∀ p ∈ index, p < column.length) :
    ConstPost rel index column comp bIndex (filterConst op index column comp bIndex) := by
  refine ⟨_, filterConst_eq op index column comp bIndex hlen hcol,
    length_orMask _ _ _ hlen, ?_⟩
  intro i hi
  have hib : i < bIndex.length := by
    by_contra hcon
    rw [List.getElem?_eq_none (by omega)] at hi
    cases hi
  have hii : i < index.length := by omega
  have hp : index[i] < column.length := hcol _ (List.getElem_mem _)
  refine ⟨index[i], column[index[i]], op column[index[i]] comp, List.getElem?_eq_getElem hii,
    List.getElem?_eq_getElem hp, ?_, hop _ _⟩
  rw [getElem?_orMask _ _ _ i false index[i] hi (List.getElem?_eq_getElem hii)]
  simp [List.getElem?_eq_getElem hp]

theorem colPost_of_eq (rel : Int → Int → Prop) (op : Int → Int → Bool)
    (hop : ∀ a b, op a b = true ↔ rel a b) (index : List Nat) (column compCol : List Int)
    (bIndex : List Bool) (hlen : bIndex.length ≤ index.length)
    (hcol : ∀ p ∈ index, p < column.length) (hcomp : ∀ p ∈ index, p < compCol.length) :
    ColPost rel index column compCol bIndex (filterCol op index column compCol bIndex) := by
  refine ⟨_, filterCol_eq op index column compCol bIndex hlen hcol hcomp,
    length_orMask _ _ _ hlen, ?_⟩
  intro i hi
  have hib : i < bIndex.length := by
    by_contra hcon
    rw [List.getElem?_eq_none (by omega)] at hi
    cases hi
  have hii : i < index.length := by omega
  have hp : index[i] < column.length := hcol _ (List.getElem_mem _)
  have hq : index[i] < compCol.length := hcomp _ (List.getElem_mem _)
  refine ⟨index[i], column[index[i]], compCol[index[i]],
    op column[index[i]] compCol[index[i]], List.getElem?_eq_getElem hii,
    List.getElem?_eq_getElem hp, List.getElem?_eq_getElem hq, ?_, hop _ _⟩
  rw [getElem?_orMask _ _ _ i false index[i] hi (List.getElem?_eq_getElem hii)]
  simp [List.getElem?_eq_getElem hp, List.getElem?_eq_getElem hq]

/-- C1: for each of the six constant comparators `lt, lte, gt, gte, eq, neq`, when the index is
at least as long as the mask and every index entry is a valid position of the column, the call
returns a mask of the same length in which every position that was false on entry holds
exactly the truth value of `column[index[i]] OP comp`. -/
theorem const_comparators_post (index : List Nat) (column : List Int) (comp : Int)
    (bIndex : List Bool) (hlen : bIndex.length ≤ index.length)
    (hcol : ∀ p ∈ index, p < column.length) :
    ConstPost (fun a b => a < b) index column comp bIndex (lt index column comp bIndex)
    ∧ ConstPost (fun a b => a ≤ b) index column comp bIndex (lte index column comp bIndex)
    ∧ ConstPost (fun a b => a > b) index column comp bIndex (gt index column comp bIndex)
    ∧ ConstPost (fun a b => a ≥ b) index column comp bIndex (gte index column comp bIndex)
    ∧ ConstPost (fun a b => a = b) index column comp bIndex (eq index column comp bIndex)
    ∧ ConstPost (fun a b => a ≠ b) index column comp bIndex (neq index column comp bIndex) :=
  ⟨constPost_of_eq _ _ (fun _ _ => by simp) index column comp bIndex hlen hcol,
   constPost_of_eq _ _ (fun _ _ => by simp) index column comp bIndex hlen hcol,
   constPost_of_eq _ _ (fun _ _ => by simp) index column comp bIndex hlen hcol,
   constPost_of_eq _ _ (fun _ _ => by simp) index column comp bIndex hlen hcol,
   constPost_of_eq _ _ (fun _ _ => by simp) index column comp bIndex hlen hcol,
   constPost_of_eq _ _ (fun _ _ => by simp) index column comp bIndex hlen hcol⟩

theorem const_comparators_post_witness :
    ([false, true, false, false, false].length ≤ [0, 1, 2, 3, 4].length
      ∧ ∀ p ∈ [0, 1, 2, 3, 4], p < [1, 2, 3, 4, 5].length)
    ∧ (ConstPost (fun a b => a < b) [0, 1, 2, 3, 4] [1, 2, 3, 4, 5] 3
        [false, true, false, false, false]
        (lt [0, 1, 2, 3, 4] [1, 2, 3, 4, 5] 3 [false, true, false, false, false])
      ∧ ConstPost (fun a b => a ≤ b) [0, 1, 2, 3, 4] [1, 2, 3, 4, 5] 3
        [false, true, false, false, false]
        (lte [0, 1, 2, 3, 4] [1, 2, 3, 4, 5] 3 [false, true, false, false, false])
      ∧ ConstPost (fun a b => a > b) [0, 1, 2, 3, 4] [1, 2, 3, 4, 5] 3
        [false, true, false, false, false]
        (gt [0, 1, 2, 3, 4] [1, 2, 3, 4, 5] 3 [false, true, false, false, false])
      ∧ ConstPost (fun a b => a ≥ b) [0, 1, 2, 3, 4] [1, 2, 3, 4, 5] 3
        [false, true, false, false, false]
        (gte [0, 1, 2, 3, 4] [1, 2, 3, 4, 5] 3 [false, true, false, false, false])
      ∧ ConstPost (fun a b => a = b) [0, 1, 2, 3, 4] [1, 2, 3, 4, 5] 3
        [false, true, false, false, false]
        (eq [0, 1, 2, 3, 4] [1, 2, 3, 4, 5] 3 [false, true, false, false, false])
      ∧ ConstPost (fun a b => a ≠ b) [0, 1, 2, 3, 4] [1, 2, 3, 4, 5] 3
        [false, true, false, false, false]
        (neq [0, 1, 2, 3, 4] [1, 2, 3, 4, 5] 3 [false, true, false, false, false])) :=
  ⟨⟨by decide, by decide⟩,
    const_comparators_post [0, 1, 2, 3, 4] [1, 2, 3, 4, 5] 3 [false, true, false, false, false]
      (by decide) (by decide)⟩

/-- C2: for each of the twelve filter functions and every input, a mask position that is true
on entry is still true in the memory the call leaves, whether the call returns or stops on an
out-of-range access. -/
theorem filters_keep_true (index : List Nat) (column compCol : List Int) (comp : Int)
    (bIndex : List Bool) (i : Nat) (h : bIndex[i]? = some true) :
    (lt index column comp bIndex).mem.bIndex[i]? = some true
    ∧ (lte index column comp bIndex).mem.bIndex[i]? = some true
    ∧ (gt index column comp bIndex).mem.bIndex[i]? = some true
    ∧ (gte index column comp bIndex).mem.bIndex[i]? = some true
    ∧ (eq index column comp bIndex).mem.bIndex[i]? = some true
    ∧ (neq index column comp bIndex).mem.bIndex[i]? = some true
    ∧ (lt2 index column compCol bIndex).mem.bIndex[i]? = some true
    ∧ (lte2 index column compCol bIndex).mem.bIndex[i]? = some true
    ∧ (gt2 index column compCol bIndex).mem.bIndex[i]? = some true
    ∧ (gte2 index column compCol bIndex).mem.bIndex[i]? = some true
    ∧ (eq2 index column compCol bIndex).mem.bIndex[i]? = some true
    ∧ (neq2 index column compCol bIndex).mem.bIndex[i]? = some true :=
  ⟨filterConst_keeps_true _ index column comp bIndex i h,
   filterConst_keeps_true _ index column comp bIndex i h,
   filterConst_keeps_true _ index column comp bIndex i h,
   filterConst_keeps_true _ index column comp bIndex i h,
   filterConst_keeps_true _ index column comp bIndex i h,
   filterConst_keeps_true _ index column comp bIndex i h,
   filterCol_keeps_true _ index column compCol bIndex i h,
   filterCol_keeps_true _ index column compCol bIndex i h,
   filterCol_keeps_true _ index column compCol bIndex i h,
   filterCol_keeps_true _ index column compCol bIndex i h,
   filterCol_keeps_true _ index column compCol bIndex i h,
   filterCol_keeps_true _ index column compCol bIndex i h⟩

theorem filters_keep_true_witness :
    [false, true, false][1]? = some true
    ∧ ((lt [0, 1, 2] [1, 2, 3] 0 [false, true, false]).mem.bIndex[1]? = some true
    ∧ (lte [0, 1, 2] [1, 2, 3] 0 [false, true, false]).mem.bIndex[1]? = some true
    ∧ (gt [0, 1, 2] [1, 2, 3] 0 [false, true, false]).mem.bIndex[1]? = some true
    ∧ (gte [0, 1, 2] [1, 2, 3] 0 [false, true, false]).mem.bIndex[1]? = some true
    ∧ (eq [0, 1, 2] [1, 2, 3] 0 [false, true, false]).mem.bIndex[1]? = some true
    ∧ (neq [0, 1, 2] [1, 2, 3] 0 [false, true, false]).mem.bIndex[1]? = some true
    ∧ (lt2 [0, 1, 2] [1, 2, 3] [3, 2, 1] [false, true, false]).mem.bIndex[1]? = some true
    ∧ (lte2 [0, 1, 2] [1, 2, 3] [3, 2, 1] [false, true, false]).mem.bIndex[1]? = some true
    ∧ (gt2 [0, 1, 2] [1, 2, 3] [3, 2, 1] [false, true, false]).mem.bIndex[1]? = some true
    ∧ (gte2 [0, 1, 2] [1, 2, 3] [3, 2, 1] [false, true, false]).mem.bIndex[1]? = some true
    ∧ (eq2 [0, 1, 2] [1, 2, 3] [3, 2, 1] [false, true, false]).mem.bIndex[1]? = some true
    ∧ (neq2 [0, 1, 2] [1, 2, 3] [3, 2, 1] [false, true, false]).mem.bIndex[1]? = some true) :=
  ⟨rfl, filters_keep_true [0, 1, 2] [1, 2, 3] [3, 2, 1] 0 [false, true, false] 1 rfl⟩

/-- C4: for each of the six column-vs-column comparators `lt2 .. neq2`, with columns of equal
length, index entries in range and the index at least as long as the mask, the call returns
and every position that was false on entry holds exactly
`column[index[i]] OP compCol[index[i]]`, both columns read at the same physical row. -/
theorem col_comparators_post (index : List Nat) (column compCol : List Int)
    (bIndex : List Bool) (heq : column.length = compCol.length)
    (hlen : bIndex.length ≤ index.length) (hcol : ∀ p ∈ index, p < column.length) :
    ColPost (fun a b => a < b) index column compCol bIndex (lt2 index column compCol bIndex)
    ∧ ColPost (fun a b => a ≤ b) index column compCol bIndex (lte2 index column compCol bIndex)
    ∧ ColPost (fun a b => a > b) index column compCol bIndex (gt2 index column compCol bIndex)
    ∧ ColPost (fun a b => a ≥ b) index column compCol bIndex (gte2 index column compCol bIndex)
    ∧ ColPost (fun a b => a = b) index column compCol bIndex (eq2 index column compCol bIndex)
    ∧ ColPost (fun a b => a ≠ b) index column compCol bIndex
        (neq2 index column compCol bIndex) := by
  have hcomp : ∀ p ∈ index, p < compCol.length := fun p hp => heq ▸ hcol p hp
  exact
    ⟨colPost_of_eq _ _ (fun _ _ => by simp) index column compCol bIndex hlen hcol hcomp,
     colPost_of_eq _ _ (fun _ _ => by simp) index column compCol bIndex hlen hcol hcomp,
     colPost_of_eq _ _ (fun _ _ => by simp) index column compCol bIndex hlen hcol hcomp,
     colPost_of_eq _ _ (fun _ _ => by simp) index column compCol bIndex hlen hcol hcomp,
     colPost_of_eq _ _ (fun _ _ => by simp) index column compCol bIndex hlen hcol hcomp,
     colPost_of_eq _ _ (fun _ _ => by simp) index column compCol bIndex hlen hcol hcomp⟩

theorem col_comparators_post_witness :
    ([10, 1, 10].length = [1, 2, 3].length ∧ [false, false, false].length ≤ [0, 1, 2].length
      ∧ ∀ p ∈ [0, 1, 2], p < [10, 1, 10].length)
    ∧ (ColPost (fun a b => a < b) [0, 1, 2] [10, 1, 10] [1, 2, 3] [false, false, false]
        (lt2 [0, 1, 2] [10, 1, 10] [1, 2, 3] [false, false, false])
      ∧ ColPost (fun a b => a ≤ b) [0, 1, 2] [10, 1, 10] [1, 2, 3] [false, false, false]
        (lte2 [0, 1, 2] [10, 1, 10] [1, 2, 3] [false, false, false])
      ∧ ColPost (fun a b => a > b) [0, 1, 2] [10, 1, 10] [1, 2, 3] [false, false, false]
        (gt2 [0, 1, 2] [10, 1, 10] [1, 2, 3] [false, false, false])
      ∧ ColPost (fun a b => a ≥ b) [0, 1, 2] [10, 1, 10] [1, 2, 3] [false, false, false]
        (gte2 [0, 1, 2] [10, 1, 10] [1, 2, 3] [false, false, false])
      ∧ ColPost (fun a b => a = b) [0, 1, 2] [10, 1, 10] [1, 2, 3] [false, false, false]
        (eq2 [0, 1, 2] [10, 1, 10] [1, 2, 3] [false, false, false])
      ∧ ColPost (fun a b => a ≠ b) [0, 1, 2] [10, 1, 10] [1, 2, 3] [false, false, false]
        (neq2 [0, 1, 2] [10, 1, 10] [1, 2, 3] [false, false, false])) :=
  ⟨⟨by decide, by decide, by decide⟩,
    col_comparators_post [0, 1, 2] [10, 1, 10] [1, 2, 3] [false, false, false]
      (by decide) (by decide) (by decide)⟩

/-- C7: each of the twelve filter functions leaves `index` and `column` (and `compCol` for the
two-column variants) exactly as they were, on every input and however the call ends; the mask
is the only slice written. -/
theorem filters_leave_source (index : List Nat) (column compCol : List Int) (comp : Int)
    (bIndex : List Bool) :
    ((lt index column comp bIndex).mem.index = index
      ∧ (lt index column comp bIndex).mem.column = column)
    ∧ ((lte index column comp bIndex).mem.index = index
      ∧ (lte index column comp bIndex).mem.column = column)
    ∧ ((gt index column comp bIndex).mem.index = index
      ∧ (gt index column comp bIndex).mem.column = column)
    ∧ ((gte index column comp bIndex).mem.index = index
      ∧ (gte index column comp bIndex).mem.column = column)
    ∧ ((eq index column comp bIndex).mem.index = index
      ∧ (eq index column comp bIndex).mem.column = column)
    ∧ ((neq index column comp bIndex).mem.index = index
      ∧ (neq index column comp bIndex).mem.column = column)
    ∧ ((lt2 index column compCol bIndex).mem.index = index
      ∧ (lt2 index column compCol bIndex).mem.column = column
      ∧ (lt2 index column compCol bIndex).mem.compCol = compCol)
    ∧ ((lte2 index column compCol bIndex).mem.index = index
      ∧ (lte2 index column compCol bIndex).mem.column = column
      ∧ (lte2 index column compCol bIndex).mem.compCol = compCol)
    ∧ ((gt2 index column compCol bIndex).mem.index = index
      ∧ (gt2 index column compCol bIndex).mem.column = column
      ∧ (gt2 index column compCol bIndex).mem.compCol = compCol)
    ∧ ((gte2 index column compCol bIndex).mem.index = index
      ∧ (gte2 index column compCol bIndex).mem.column = column
      ∧ (gte2 index column compCol bIndex).mem.compCol = compCol)
    ∧ ((eq2 index column compCol bIndex).mem.index = index
      ∧ (eq2 index column compCol bIndex).mem.column = column
      ∧ (eq2 index column compCol bIndex).mem.compCol = compCol)
    ∧ ((neq2 index column compCol bIndex).mem.index = index
      ∧ (neq2 index column compCol bIndex).mem.column = column
      ∧ (neq2 index column compCol bIndex).mem.compCol = compCol) := by
  have c := fun op => filterConst_frame op index column comp bIndex
  have d := fun op => filterCol_frame op index column compCol bIndex
  exact
    ⟨⟨(c _).1, (c _).2.1⟩, ⟨(c _).1, (c _).2.1⟩, ⟨(c _).1, (c _).2.1⟩, ⟨(c _).1, (c _).2.1⟩,
     ⟨(c _).1, (c _).2.1⟩, ⟨(c _).1, (c _).2.1⟩,
     ⟨(d _).1, (d _).2.1, (d _).2.2.1⟩, ⟨(d _).1, (d _).2.1, (d _).2.2.1⟩,
     ⟨(d _).1, (d _).2.1, (d _).2.2.1⟩, ⟨(d _).1, (d _).2.1, (d _).2.2.1⟩,
     ⟨(d _).1, (d _).2.1, (d _).2.2.1⟩, ⟨(d _).1, (d _).2.1, (d _).2.2.1⟩⟩

theorem filterConst_isReturned (op : Int → Int → Bool) (index : List Nat) (column : List Int)
    (comp : Int) (bIndex : List Bool) (hlen : bIndex.length ≤ index.length)
    (hcol : ∀ p ∈ index, p < column.length) :
    (filterConst op index column comp bIndex).isReturned = true := by
  rw [filterConst_eq op index column comp bIndex hlen hcol]; rfl

theorem filterCol_isReturned (op : Int → Int → Bool) (index : List Nat)
    (column compCol : List Int) (bIndex : List Bool) (hlen : bIndex.length ≤ index.length)
    (hcol : ∀ p ∈ index, p < column.length) (hcomp : ∀ p ∈ index, p < compCol.length) :
    (filterCol op index column compCol bIndex).isReturned = true := by
  rw [filterCol_eq op index column compCol bIndex hlen hcol hcomp]; rfl

/-- C8: under the table invariants (every index entry below `N`, `column` and `compCol` of
length `N`, the mask no longer than the index) each of the twelve filter functions returns:
no access `bIndex[i]`, `index[i]`, `column[index[i]]` or `compCol[index[i]]` is out of range. -/
theorem filters_in_range (N : Nat) (index : List Nat) (column compCol : List Int) (comp : Int)
    (bIndex : List Bool) (hidx : ∀ p ∈ index, p < N) (hc : column.length = N)
    (hcc : compCol.length = N) (hlen : bIndex.length ≤ index.length) :
    (lt index column comp bIndex).isReturned = true
    ∧ (lte index column comp bIndex).isReturned = true
    ∧ (gt index column comp bIndex).isReturned = true
    ∧ (gte index column comp bIndex).isReturned = true
    ∧ (eq index column comp bIndex).isReturned = true
    ∧ (neq index column comp bIndex).isReturned = true
    ∧ (lt2 index column compCol bIndex).isReturned = true
    ∧ (lte2 index column compCol bIndex).isReturned = true
    ∧ (gt2 index column compCol bIndex).isReturned = true
    ∧ (gte2 index column compCol bIndex).isReturned = true
    ∧ (eq2 index column compCol bIndex).isReturned = true
    ∧ (neq2 index column compCol bIndex).isReturned = true := by
  have hcol : ∀ p ∈ index, p < column.length := fun p hp => hc ▸ hidx p hp
  have hcomp : ∀ p ∈ index, p < compCol.length := fun p hp => hcc ▸ hidx p hp
  have c := fun op => filterConst_isReturned op index column comp bIndex hlen hcol
  have d := fun op => filterCol_isReturned op index column compCol bIndex hlen hcol hcomp
  exact ⟨c _, c _, c _, c _, c _, c _, d _, d _, d _, d _, d _, d _⟩

theorem filters_in_range_witness :
    ((∀ p ∈ [2, 0, 1], p < 3) ∧ [5, 6, 7].length = 3 ∧ [7, 6, 5].length = 3
      ∧ [false, true, false].length ≤ [2, 0, 1].length)
    ∧ ((lt [2, 0, 1] [5, 6, 7] 6 [false, true, false]).isReturned = true
    ∧ (lte [2, 0, 1] [5, 6, 7] 6 [false, true, false]).isReturned = true
    ∧ (gt [2, 0, 1] [5, 6, 7] 6 [false, true, false]).isReturned = true
    ∧ (gte [2, 0, 1] [5, 6, 7] 6 [false, true, false]).isReturned = true
    ∧ (eq [2, 0, 1] [5, 6, 7] 6 [false, true, false]).isReturned = true
    ∧ (neq [2, 0, 1] [5, 6, 7] 6 [false, true, false]).isReturned = true
    ∧ (lt2 [2, 0, 1] [5, 6, 7] [7, 6, 5] [false, true, false]).isReturned = true
    ∧ (lte2 [2, 0, 1] [5, 6, 7] [7, 6, 5] [false, true, false]).isReturned = true
    ∧ (gt2 [2, 0, 1] [5, 6, 7] [7, 6, 5] [false, true, false]).isReturned = true
    ∧ (gte2 [2, 0, 1] [5, 6, 7] [7, 6, 5] [false, true, false]).isReturned = true
    ∧ (eq2 [2, 0, 1] [5, 6, 7] [7, 6, 5] [false, true, false]).isReturned = true
    ∧ (neq2 [2, 0, 1] [5, 6, 7] [7, 6, 5] [false, true, false]).isReturned = true) :=
  ⟨⟨by decide, by decide, by decide, by decide⟩,
    filters_in_range 3 [2, 0, 1] [5, 6, 7] [7, 6, 5] 6 [false, true, false]
      (by decide) (by decide) (by decide) (by decide)⟩

theorem kernel_eq_filterConst (f : Kernel) (hf : f ∈ kernels) :
    ∃ op : Int → Int → Bool, f = filterConst op := by
  simp only [kernels, List.mem_cons, List.mem_singleton, List.not_mem_nil, or_false] at hf
  rcases hf with rfl | rfl | rfl | rfl | rfl | rfl
  exacts [⟨_, rfl⟩, ⟨_, rfl⟩, ⟨_, rfl⟩, ⟨_, rfl⟩, ⟨_, rfl⟩, ⟨_, rfl⟩]

/-- A run of constant-operand calls, every access in range: the run returns, and each position
of the mask is the OR of its entry value with what every clause alone gives on an all-false
mask. -/
theorem callSeq_or (index : List Nat) (column : List Int) (n : Nat)
    (hlen : n ≤ index.length) (hcol : ∀ p ∈ index, p < column.length) :
    ∀ (cl : List (Kernel × Int)), (∀ p ∈ cl, p.1 ∈ kernels) →
      ∀ b : List Bool, b.length = n →
        ∃ m : List Bool, callSeq cl ⟨index, column, b⟩ = .returned ⟨index, column, m⟩
          ∧ m.length = n
          ∧ ∀ (i : Nat) (x : Bool), b[i]? = some x →
              m[i]? = some (x || cl.any (fun p =>
                (p.1 index column p.2 (List.replicate n false)).mem.bIndex.getD i false)) := by
  intro cl
  induction cl with
  | nil =>
    intro _ b hb
    exact ⟨b, rfl, hb, fun i x hx => by simpa using hx⟩
  | cons fc rest ih =>
    intro hk b hb
    obtain ⟨f, c⟩ := fc
    obtain ⟨op, rfl⟩ := kernel_eq_filterConst f (hk (f, c) (List.mem_cons_self _ _))
    have hb' : b.length ≤ index.length := by omega
    have hstep := filterConst_eq op index column c b hb' hcol
    have hlen' : (orMask (fun p => op (column.getD p 0) c) b index).length = n := by
      rw [length_orMask _ _ _ hb', hb]
    obtain ⟨m, hm, hmlen, hmi⟩ := ih (fun p hp => hk p (List.mem_cons_of_mem _ hp))
      (orMask (fun p => op (column.getD p 0) c) b index) hlen'
    refine ⟨m, ?_, hmlen, ?_⟩
    · simp only [callSeq, hstep]
      exact hm
    · intro i x hx
      have hib : i < b.length := by
        by_contra hcon
        rw [List.getElem?_eq_none (by omega)] at hx
        cases hx
      have hii : i < index.length := by omega
      have hpos := List.getElem?_eq_getElem hii
      rw [hmi i _ (getElem?_orMask _ b index i x index[i] hx hpos)]
      have hrep : (List.replicate n false)[i]? = some false := by
        rw [List.getElem?_replicate]; simp; omega
      have hone : (filterConst op index column c (List.replicate n false)).mem.bIndex.getD i false
          = op (column.getD index[i] 0) c := by
        rw [filterConst_eq op index column c _ (by simpa using hlen) hcol]
        simp only [Outcome.mem, List.getD_eq_getElem?_getD,
          getElem?_orMask _ _ index i false index[i] hrep hpos]
        simp
      simp only [List.any_cons, hone, Bool.or_assoc]

/-- C3: clauses applied one after the other to an all-false mask are combined by OR. With the
index in range, `gt` with `c1` followed by `lt` with `c2` leaves a mask whose position `i` is
true exactly when `column[index[i]] > c1` or `column[index[i]] < c2`; and any finite run `cl` of
the six comparator functions leaves the pointwise OR of what each clause gives alone. -/
theorem clauses_or (index : List Nat) (column : List Int) (n : Nat) (c1 c2 : Int)
    (cl : List (Kernel × Int)) (hlen : n ≤ index.length)
    (hcol : ∀ p ∈ index, p < column.length) (hk : ∀ p ∈ cl, p.1 ∈ kernels) :
    (∃ m : List Bool,
      callSeq [(gt, c1), (lt, c2)] ⟨index, column, List.replicate n false⟩
        = .returned ⟨index, column, m⟩
      ∧ m.length = n
      ∧ ∀ i : Nat, i < n → ∃ (pos : Nat) (v : Int) (b : Bool),
          index[i]? = some pos ∧ column[pos]? = some v ∧ m[i]? = some b
            ∧ (b = true ↔ (v > c1 ∨ v < c2)))
    ∧ (∃ m : List Bool,
      callSeq cl ⟨index, column, List.replicate n false⟩ = .returned ⟨index, column, m⟩
      ∧ m.length = n
      ∧ ∀ i : Nat, i < n →
          m[i]? = some (cl.any (fun p =>
            (p.1 index column p.2 (List.replicate n false)).mem.bIndex.getD i false))) := by
  have hrep : ∀ i, i < n → (List.replicate n false)[i]? = some false := by
    intro i hi
    rw [List.getElem?_replicate]; simp [hi]
  constructor
  · have hk2 : ∀ p ∈ [((gt : Kernel), c1), ((lt : Kernel), c2)], p.1 ∈ kernels := by
      intro p hp
      simp only [List.mem_cons, List.mem_singleton, List.not_mem_nil, or_false] at hp
      rcases hp with rfl | rfl <;> simp [kernels]
    obtain ⟨m, hm, hmlen, hmi⟩ := callSeq_or index column n hlen hcol _ hk2
      (List.replicate n false) (by simp)
    refine ⟨m, hm, hmlen, ?_⟩
    intro i hi
    have hii : i < index.length := by omega
    have hp : index[i] < column.length := hcol _ (List.getElem_mem _)
    have hpos := List.getElem?_eq_getElem hii
    refine ⟨index[i], column[index[i]], _, hpos, List.getElem?_eq_getElem hp,
      hmi i false (hrep i hi), ?_⟩
    have h1 := filterConst_eq (fun a b => decide (a > b)) index column c1
      (List.replicate n false) (by simpa using hlen) hcol
    have h2 := filterConst_eq (fun a b => decide (a < b)) index column c2
      (List.replicate n false) (by simpa using hlen) hcol
    simp only [gt, lt, h1, h2, Outcome.mem, List.any_cons, List.any_nil,
      List.getD_eq_getElem?_getD,
      getElem?_orMask _ _ index i false index[i] (hrep i hi) hpos]
    simp [List.getElem?_eq_getElem hp]
  · obtain ⟨m, hm, hmlen, hmi⟩ := callSeq_or index column n hlen hcol cl hk
      (List.replicate n false) (by simp)
    exact ⟨m, hm, hmlen, fun i hi => by simpa using hmi i false (hrep i hi)⟩

theorem clauses_or_witness :
    (5 ≤ [0, 1, 2, 3, 4].length ∧ (∀ p ∈ [0, 1, 2, 3, 4], p < [1, 2, 3, 4, 5].length)
      ∧ ∀ p ∈ [((gt : Kernel), (4 : Int)), ((lt : Kernel), (2 : Int))], p.1 ∈ kernels)
    ∧ ((∃ m : List Bool,
      callSeq [(gt, 4), (lt, 2)] ⟨[0, 1, 2, 3, 4], [1, 2, 3, 4, 5], List.replicate 5 false⟩
        = .returned ⟨[0, 1, 2, 3, 4], [1, 2, 3, 4, 5], m⟩
      ∧ m.length = 5
      ∧ ∀ i : Nat, i < 5 → ∃ (pos : Nat) (v : Int) (b : Bool),
          [0, 1, 2, 3, 4][i]? = some pos ∧ [1, 2, 3, 4, 5][pos]? = some v ∧ m[i]? = some b
            ∧ (b = true ↔ (v > 4 ∨ v < 2)))
    ∧ (∃ m : List Bool,
      callSeq [(gt, 4), (lt, 2)] ⟨[0, 1, 2, 3, 4], [1, 2, 3, 4, 5], List.replicate 5 false⟩
        = .returned ⟨[0, 1, 2, 3, 4], [1, 2, 3, 4, 5], m⟩
      ∧ m.length = 5
      ∧ ∀ i : Nat, i < 5 →
          m[i]? = some (List.any [((gt : Kernel), (4 : Int)), ((lt : Kernel), (2 : Int))]
            (fun p => (p.1 [0, 1, 2, 3, 4] [1, 2, 3, 4, 5] p.2
              (List.replicate 5 false)).mem.bIndex.getD i false)))) :=
  have hk : ∀ p ∈ [((gt : Kernel), (4 : Int)), ((lt : Kernel), (2 : Int))], p.1 ∈ kernels := by
    intro p hp
    simp only [List.mem_cons, List.mem_singleton, List.not_mem_nil, or_false] at hp
    rcases hp with rfl | rfl <;> simp [kernels]
  ⟨⟨by decide, by decide, hk⟩,
    clauses_or [0, 1, 2, 3, 4] [1, 2, 3, 4, 5] 5 4 2 [(gt, 4), (lt, 2)]
      (by decide) (by decide) hk⟩

theorem test_or_mask :
    callSeq [(gt, 4), (lt, 2)] ⟨[0, 1, 2, 3, 4], [1, 2, 3, 4, 5], List.replicate 5 false⟩
      = .returned ⟨[0, 1, 2, 3, 4], [1, 2, 3, 4, 5], [true, false, false, false, true]⟩ := by
  decide

theorem test_gt2 :
    gt2 [0, 1, 2] [10, 1, 10] [1, 2, 3] [false, false, false]
      = .returned ⟨[0, 1, 2], [10, 1, 10], [1, 2, 3], [true, false, true]⟩ := by
  decide

theorem test_outOfRange :
    gt [0, 7] [1, 2] 0 [false, false] = .outOfRange ⟨[0, 7], [1, 2], [true, false]⟩ := by
  decide

/-! ## Algebra of the kernels -/

theorem orMask_orMask (t₁ t₂ : Nat → Bool) :
    ∀ (bIndex : List Bool) (index : List Nat),
      orMask t₂ (orMask t₁ bIndex index) index = orMask (fun p => t₁ p || t₂ p) bIndex index := by
  intro bIndex
  induction bIndex with
  | nil => intro index; simp [orMask]
  | cons x rest ih =>
    intro index
    cases index with
    | nil => simp [orMask]
    | cons p ps =>
      have h := ih ps
      simp only [orMask] at h
      simp [orMask, h, Bool.or_assoc]

theorem orMask_congr (t₁ t₂ : Nat → Bool) (bIndex : List Bool) (index : List Nat)
    (h : ∀ p ∈ index, t₁ p = t₂ p) : orMask t₁ bIndex index = orMask t₂ bIndex index := by
  induction bIndex generalizing index with
  | nil => simp [orMask]
  | cons x rest ih =>
    cases index with
    | nil => simp [orMask]
    | cons p ps =>
      have h1 := ih ps (fun q hq => h q (List.mem_cons_of_mem _ hq))
      simp only [orMask] at h1
      simp [orMask, h1, h p (List.mem_cons_self _ _)]

theorem orMask_false_eq_map (test : Nat → Bool) (n : Nat) (index : List Nat)
    (hlen : n ≤ index.length) :
    orMask test (List.replicate n false) index = (index.take n).map test := by
  induction n generalizing index with
  | zero => simp [orMask]
  | succ n ih =>
    cases index with
    | nil => simp at hlen
    | cons p ps =>
      have h := ih ps (by simpa using hlen)
      simp only [orMask] at h
      simp [orMask, List.replicate_succ, h]

theorem kernel2_eq_filterCol (f : Kernel2) (hf : f ∈ kernels2) :
    ∃ op : Int → Int → Bool, f = filterCol op := by
  simp only [kernels2, List.mem_cons, List.mem_singleton, List.not_mem_nil, or_false] at hf
  rcases hf with rfl | rfl | rfl | rfl | rfl | rfl
  exacts [⟨_, rfl⟩, ⟨_, rfl⟩, ⟨_, rfl⟩, ⟨_, rfl⟩, ⟨_, rfl⟩, ⟨_, rfl⟩]

/-- A known call with every access in range returns, and leaves the reference mask of some
row test. -/
theorem Call.run_eq (c : Call) (index : List Nat) (hk : c.Known) (hr : c.InRange index) :
    ∃ test : Nat → Bool, ∀ bIndex : List Bool, bIndex.length ≤ index.length →
      c.run index bIndex = .returned (orMask test bIndex index) := by
  cases c with
  | const f column comp =>
    obtain ⟨op, rfl⟩ := kernel_eq_filterConst f hk
    refine ⟨fun p => op (column.getD p 0) comp, fun bIndex hlen => ?_⟩
    simp only [Call.run, filterConst_eq op index column comp bIndex hlen hr]
  | col f column compCol =>
    obtain ⟨op, rfl⟩ := kernel2_eq_filterCol f hk
    refine ⟨fun p => op (column.getD p 0) (compCol.getD p 0), fun bIndex hlen => ?_⟩
    simp only [Call.run, filterCol_eq op index column compCol bIndex hlen hr.1 hr.2]

/-- C18: complementary comparators. With the index in range and an all-false mask, `lte`, `gte`
and `neq` return the pointwise negation of the masks returned by `gt`, `lt` and `eq`; the same
holds for `lte2`/`gt2`, `gte2`/`lt2` and `neq2`/`eq2`. -/
theorem complementary_comparators (index : List Nat) (column compCol : List Int) (comp : Int)
    (n : Nat) (hlen : n ≤ index.length) (hcol : ∀ p ∈ index, p < column.length)
    (hcomp : ∀ p ∈ index, p < compCol.length) :
    (∃ m : List Bool,
        gt index column comp (List.replicate n false) = .returned ⟨index, column, m⟩
        ∧ lte index column comp (List.replicate n false)
            = .returned ⟨index, column, m.map (fun b => !b)⟩)
    ∧ (∃ m : List Bool,
        lt index column comp (List.replicate n false) = .returned ⟨index, column, m⟩
        ∧ gte index column comp (List.replicate n false)
            = .returned ⟨index, column, m.map (fun b => !b)⟩)
    ∧ (∃ m : List Bool,
        eq index column comp (List.replicate n false) = .returned ⟨index, column, m⟩
        ∧ neq index column comp (List.replicate n false)
            = .returned ⟨index, column, m.map (fun b => !b)⟩)
    ∧ (∃ m : List Bool,
        gt2 index column compCol (List.replicate n false)
          = .returned ⟨index, column, compCol, m⟩
        ∧ lte2 index column compCol (List.replicate n false)
            = .returned ⟨index, column, compCol, m.map (fun b => !b)⟩)
    ∧ (∃ m : List Bool,
        lt2 index column compCol (List.replicate n false)
          = .returned ⟨index, column, compCol, m⟩
        ∧ gte2 index column compCol (List.replicate n false)
            = .returned ⟨index, column, compCol, m.map (fun b => !b)⟩)
    ∧ (∃ m : List Bool,
        eq2 index column compCol (List.replicate n false)
          = .returned ⟨index, column, compCol, m⟩
        ∧ neq2 index column compCol (List.replicate n false)
            = .returned ⟨index, column, compCol, m.map (fun b => !b)⟩) := by
  have hrep : (List.replicate n false).length ≤ index.length := by simpa using hlen
  have c := fun op => filterConst_eq op index column comp (List.replicate n false) hrep hcol
  have d := fun op =>
    filterCol_eq op index column compCol (List.replicate n false) hrep hcol hcomp
  have e := fun test => orMask_false_eq_map test n index hlen
  have hle : ∀ a b : Int, decide (a ≤ b) = !decide (a > b) := by
    intro a b
    by_cases h : a ≤ b
    · simp [h, not_lt.mpr h]
    · simp [h, not_le.mp h]
  have hge : ∀ a b : Int, decide (a ≥ b) = !decide (a < b) := by
    intro a b
    by_cases h : a ≥ b
    · simp [h, not_lt.mpr h]
    · simp [h, not_le.mp h]
  have hne : ∀ a b : Int, decide (a ≠ b) = !decide (a = b) := by
    intro a b
    by_cases h : a = b <;> simp [h]
  refine ⟨⟨_, c _, ?_⟩, ⟨_, c _, ?_⟩, ⟨_, c _, ?_⟩, ⟨_, d _, ?_⟩, ⟨_, d _, ?_⟩, ⟨_, d _, ?_⟩⟩
  · rw [lte, c, e, e, List.map_map]
    simp only [hle, Function.comp_def]
  · rw [gte, c, e, e, List.map_map]
    simp only [hge, Function.comp_def]
  · rw [neq, c, e, e, List.map_map]
    simp only [hne, Function.comp_def]
  · rw [lte2, d, e, e, List.map_map]
    simp only [hle, Function.comp_def]
  · rw [gte2, d, e, e, List.map_map]
    simp only [hge, Function.comp_def]
  · rw [neq2, d, e, e, List.map_map]
    simp only [hne, Function.comp_def]

theorem complementary_comparators_witness :
    (5 ≤ [0, 1, 2, 3, 4].length ∧ (∀ p ∈ [0, 1, 2, 3, 4], p < [1, 2, 3, 4, 5].length)
      ∧ ∀ p ∈ [0, 1, 2, 3, 4], p < [3, 3, 3, 3, 3].length)
    ∧ ((∃ m : List Bool,
        gt [0, 1, 2, 3, 4] [1, 2, 3, 4, 5] 3 (List.replicate 5 false)
          = .returned ⟨[0, 1, 2, 3, 4], [1, 2, 3, 4, 5], m⟩
        ∧ lte [0, 1, 2, 3, 4] [1, 2, 3, 4, 5] 3 (List.replicate 5 false)
            = .returned ⟨[0, 1, 2, 3, 4], [1, 2, 3, 4, 5], m.map (fun b => !b)⟩)
    ∧ (∃ m : List Bool,
        lt [0, 1, 2, 3, 4] [1, 2, 3, 4, 5] 3 (List.replicate 5 false)
          = .returned ⟨[0, 1, 2, 3, 4], [1, 2, 3, 4, 5], m⟩
        ∧ gte [0, 1, 2, 3, 4] [1, 2, 3, 4, 5] 3 (List.replicate 5 false)
            = .returned ⟨[0, 1, 2, 3, 4], [1, 2, 3, 4, 5], m.map (fun b => !b)⟩)
    ∧ (∃ m : List Bool,
        eq [0, 1, 2, 3, 4] [1, 2, 3, 4, 5] 3 (List.replicate 5 false)
          = .returned ⟨[0, 1, 2, 3, 4], [1, 2, 3, 4, 5], m⟩
        ∧ neq [0, 1, 2, 3, 4] [1, 2, 3, 4, 5] 3 (List.replicate 5 false)
            = .returned ⟨[0, 1, 2, 3, 4], [1, 2, 3, 4, 5], m.map (fun b => !b)⟩)
    ∧ (∃ m : List Bool,
        gt2 [0, 1, 2, 3, 4] [1, 2, 3, 4, 5] [3, 3, 3, 3, 3] (List.replicate 5 false)
          = .returned ⟨[0, 1, 2, 3, 4], [1, 2, 3, 4, 5], [3, 3, 3, 3, 3], m⟩
        ∧ lte2 [0, 1, 2, 3, 4] [1, 2, 3, 4, 5] [3, 3, 3, 3, 3] (List.replicate 5 false)
            = .returned ⟨[0, 1, 2, 3, 4], [1, 2, 3, 4, 5], [3, 3, 3, 3, 3],
                m.map (fun b => !b)⟩)
    ∧ (∃ m : List Bool,
        lt2 [0, 1, 2, 3, 4] [1, 2, 3, 4, 5] [3, 3, 3, 3, 3] (List.replicate 5 false)
          = .returned ⟨[0, 1, 2, 3, 4], [1, 2, 3, 4, 5], [3, 3, 3, 3, 3], m⟩
        ∧ gte2 [0, 1, 2, 3, 4] [1, 2, 3, 4, 5] [3, 3, 3, 3, 3] (List.replicate 5 false)
            = .returned ⟨[0, 1, 2, 3, 4], [1, 2, 3, 4, 5], [3, 3, 3, 3, 3],
                m.map (fun b => !b)⟩)
    ∧ (∃ m : List Bool,
        eq2 [0, 1, 2, 3, 4] [1, 2, 3, 4, 5] [3, 3, 3, 3, 3] (List.replicate 5 false)
          = .returned ⟨[0, 1, 2, 3, 4], [1, 2, 3, 4, 5], [3, 3, 3, 3, 3], m⟩
        ∧ neq2 [0, 1, 2, 3, 4] [1, 2, 3, 4, 5] [3, 3, 3, 3, 3] (List.replicate 5 false)
            = .returned ⟨[0, 1, 2, 3, 4], [1, 2, 3, 4, 5], [3, 3, 3, 3, 3],
                m.map (fun b => !b)⟩)) :=
  ⟨⟨by decide, by decide, by decide⟩,
    complementary_comparators [0, 1, 2, 3, 4] [1, 2, 3, 4, 5] [3, 3, 3, 3, 3] 3 5
      (by decide) (by decide) (by decide)⟩

theorem test_complement :
    (gt [0, 1, 2, 3, 4] [1, 2, 3, 4, 5] 3 (List.replicate 5 false)).mem.bIndex
      = [false, false, false, true, true]
    ∧ (lte [0, 1, 2, 3, 4] [1, 2, 3, 4, 5] 3 (List.replicate 5 false)).mem.bIndex
      = [true, true, true, false, false] := by
  decide

/-- C19: clause order is irrelevant. For two calls taken from the twelve filter functions, each
with its own column and operand, over the same in-range index, and every mask no longer than
the index, running the first and then the second returns the same mask as running the second
and then the first. -/
theorem clause_order_irrelevant (c₁ c₂ : Call) (index : List Nat) (bIndex : List Bool)
    (hk₁ : c₁.Known) (hk₂ : c₂.Known) (hr₁ : c₁.InRange index) (hr₂ : c₂.InRange index)
    (hlen : bIndex.length ≤ index.length) :
    c₁.andThen c₂ index bIndex = c₂.andThen c₁ index bIndex
    ∧ (c₁.andThen c₂ index bIndex).isReturned = true := by
  obtain ⟨t₁, h₁⟩ := Call.run_eq c₁ index hk₁ hr₁
  obtain ⟨t₂, h₂⟩ := Call.run_eq c₂ index hk₂ hr₂
  have hl₁ : (orMask t₁ bIndex index).length ≤ index.length := by
    rw [length_orMask _ _ _ hlen]; exact hlen
  have hl₂ : (orMask t₂ bIndex index).length ≤ index.length := by
    rw [length_orMask _ _ _ hlen]; exact hlen
  have e₁ : c₁.andThen c₂ index bIndex
      = .returned (orMask (fun p => t₁ p || t₂ p) bIndex index) := by
    simp only [Call.andThen, h₁ bIndex hlen, h₂ _ hl₁, orMask_orMask]
  have e₂ : c₂.andThen c₁ index bIndex
      = .returned (orMask (fun p => t₁ p || t₂ p) bIndex index) := by
    simp only [Call.andThen, h₂ bIndex hlen, h₁ _ hl₂, orMask_orMask]
    rw [orMask_congr _ _ bIndex index (fun p _ => Bool.or_comm (t₂ p) (t₁ p))]
  rw [e₁, e₂]
  exact ⟨rfl, rfl⟩

theorem clause_order_irrelevant_witness :
    (Call.Known (.const gt [1, 2, 3] 2) ∧ Call.Known (.col lt2 [5, 1, 5] [2, 2, 2])
      ∧ Call.InRange (.const gt [1, 2, 3] 2) [2, 1, 0]
      ∧ Call.InRange (.col lt2 [5, 1, 5] [2, 2, 2]) [2, 1, 0]
      ∧ [false, false, false].length ≤ [2, 1, 0].length)
    ∧ (Call.andThen (.const gt [1, 2, 3] 2) (.col lt2 [5, 1, 5] [2, 2, 2]) [2, 1, 0]
          [false, false, false]
        = Call.andThen (.col lt2 [5, 1, 5] [2, 2, 2]) (.const gt [1, 2, 3] 2) [2, 1, 0]
          [false, false, false]
      ∧ (Call.andThen (.const gt [1, 2, 3] 2) (.col lt2 [5, 1, 5] [2, 2, 2]) [2, 1, 0]
          [false, false, false]).isReturned = true) :=
  have hk₁ : Call.Known (.const gt [1, 2, 3] 2) := by simp [Call.Known, kernels]
  have hk₂ : Call.Known (.col lt2 [5, 1, 5] [2, 2, 2]) := by simp [Call.Known, kernels2]
  have hr₁ : Call.InRange (.const gt [1, 2, 3] 2) [2, 1, 0] := by
    simp only [Call.InRange]; decide
  have hr₂ : Call.InRange (.col lt2 [5, 1, 5] [2, 2, 2]) [2, 1, 0] := by
    simp only [Call.InRange]; decide
  ⟨⟨hk₁, hk₂, hr₁, hr₂, by decide⟩,
    clause_order_irrelevant (.const gt [1, 2, 3] 2) (.col lt2 [5, 1, 5] [2, 2, 2]) [2, 1, 0]
      [false, false, false] hk₁ hk₂ hr₁ hr₂ (by decide)⟩

theorem test_order :
    Call.andThen (.const gt [1, 2, 3] 2) (.col lt2 [5, 1, 5] [2, 2, 2]) [2, 1, 0]
        [false, false, false] = .returned [true, true, false]
    ∧ Call.andThen (.col lt2 [5, 1, 5] [2, 2, 2]) (.const gt [1, 2, 3] 2) [2, 1, 0]
        [false, false, false] = .returned [true, true, false] := by
  decide

/-- C20: each filter function is idempotent. For a call taken from the twelve filter functions,
with the index in range and the mask no longer than the index, the call returns a mask, and
the same call on that mask returns it unchanged. -/
theorem filter_idempotent (c : Call) (index : List Nat) (bIndex : List Bool) (hk : c.Known)
    (hr : c.InRange index) (hlen : bIndex.length ≤ index.length) :
    ∃ m : List Bool, c.run index bIndex = .returned m ∧ c.run index m = .returned m := by
  obtain ⟨t, h⟩ := Call.run_eq c index hk hr
  have hl : (orMask t bIndex index).length ≤ index.length := by
    rw [length_orMask _ _ _ hlen]; exact hlen
  refine ⟨orMask t bIndex index, h bIndex hlen, ?_⟩
  rw [h _ hl, orMask_orMask]
  rw [orMask_congr _ _ bIndex index (fun p _ => Bool.or_self (t p))]

theorem filter_idempotent_witness :
    (Call.Known (.const neq [1, 2, 3] 2) ∧ Call.InRange (.const neq [1, 2, 3] 2) [2, 1, 0]
      ∧ [false, false, true].length ≤ [2, 1, 0].length)
    ∧ ∃ m : List Bool, Call.run (.const neq [1, 2, 3] 2) [2, 1, 0] [false, false, true]
        = .returned m ∧ Call.run (.const neq [1, 2, 3] 2) [2, 1, 0] m = .returned m :=
  have hk : Call.Known (.const neq [1, 2, 3] 2) := by simp [Call.Known, kernels]
  have hr : Call.InRange (.const neq [1, 2, 3] 2) [2, 1, 0] := by
    simp only [Call.InRange]; decide
  ⟨⟨hk, hr, by decide⟩,
    filter_idempotent (.const neq [1, 2, 3] 2) [2, 1, 0] [false, false, true] hk hr
      (by decide)⟩

/-! ## Re-indexing, decomposition, operand swap, constant columns -/

theorem reindex_cons {α : Type} (xs : List α) (k : Nat) (s : List Nat) (hk : k < xs.length) :
    reindex xs (k :: s) = xs[k] :: reindex xs s := by
  simp [reindex, List.filterMap_cons, List.getElem?_eq_getElem hk]

theorem mem_of_mem_reindex {α : Type} (xs : List α) (s : List Nat) (x : α)
    (hx : x ∈ reindex xs s) : x ∈ xs := by
  obtain ⟨k, _, hk⟩ := List.mem_filterMap.mp hx
  exact List.getElem?_mem hk

theorem getElem?_reindex {α : Type} (xs : List α) :
    ∀ (s : List Nat), (∀ k ∈ s, k < xs.length) →
      ∀ (j k : Nat), s[j]? = some k → (reindex xs s)[j]? = xs[k]? := by
  intro s
  induction s with
  | nil => intro _ j k h; simp at h
  | cons a rest ih =>
    intro hs j k h
    have ha : a < xs.length := hs a (List.mem_cons_self _ _)
    rw [reindex_cons xs a rest ha]
    cases j with
    | zero =>
      simp only [List.getElem?_cons_zero, Option.some.injEq] at h
      subst h
      simp [List.getElem?_eq_getElem ha]
    | succ j =>
      simp only [List.getElem?_cons_succ] at h ⊢
      exact ih (fun k hk => hs k (List.mem_cons_of_mem _ hk)) j k h

theorem length_reindex {α : Type} (xs : List α) :
    ∀ (s : List Nat), (∀ k ∈ s, k < xs.length) → (reindex xs s).length = s.length := by
  intro s
  induction s with
  | nil => intro _; rfl
  | cons a rest ih =>
    intro hs
    rw [reindex_cons xs a rest (hs a (List.mem_cons_self _ _))]
    simp [ih (fun k hk => hs k (List.mem_cons_of_mem _ hk))]

theorem orMask_reindex (test : Nat → Bool) (bIndex : List Bool) (index : List Nat)
    (hlen : bIndex.length = index.length) :
    ∀ s : List Nat, (∀ k ∈ s, k < index.length) →
      orMask test (reindex bIndex s) (reindex index s) = reindex (orMask test bIndex index) s := by
  intro s
  induction s with
  | nil => intro _; rfl
  | cons k rest ih =>
    intro hs
    have hk : k < index.length := hs k (List.mem_cons_self _ _)
    have hkb : k < bIndex.length := by omega
    have hko : k < (orMask test bIndex index).length := by
      rw [length_orMask _ _ _ (le_of_eq hlen)]; exact hkb
    have hrest := ih (fun j hj => hs j (List.mem_cons_of_mem _ hj))
    rw [reindex_cons bIndex k rest hkb, reindex_cons index k rest hk,
      reindex_cons (orMask test bIndex index) k rest hko]
    have hval : (orMask test bIndex index)[k] = (bIndex[k] || test index[k]) := by
      have h := getElem?_orMask test bIndex index k bIndex[k] index[k]
        (List.getElem?_eq_getElem hkb) (List.getElem?_eq_getElem hk)
      rw [List.getElem?_eq_getElem hko] at h
      exact Option.some.inj h
    rw [hval]
    simp only [orMask] at hrest ⊢
    rw [List.zipWith_cons_cons, hrest]

/-- A known call is the reference mask of one row test, the same for every index in range. -/
theorem Call.run_eq_uniform (c : Call) (hk : c.Known) :
    ∃ test : Nat → Bool, ∀ (index : List Nat) (bIndex : List Bool), c.InRange index →
      bIndex.length ≤ index.length →
      c.run index bIndex = .returned (orMask test bIndex index) := by
  cases c with
  | const f column comp =>
    obtain ⟨op, rfl⟩ := kernel_eq_filterConst f hk
    refine ⟨fun p => op (column.getD p 0) comp, fun index bIndex hr hlen => ?_⟩
    simp only [Call.run, filterConst_eq op index column comp bIndex hlen hr]
  | col f column compCol =>
    obtain ⟨op, rfl⟩ := kernel2_eq_filterCol f hk
    refine ⟨fun p => op (column.getD p 0) (compCol.getD p 0), fun index bIndex hr hlen => ?_⟩
    simp only [Call.run, filterCol_eq op index column compCol bIndex hlen hr.1 hr.2]

theorem Call.inRange_reindex (c : Call) (index s : List Nat) (hr : c.InRange index) :
    c.InRange (reindex index s) := by
  cases c with
  | const f column comp =>
    exact fun p hp => hr p (mem_of_mem_reindex index s p hp)
  | col f column compCol =>
    exact ⟨fun p hp => hr.1 p (mem_of_mem_reindex index s p hp),
      fun p hp => hr.2 p (mem_of_mem_reindex index s p hp)⟩

/-- C21: filtering commutes with re-indexing of the view. For a call taken from the twelve
filter functions, an in-range index, a mask of the same length and a list `s` of logical
positions, the call on the re-indexed index and mask returns the mask that the call on the
index and mask returns, re-indexed: at each `j` it holds the value found at position `s[j]`. -/
theorem filter_commutes_reindex (c : Call) (index : List Nat) (bIndex : List Bool)
    (s : List Nat) (hk : c.Known) (hr : c.InRange index)
    (hlen : bIndex.length = index.length) (hs : ∀ k ∈ s, k < index.length) :
    ∃ m m' : List Bool,
      c.run index bIndex = .returned m
      ∧ c.run (reindex index s) (reindex bIndex s) = .returned m'
      ∧ m'.length = s.length
      ∧ m' = reindex m s
      ∧ ∀ j k : Nat, s[j]? = some k → m'[j]? = m[k]? := by
  obtain ⟨t, ht⟩ := Call.run_eq_uniform c hk
  have hsb : ∀ k ∈ s, k < bIndex.length := fun k hk' => by rw [hlen]; exact hs k hk'
  have hlo : (orMask t bIndex index).length = index.length := by
    rw [length_orMask _ _ _ (le_of_eq hlen)]; exact hlen
  have hso : ∀ k ∈ s, k < (orMask t bIndex index).length :=
    fun k hk' => by rw [hlo]; exact hs k hk'
  refine ⟨orMask t bIndex index, reindex (orMask t bIndex index) s,
    ht index bIndex hr (le_of_eq hlen), ?_, length_reindex _ s hso, rfl,
    fun j k h => getElem?_reindex _ s hso j k h⟩
  rw [ht (reindex index s) (reindex bIndex s) (Call.inRange_reindex c index s hr)
    (by rw [length_reindex _ s hsb, length_reindex _ s hs])]
  rw [orMask_reindex t bIndex index hlen s hs]

theorem filter_commutes_reindex_witness :
    (Call.Known (.const gt [1, 2, 3, 4, 5] 3)
      ∧ Call.InRange (.const gt [1, 2, 3, 4, 5] 3) [4, 3, 2, 1, 0]
      ∧ [false, true, false, false, false].length = [4, 3, 2, 1, 0].length
      ∧ ∀ k ∈ [3, 0, 0, 4], k < [4, 3, 2, 1, 0].length)
    ∧ ∃ m m' : List Bool,
      Call.run (.const gt [1, 2, 3, 4, 5] 3) [4, 3, 2, 1, 0] [false, true, false, false, false]
        = .returned m
      ∧ Call.run (.const gt [1, 2, 3, 4, 5] 3) (reindex [4, 3, 2, 1, 0] [3, 0, 0, 4])
          (reindex [false, true, false, false, false] [3, 0, 0, 4]) = .returned m'
      ∧ m'.length = [3, 0, 0, 4].length
      ∧ m' = reindex m [3, 0, 0, 4]
      ∧ ∀ j k : Nat, [3, 0, 0, 4][j]? = some k → m'[j]? = m[k]? :=
  have hk : Call.Known (.const gt [1, 2, 3, 4, 5] 3) := by simp [Call.Known, kernels]
  have hr : Call.InRange (.const gt [1, 2, 3, 4, 5] 3) [4, 3, 2, 1, 0] := by
    simp only [Call.InRange]; decide
  ⟨⟨hk, hr, by decide, by decide⟩,
    filter_commutes_reindex (.const gt [1, 2, 3, 4, 5] 3) [4, 3, 2, 1, 0]
      [false, true, false, false, false] [3, 0, 0, 4] hk hr (by decide) (by decide)⟩

theorem test_reindex :
    Call.run (.const gt [1, 2, 3, 4, 5] 3) [4, 3, 2, 1, 0] [false, true, false, false, false]
      = .returned [true, true, false, false, false]
    ∧ Call.run (.const gt [1, 2, 3, 4, 5] 3) (reindex [4, 3, 2, 1, 0] [3, 0, 0, 4])
        (reindex [false, true, false, false, false] [3, 0, 0, 4])
      = .returned [false, true, true, false] := by
  decide

/-- Two constant-operand template calls one after the other on the same column and constant
leave the mask of the OR of the two operators. -/
theorem callSeq_pair (op₁ op₂ op : Int → Int → Bool) (hop : ∀ a b, (op₁ a b || op₂ a b) = op a b)
    (index : List Nat) (column : List Int) (comp : Int) (bIndex : List Bool)
    (hlen : bIndex.length ≤ index.length) (hcol : ∀ p ∈ index, p < column.length) :
    callSeq [(filterConst op₁, comp), (filterConst op₂, comp)] ⟨index, column, bIndex⟩
      = filterConst op index column comp bIndex := by
  have h₁ := filterConst_eq op₁ index column comp bIndex hlen hcol
  have hl : (orMask (fun p => op₁ (column.getD p 0) comp) bIndex index).length
      ≤ index.length := by
    rw [length_orMask _ _ _ hlen]; exact hlen
  have h₂ := filterConst_eq op₂ index column comp _ hl hcol
  simp only [callSeq, h₁, h₂, filterConst_eq op index column comp bIndex hlen hcol,
    orMask_orMask]
  rw [orMask_congr _ _ bIndex index (fun p _ => hop _ _)]

/-- C22: comparator decomposition. With the index in range and the mask no longer than the
index, `lt` followed by `eq` leaves what `lte` alone leaves, `gt` followed by `eq` what `gte`
alone leaves, and `lt` followed by `gt` what `neq` alone leaves; each of them returns. -/
theorem comparator_decomposition (index : List Nat) (column : List Int) (comp : Int)
    (bIndex : List Bool) (hlen : bIndex.length ≤ index.length)
    (hcol : ∀ p ∈ index, p < column.length) :
    callSeq [(lt, comp), (eq, comp)] ⟨index, column, bIndex⟩ = lte index column comp bIndex
    ∧ callSeq [(gt, comp), (eq, comp)] ⟨index, column, bIndex⟩ = gte index column comp bIndex
    ∧ callSeq [(lt, comp), (gt, comp)] ⟨index, column, bIndex⟩ = neq index column comp bIndex
    ∧ (lte index column comp bIndex).isReturned = true
    ∧ (gte index column comp bIndex).isReturned = true
    ∧ (neq index column comp bIndex).isReturned = true := by
  refine ⟨callSeq_pair _ _ _ ?_ index column comp bIndex hlen hcol,
    callSeq_pair _ _ _ ?_ index column comp bIndex hlen hcol,
    callSeq_pair _ _ _ ?_ index column comp bIndex hlen hcol,
    filterConst_isReturned _ index column comp bIndex hlen hcol,
    filterConst_isReturned _ index column comp bIndex hlen hcol,
    filterConst_isReturned _ index column comp bIndex hlen hcol⟩
  · intro a b
    rcases lt_trichotomy a b with h | h | h
    · simp [h, le_of_lt h]
    · simp [h]
    · simp [h, not_lt.mpr (le_of_lt h), not_le.mpr h, ne_of_gt h]
  · intro a b
    rcases lt_trichotomy a b with h | h | h
    · simp [h, not_lt.mpr (le_of_lt h), not_le.mpr h, ne_of_lt h]
    · simp [h]
    · simp [h, le_of_lt h]
  · intro a b
    rcases lt_trichotomy a b with h | h | h
    · simp [h, ne_of_lt h]
    · simp [h]
    · simp [h, ne_of_gt h]

theorem comparator_decomposition_witness :
    ([false, true, false, false, false].length ≤ [0, 1, 2, 3, 4].length
      ∧ ∀ p ∈ [0, 1, 2, 3, 4], p < [1, 2, 3, 4, 5].length)
    ∧ (callSeq [(lt, 3), (eq, 3)] ⟨[0, 1, 2, 3, 4], [1, 2, 3, 4, 5],
          [false, true, false, false, false]⟩
        = lte [0, 1, 2, 3, 4] [1, 2, 3, 4, 5] 3 [false, true, false, false, false]
      ∧ callSeq [(gt, 3), (eq, 3)] ⟨[0, 1, 2, 3, 4], [1, 2, 3, 4, 5],
          [false, true, false, false, false]⟩
        = gte [0, 1, 2, 3, 4] [1, 2, 3, 4, 5] 3 [false, true, false, false, false]
      ∧ callSeq [(lt, 3), (gt, 3)] ⟨[0, 1, 2, 3, 4], [1, 2, 3, 4, 5],
          [false, true, false, false, false]⟩
        = neq [0, 1, 2, 3, 4] [1, 2, 3, 4, 5] 3 [false, true, false, false, false]
      ∧ (lte [0, 1, 2, 3, 4] [1, 2, 3, 4, 5] 3
          [false, true, false, false, false]).isReturned = true
      ∧ (gte [0, 1, 2, 3, 4] [1, 2, 3, 4, 5] 3
          [false, true, false, false, false]).isReturned = true
      ∧ (neq [0, 1, 2, 3, 4] [1, 2, 3, 4, 5] 3
          [false, true, false, false, false]).isReturned = true) :=
  ⟨⟨by decide, by decide⟩,
    comparator_decomposition [0, 1, 2, 3, 4] [1, 2, 3, 4, 5] 3
      [false, true, false, false, false] (by decide) (by decide)⟩

/-- C23: operand swap of the column-vs-column comparators. With the index in range for two
columns `a` and `b` of equal length and the mask no longer than the index, `lt2(index, a, b)`
returns the mask that `gt2(index, b, a)` returns, `lte2(index, a, b)` the mask of
`gte2(index, b, a)`, and `eq2` and `neq2` return the same mask with `a` and `b` exchanged. -/
theorem operand_swap (index : List Nat) (a b : List Int) (bIndex : List Bool)
    (heq : a.length = b.length) (hlen : bIndex.length ≤ index.length)
    (ha : ∀ p ∈ index, p < a.length) :
    (∃ m : List Bool, lt2 index a b bIndex = .returned ⟨index, a, b, m⟩
        ∧ gt2 index b a bIndex = .returned ⟨index, b, a, m⟩)
    ∧ (∃ m : List Bool, lte2 index a b bIndex = .returned ⟨index, a, b, m⟩
        ∧ gte2 index b a bIndex = .returned ⟨index, b, a, m⟩)
    ∧ (∃ m : List Bool, eq2 index a b bIndex = .returned ⟨index, a, b, m⟩
        ∧ eq2 index b a bIndex = .returned ⟨index, b, a, m⟩)
    ∧ (∃ m : List Bool, neq2 index a b bIndex = .returned ⟨index, a, b, m⟩
        ∧ neq2 index b a bIndex = .returned ⟨index, b, a, m⟩) := by
  have hb : ∀ p ∈ index, p < b.length := fun p hp => heq ▸ ha p hp
  have d₁ := fun op => filterCol_eq op index a b bIndex hlen ha hb
  have d₂ := fun op => filterCol_eq op index b a bIndex hlen hb ha
  refine ⟨⟨_, d₁ _, ?_⟩, ⟨_, d₁ _, ?_⟩, ⟨_, d₁ _, ?_⟩, ⟨_, d₁ _, ?_⟩⟩
  · rw [gt2, d₂]
  · rw [gte2, d₂]
  · rw [eq2, d₂]
    have h := orMask_congr (fun p => decide (b.getD p 0 = a.getD p 0))
      (fun p => decide (a.getD p 0 = b.getD p 0)) bIndex index
      (fun p _ => decide_eq_decide.mpr ⟨Eq.symm, Eq.symm⟩)
    rw [h]
  · rw [neq2, d₂]
    have h := orMask_congr (fun p => decide (b.getD p 0 ≠ a.getD p 0))
      (fun p => decide (a.getD p 0 ≠ b.getD p 0)) bIndex index
      (fun p _ => decide_eq_decide.mpr ⟨Ne.symm, Ne.symm⟩)
    rw [h]

theorem operand_swap_witness :
    ([1, 5, 3].length = [2, 2, 3].length ∧ [false, false, false].length ≤ [2, 0, 1].length
      ∧ ∀ p ∈ [2, 0, 1], p < [1, 5, 3].length)
    ∧ ((∃ m : List Bool,
        lt2 [2, 0, 1] [1, 5, 3] [2, 2, 3] [false, false, false]
          = .returned ⟨[2, 0, 1], [1, 5, 3], [2, 2, 3], m⟩
        ∧ gt2 [2, 0, 1] [2, 2, 3] [1, 5, 3] [false, false, false]
          = .returned ⟨[2, 0, 1], [2, 2, 3], [1, 5, 3], m⟩)
      ∧ (∃ m : List Bool,
        lte2 [2, 0, 1] [1, 5, 3] [2, 2, 3] [false, false, false]
          = .returned ⟨[2, 0, 1], [1, 5, 3], [2, 2, 3], m⟩
        ∧ gte2 [2, 0, 1] [2, 2, 3] [1, 5, 3] [false, false, false]
          = .returned ⟨[2, 0, 1], [2, 2, 3], [1, 5, 3], m⟩)
      ∧ (∃ m : List Bool,
        eq2 [2, 0, 1] [1, 5, 3] [2, 2, 3] [false, false, false]
          = .returned ⟨[2, 0, 1], [1, 5, 3], [2, 2, 3], m⟩
        ∧ eq2 [2, 0, 1] [2, 2, 3] [1, 5, 3] [false, false, false]
          = .returned ⟨[2, 0, 1], [2, 2, 3], [1, 5, 3], m⟩)
      ∧ (∃ m : List Bool,
        neq2 [2, 0, 1] [1, 5, 3] [2, 2, 3] [false, false, false]
          = .returned ⟨[2, 0, 1], [1, 5, 3], [2, 2, 3], m⟩
        ∧ neq2 [2, 0, 1] [2, 2, 3] [1, 5, 3] [false, false, false]
          = .returned ⟨[2, 0, 1], [2, 2, 3], [1, 5, 3], m⟩)) :=
  ⟨⟨by decide, by decide, by decide⟩,
    operand_swap [2, 0, 1] [1, 5, 3] [2, 2, 3] [false, false, false] (by decide) (by decide)
      (by decide)⟩

/-- C24: the column-vs-column comparators generalise the constant comparators. With the index
in range and the mask no longer than the index, if `compCol` holds `comp` at every physical
position the index refers to, then each of `lt2 .. neq2` with `compCol` returns the mask that
the matching constant comparator returns with `comp`. -/
theorem column_generalises_constant (index : List Nat) (column compCol : List Int) (comp : Int)
    (bIndex : List Bool) (hlen : bIndex.length ≤ index.length)
    (hcol : ∀ p ∈ index, p < column.length) (hconst : ∀ p ∈ index, compCol[p]? = some comp) :
    (∃ m : List Bool, lt index column comp bIndex = .returned ⟨index, column, m⟩
        ∧ lt2 index column compCol bIndex = .returned ⟨index, column, compCol, m⟩)
    ∧ (∃ m : List Bool, lte index column comp bIndex = .returned ⟨index, column, m⟩
        ∧ lte2 index column compCol bIndex = .returned ⟨index, column, compCol, m⟩)
    ∧ (∃ m : List Bool, gt index column comp bIndex = .returned ⟨index, column, m⟩
        ∧ gt2 index column compCol bIndex = .returned ⟨index, column, compCol, m⟩)
    ∧ (∃ m : List Bool, gte index column comp bIndex = .returned ⟨index, column, m⟩
        ∧ gte2 index column compCol bIndex = .returned ⟨index, column, compCol, m⟩)
    ∧ (∃ m : List Bool, eq index column comp bIndex = .returned ⟨index, column, m⟩
        ∧ eq2 index column compCol bIndex = .returned ⟨index, column, compCol, m⟩)
    ∧ (∃ m : List Bool, neq index column comp bIndex = .returned ⟨index, column, m⟩
        ∧ neq2 index column compCol bIndex = .returned ⟨index, column, compCol, m⟩) := by
  have hcomp : ∀ p ∈ index, p < compCol.length := by
    intro p hp
    obtain ⟨h, _⟩ := List.getElem?_eq_some.mp (hconst p hp)
    exact h
  have hval : ∀ p ∈ index, compCol.getD p 0 = comp := by
    intro p hp
    rw [List.getD_eq_getElem?_getD, hconst p hp]
    rfl
  have c := fun op => filterConst_eq op index column comp bIndex hlen hcol
  have d := fun op => filterCol_eq op index column compCol bIndex hlen hcol hcomp
  have e : ∀ op : Int → Int → Bool,
      orMask (fun p => op (column.getD p 0) (compCol.getD p 0)) bIndex index
        = orMask (fun p => op (column.getD p 0) comp) bIndex index :=
    fun op => orMask_congr _ _ bIndex index (fun p hp => by rw [hval p hp])
  refine ⟨⟨_, c _, ?_⟩, ⟨_, c _, ?_⟩, ⟨_, c _, ?_⟩, ⟨_, c _, ?_⟩, ⟨_, c _, ?_⟩, ⟨_, c _, ?_⟩⟩
  · have h := e (fun a b => decide (a < b))
    rw [lt2, d, h]
  · have h := e (fun a b => decide (a ≤ b))
    rw [lte2, d, h]
  · have h := e (fun a b => decide (a > b))
    rw [gt2, d, h]
  · have h := e (fun a b => decide (a ≥ b))
    rw [gte2, d, h]
  · have h := e (fun a b => decide (a = b))
    rw [eq2, d, h]
  · have h := e (fun a b => decide (a ≠ b))
    rw [neq2, d, h]

theorem column_generalises_constant_witness :
    ([false, false, true].length ≤ [2, 0, 1].length ∧ (∀ p ∈ [2, 0, 1], p < [1, 5, 3].length)
      ∧ ∀ p ∈ [2, 0, 1], [3, 3, 3][p]? = some (3 : Int))
    ∧ ((∃ m : List Bool,
        lt [2, 0, 1] [1, 5, 3] 3 [false, false, true] = .returned ⟨[2, 0, 1], [1, 5, 3], m⟩
        ∧ lt2 [2, 0, 1] [1, 5, 3] [3, 3, 3] [false, false, true]
          = .returned ⟨[2, 0, 1], [1, 5, 3], [3, 3, 3], m⟩)
      ∧ (∃ m : List Bool,
        lte [2, 0, 1] [1, 5, 3] 3 [false, false, true] = .returned ⟨[2, 0, 1], [1, 5, 3], m⟩
        ∧ lte2 [2, 0, 1] [1, 5, 3] [3, 3, 3] [false, false, true]
          = .returned ⟨[2, 0, 1], [1, 5, 3], [3, 3, 3], m⟩)
      ∧ (∃ m : List Bool,
        gt [2, 0, 1] [1, 5, 3] 3 [false, false, true] = .returned ⟨[2, 0, 1], [1, 5, 3], m⟩
        ∧ gt2 [2, 0, 1] [1, 5, 3] [3, 3, 3] [false, false, true]
          = .returned ⟨[2, 0, 1], [1, 5, 3], [3, 3, 3], m⟩)
      ∧ (∃ m : List Bool,
        gte [2, 0, 1] [1, 5, 3] 3 [false, false, true] = .returned ⟨[2, 0, 1], [1, 5, 3], m⟩
        ∧ gte2 [2, 0, 1] [1, 5, 3] [3, 3, 3] [false, false, true]
          = .returned ⟨[2, 0, 1], [1, 5, 3], [3, 3, 3], m⟩)
      ∧ (∃ m : List Bool,
        eq [2, 0, 1] [1, 5, 3] 3 [false, false, true] = .returned ⟨[2, 0, 1], [1, 5, 3], m⟩
        ∧ eq2 [2, 0, 1] [1, 5, 3] [3, 3, 3] [false, false, true]
          = .returned ⟨[2, 0, 1], [1, 5, 3], [3, 3, 3], m⟩)
      ∧ (∃ m : List Bool,
        neq [2, 0, 1] [1, 5, 3] 3 [false, false, true] = .returned ⟨[2, 0, 1], [1, 5, 3], m⟩
        ∧ neq2 [2, 0, 1] [1, 5, 3] [3, 3, 3] [false, false, true]
          = .returned ⟨[2, 0, 1], [1, 5, 3], [3, 3, 3], m⟩)) :=
  ⟨⟨by decide, by decide, by decide⟩,
    column_generalises_constant [2, 0, 1] [1, 5, 3] [3, 3, 3] 3 [false, false, true]
      (by decide) (by decide) (by decide)⟩

theorem test_decomposition_swap :
    callSeq [(lt, 3), (gt, 3)] ⟨[0, 1, 2, 3, 4], [1, 2, 3, 4, 5],
        [false, false, false, false, false]⟩
      = .returned ⟨[0, 1, 2, 3, 4], [1, 2, 3, 4, 5], [true, true, false, true, true]⟩
    ∧ (lt2 [2, 0, 1] [1, 5, 3] [2, 2, 3] [false, false, false]).mem.bIndex
      = [false, true, false]
    ∧ (gt2 [2, 0, 1] [2, 2, 3] [1, 5, 3] [false, false, false]).mem.bIndex
      = [false, true, false] := by
  decide

end Icolumn

namespace Qframe

open Column

/-! ## Filter -/

theorem mem_of_lookup_eq_some {β : Type} (name : String) (b : β) :
    ∀ l : List (String × β), l.lookup name = some b → (name, b) ∈ l := by
  intro l
  induction l with
  | nil => intro h; simp at h
  | cons kb rest ih =>
    obtain ⟨k, v⟩ := kb
    intro h
    rw [List.lookup_cons] at h
    by_cases hk : name = k
    · subst hk
      simp only [beq_self_eq_true] at h
      cases h
      exact List.mem_cons_self _ _
    · have hne : (name == k) = false := by simpa using hk
      rw [hne] at h
      exact List.mem_cons_of_mem _ (ih h)

theorem column_inRange (qf : QFrame) (N : Nat) (name : String) (col : List Int)
    (hwf : WellFormed qf N) (hcol : qf.columns.lookup name = some col) :
    ∀ p ∈ qf.index, p < col.length := by
  intro p hp
  have hlen : col.length = N := hwf.1 (name, col) (mem_of_lookup_eq_some name col _ hcol)
  rw [hlen]
  exact hwf.2 p hp

theorem constKernel_eq (cmp : Comparator) :
    constKernel cmp = Icolumn.filterConst (fun a b => cmp.holds a b) := by
  cases cmp <;> rfl

theorem colKernel_eq (cmp : Comparator) :
    colKernel cmp = Icolumn.filterCol (fun a b => cmp.holds a b) := by
  cases cmp <;> rfl

theorem orMask_replicate (test : Nat → Bool) (index : List Nat) :
    Icolumn.orMask test (List.replicate index.length false) index = index.map test := by
  induction index with
  | nil => rfl
  | cons p rest ih =>
    simp only [Icolumn.orMask] at ih
    simp [Icolumn.orMask, List.replicate_succ, ih]

theorem indexFilter_map (test : Nat → Bool) (index : List Nat) :
    indexFilter index (index.map test) = index.filter test := by
  induction index with
  | nil => rfl
  | cons p rest ih =>
    simp only [indexFilter] at ih
    cases h : test p <;> simp [indexFilter, List.filter_cons, h, ih]

theorem zipWith_replicate_not (own : List Bool) :
    List.zipWith (fun x y => x || !y) (List.replicate own.length false) own
      = own.map (fun y => !y) := by
  induction own with
  | nil => rfl
  | cons y rest ih => simp [List.replicate_succ, ih]

theorem readAll_inRange (col : List Int) :
    ∀ l : List Nat, (∀ p ∈ l, p < col.length) →
      readAll col l = some (l.map (fun p => col.getD p 0)) := by
  intro l
  induction l with
  | nil => intro _; rfl
  | cons p rest ih =>
    intro h
    have hp : p < col.length := h p (List.mem_cons_self _ _)
    have hr := ih (fun q hq => h q (List.mem_cons_of_mem _ hq))
    simp [readAll, hr, List.getElem?_eq_getElem hp]

/-- A filter call with one constant-operand clause on a well-formed frame: the call returns a
frame that shares the columns and whose Index keeps, in order, the rows on which the naive
evaluator agrees with the clause (holds for a plain clause, fails for an inverted one). -/
theorem filter_single_const (qf : QFrame) (N : Nat) (name : String) (col : List Int)
    (cmp : Comparator) (c : Int) (inv : Bool) (hwf : WellFormed qf N) (herr : qf.Err = none)
    (hcol : qf.columns.lookup name = some col) :
    qf.Filter [⟨name, cmp, .const c, inv⟩]
      = some { qf with index := (qf.index.filter (fun p =>
          if inv then !(cmp.holds (col.getD p 0) c) else cmp.holds (col.getD p 0) c)) } := by
  have hrange := column_inRange qf N name col hwf hcol
  have hk := Icolumn.filterConst_eq (fun a b => cmp.holds a b) qf.index col c
    (List.replicate qf.index.length false) (by simp) hrange
  rw [orMask_replicate] at hk
  cases inv with
  | false =>
    simp only [QFrame.Filter, herr, Option.isSome_none, Bool.false_eq_true, if_false, filterMask,
      clauseMask, hcol, columnFilter, constKernel_eq, hk]
    rw [indexFilter_map]
  | true =>
    have hz := zipWith_replicate_not (qf.index.map (fun p => cmp.holds (col.getD p 0) c))
    rw [List.length_map] at hz
    simp only [QFrame.Filter, herr, Option.isSome_none, Bool.false_eq_true, if_false, filterMask,
      clauseMask, hcol, columnFilter, constKernel_eq, hk, if_true, hz, List.map_map]
    rw [indexFilter_map]
    rfl

theorem toSequence_filter (qf : QFrame) (N : Nat) (name : String) (col : List Int)
    (test : Int → Bool) (hwf : WellFormed qf N) (hcol : qf.columns.lookup name = some col) :
    ({ qf with index := qf.index.filter (fun p => test (col.getD p 0)) } : QFrame).toSequence name
      = (qf.toSequence name).map (fun vs => vs.filter test) := by
  have hrange := column_inRange qf N name col hwf hcol
  have hsub : ∀ p ∈ qf.index.filter (fun p => test (col.getD p 0)), p < col.length :=
    fun p hp => hrange p (List.mem_of_mem_filter hp)
  simp only [QFrame.toSequence, hcol, Option.some_bind, readAll_inRange col _ hrange,
    readAll_inRange col _ hsub, Option.map_some', List.filter_map]
  rfl

/-- C5: on a well-formed int frame without a latched error, a filter made of one constant
comparison on an existing column returns the frame whose Index is exactly the subsequence of
the input Index, order kept, of the rows on which the naive per-row evaluator says the
comparison holds; the result is no longer than the input, every retained row satisfies the
comparison, and the column read through the result is the input sequence filtered. -/
theorem filter_const_subsequence (qf : QFrame) (N : Nat) (name : String) (col : List Int)
    (cmp : Comparator) (c : Int) (hwf : WellFormed qf N) (herr : qf.Err = none)
    (hcol : qf.columns.lookup name = some col) :
    ∃ out : QFrame, qf.Filter [⟨name, cmp, .const c, false⟩] = some out
      ∧ out.Err = none ∧ out.columns = qf.columns
      ∧ out.index = qf.index.filter (fun p => cmp.holds (col.getD p 0) c)
      ∧ List.Sublist out.index qf.index
      ∧ out.index.length ≤ qf.index.length
      ∧ (∀ p ∈ out.index, ∃ v : Int, col[p]? = some v ∧ cmp.holds v c = true)
      ∧ out.toSequence name
          = (qf.toSequence name).map (fun vs => vs.filter (fun v => cmp.holds v c)) := by
  have hrange := column_inRange qf N name col hwf hcol
  refine ⟨_, filter_single_const qf N name col cmp c false hwf herr hcol, herr, rfl, rfl,
    List.filter_sublist _, List.length_filter_le _ _, ?_, ?_⟩
  · intro p hp
    simp only [Bool.false_eq_true, if_false, List.mem_filter] at hp
    have hlt : p < col.length := hrange p hp.1
    refine ⟨col[p], List.getElem?_eq_getElem hlt, ?_⟩
    have h2 := hp.2
    rwa [List.getD_eq_getElem _ 0 hlt] at h2
  · exact toSequence_filter qf N name col (fun v => cmp.holds v c) hwf hcol

theorem filter_const_subsequence_witness :
    (WellFormed ⟨[("COL1", [1, 2, 3, 4, 5])], [0, 1, 2, 3, 4], none⟩ 5
      ∧ (QFrame.mk [("COL1", [1, 2, 3, 4, 5])] [0, 1, 2, 3, 4] none).Err = none
      ∧ (QFrame.mk [("COL1", [1, 2, 3, 4, 5])] [0, 1, 2, 3, 4] none).columns.lookup "COL1"
          = some [1, 2, 3, 4, 5])
    ∧ ∃ out : QFrame,
      (QFrame.mk [("COL1", [1, 2, 3, 4, 5])] [0, 1, 2, 3, 4] none).Filter
          [⟨"COL1", .Gt, .const 3, false⟩] = some out
      ∧ out.Err = none
      ∧ out.columns = (QFrame.mk [("COL1", [1, 2, 3, 4, 5])] [0, 1, 2, 3, 4] none).columns
      ∧ out.index = (QFrame.mk [("COL1", [1, 2, 3, 4, 5])] [0, 1, 2, 3, 4] none).index.filter
          (fun p => Comparator.Gt.holds ([1, 2, 3, 4, 5].getD p 0) 3)
      ∧ List.Sublist out.index (QFrame.mk [("COL1", [1, 2, 3, 4, 5])] [0, 1, 2, 3, 4] none).index
      ∧ out.index.length
          ≤ (QFrame.mk [("COL1", [1, 2, 3, 4, 5])] [0, 1, 2, 3, 4] none).index.length
      ∧ (∀ p ∈ out.index, ∃ v : Int, [1, 2, 3, 4, 5][p]? = some v
          ∧ Comparator.Gt.holds v 3 = true)
      ∧ out.toSequence "COL1"
          = ((QFrame.mk [("COL1", [1, 2, 3, 4, 5])] [0, 1, 2, 3, 4] none).toSequence "COL1").map
              (fun vs => vs.filter (fun v => Comparator.Gt.holds v 3)) :=
  ⟨⟨by decide, rfl, by decide⟩,
    filter_const_subsequence ⟨[("COL1", [1, 2, 3, 4, 5])], [0, 1, 2, 3, 4], none⟩ 5 "COL1"
      [1, 2, 3, 4, 5] .Gt 3 (by decide) rfl (by decide)⟩

/-- C6: on a well-formed int frame without a latched error, a clause with comparator `>`,
argument `c` and the invert flag set returns the frame whose Index keeps, in the original
order, exactly the rows whose value is not greater than `c`. -/
theorem filter_inverse_gt (qf : QFrame) (N : Nat) (name : String) (col : List Int) (c : Int)
    (hwf : WellFormed qf N) (herr : qf.Err = none)
    (hcol : qf.columns.lookup name = some col) :
    ∃ out : QFrame, qf.Filter [⟨name, .Gt, .const c, true⟩] = some out
      ∧ out.Err = none ∧ out.columns = qf.columns
      ∧ out.index = qf.index.filter (fun p => decide (¬ col.getD p 0 > c))
      ∧ (∀ p ∈ qf.index, ∃ v : Int, col[p]? = some v ∧ (p ∈ out.index ↔ ¬ v > c))
      ∧ out.toSequence name
          = (qf.toSequence name).map (fun vs => vs.filter (fun v => decide (¬ v > c))) := by
  have hrange := column_inRange qf N name col hwf hcol
  have hidx : qf.index.filter
        (fun p => if true then !(Comparator.Gt.holds (col.getD p 0) c)
          else Comparator.Gt.holds (col.getD p 0) c)
      = qf.index.filter (fun p => decide (¬ col.getD p 0 > c)) := by
    congr 1
    funext p
    generalize col.getD p 0 = x
    rcases lt_or_le c x with h | h
    · simp [Comparator.holds, h]
    · simp [Comparator.holds, h, not_lt.mpr h]
  have hfil := filter_single_const qf N name col .Gt c true hwf herr hcol
  rw [hidx] at hfil
  refine ⟨_, hfil, herr, rfl, rfl, ?_, ?_⟩
  · intro p hp
    have hlt : p < col.length := hrange p hp
    refine ⟨col[p], List.getElem?_eq_getElem hlt, ?_⟩
    simp [List.mem_filter, hp, List.getElem?_eq_getElem hlt]
  · exact toSequence_filter qf N name col (fun v => decide (¬ v > c)) hwf hcol

theorem filter_inverse_gt_witness :
    (WellFormed ⟨[("COL1", [1, 2, 3, 4, 5])], [0, 1, 2, 3, 4], none⟩ 5
      ∧ (QFrame.mk [("COL1", [1, 2, 3, 4, 5])] [0, 1, 2, 3, 4] none).Err = none
      ∧ (QFrame.mk [("COL1", [1, 2, 3, 4, 5])] [0, 1, 2, 3, 4] none).columns.lookup "COL1"
          = some [1, 2, 3, 4, 5])
    ∧ ∃ out : QFrame,
      (QFrame.mk [("COL1", [1, 2, 3, 4, 5])] [0, 1, 2, 3, 4] none).Filter
          [⟨"COL1", .Gt, .const 4, true⟩] = some out
      ∧ out.Err = none
      ∧ out.columns = (QFrame.mk [("COL1", [1, 2, 3, 4, 5])] [0, 1, 2, 3, 4] none).columns
      ∧ out.index = (QFrame.mk [("COL1", [1, 2, 3, 4, 5])] [0, 1, 2, 3, 4] none).index.filter
          (fun p => decide (¬ [1, 2, 3, 4, 5].getD p 0 > 4))
      ∧ (∀ p ∈ (QFrame.mk [("COL1", [1, 2, 3, 4, 5])] [0, 1, 2, 3, 4] none).index,
          ∃ v : Int, [1, 2, 3, 4, 5][p]? = some v ∧ (p ∈ out.index ↔ ¬ v > 4))
      ∧ out.toSequence "COL1"
          = ((QFrame.mk [("COL1", [1, 2, 3, 4, 5])] [0, 1, 2, 3, 4] none).toSequence "COL1").map
              (fun vs => vs.filter (fun v => decide (¬ v > 4))) :=
  ⟨⟨by decide, rfl, by decide⟩,
    filter_inverse_gt ⟨[("COL1", [1, 2, 3, 4, 5])], [0, 1, 2, 3, 4], none⟩ 5 "COL1"
      [1, 2, 3, 4, 5] 4 (by decide) rfl (by decide)⟩

theorem test_filter_inverse :
    ((QFrame.mk [("COL1", [1, 2, 3, 4, 5])] [0, 1, 2, 3, 4] none).Filter
      [⟨"COL1", .Gt, .const 4, true⟩]).bind (fun q => q.toSequence "COL1")
        = some [1, 2, 3, 4] := by
  decide

/-! ## Sort -/

theorem comparables_isSome (qf : QFrame) :
    ∀ orders : List Order, (∀ o ∈ orders, (qf.columns.lookup o.column).isSome = true) →
      ∃ cs, comparables qf orders = some cs := by
  intro orders
  induction orders with
  | nil => intro _; exact ⟨[], rfl⟩
  | cons o rest ih =>
    intro h
    obtain ⟨cs, hcs⟩ := ih (fun o' ho' => h o' (List.mem_cons_of_mem _ ho'))
    obtain ⟨col, hcol⟩ := Option.isSome_iff_exists.mp (h o (List.mem_cons_self _ _))
    exact ⟨Icolumn.Comparable col o.reverse :: cs, by simp [comparables, hcol, hcs]⟩

theorem comparables_cons (qf : QFrame) (o : Order) (rest : List Order) (cs : List Comparable)
    (h : comparables qf (o :: rest) = some cs) :
    ∃ col cs', qf.columns.lookup o.column = some col ∧ comparables qf rest = some cs'
      ∧ cs = Icolumn.Comparable col o.reverse :: cs' := by
  simp only [comparables] at h
  split at h
  · next col cs' hcol hcs =>
    cases h
    exact ⟨col, cs', hcol, hcs, rfl⟩
  · cases h

/-- The composite comparator built from the key list agrees with the lexicographic order on the
column values: it says `GreaterThan` exactly when the rows are not in that order. -/
theorem notAfter_iff_keysLe (qf : QFrame) :
    ∀ (orders : List Order) (cs : List Comparable), comparables qf orders = some cs →
      ∀ i j, notAfter cs i j ↔ keysLe qf orders i j := by
  intro orders
  induction orders with
  | nil =>
    intro cs h i j
    simp only [comparables] at h
    cases h
    simp [notAfter, compareRows, keysLe]
  | cons o rest ih =>
    intro cs h i j
    obtain ⟨oname, rev⟩ := o
    obtain ⟨col, cs', hcol, hcs, rfl⟩ := comparables_cons qf _ rest cs h
    have hrest := ih cs' hcs i j
    simp only [notAfter] at hrest
    simp only [notAfter, compareRows, keysLe, hcol, Icolumn.Comparable]
    generalize col.getD i 0 = x
    generalize col.getD j 0 = y
    rcases lt_trichotomy x y with hxy | hxy | hxy
    · have h1 : ¬ y < x := not_lt.mpr (le_of_lt hxy)
      have h2 : x ≠ y := ne_of_lt hxy
      cases rev <;> simp [hxy, h1, h2]
    · subst hxy
      simp only [lt_self_iff_false, if_false, gt_iff_lt, ite_self, false_or, true_and]
      exact hrest
    · have h1 : ¬ x < y := not_lt.mpr (le_of_lt hxy)
      have h2 : x ≠ y := (ne_of_lt hxy).symm
      cases rev <;> simp [hxy, h1, h2]

theorem keysLe_total (qf : QFrame) :
    ∀ (orders : List Order) (cs : List Comparable), comparables qf orders = some cs →
      ∀ i j, keysLe qf orders i j ∨ keysLe qf orders j i := by
  intro orders
  induction orders with
  | nil => intro _ _ i j; exact Or.inl trivial
  | cons o rest ih =>
    intro cs h i j
    obtain ⟨oname, rev⟩ := o
    obtain ⟨col, cs', hcol, hcs, rfl⟩ := comparables_cons qf _ rest _ h
    simp only [keysLe, hcol]
    rcases lt_trichotomy (col.getD i 0) (col.getD j 0) with hxy | hxy | hxy
    · cases rev
      · exact Or.inl (Or.inl (by simpa using hxy))
      · exact Or.inr (Or.inl (by simpa using hxy))
    · rcases ih cs' hcs i j with hr | hr
      · exact Or.inl (Or.inr ⟨hxy, hr⟩)
      · exact Or.inr (Or.inr ⟨hxy.symm, hr⟩)
    · cases rev
      · exact Or.inr (Or.inl (by simpa using hxy))
      · exact Or.inl (Or.inl (by simpa using hxy))

theorem keysLe_trans (qf : QFrame) :
    ∀ (orders : List Order) (i j k : Nat),
      keysLe qf orders i j → keysLe qf orders j k → keysLe qf orders i k := by
  intro orders
  induction orders with
  | nil => intro _ _ _ _ _; trivial
  | cons o rest ih =>
    intro i j k h1 h2
    obtain ⟨oname, rev⟩ := o
    simp only [keysLe] at h1 h2 ⊢
    cases hcol : qf.columns.lookup oname with
    | none => simp only [hcol] at h1
    | some col =>
    simp only [hcol] at h1 h2 ⊢
    rcases h1 with h1 | ⟨e1, r1⟩
    · rcases h2 with h2 | ⟨e2, _⟩
      · left
        cases rev
        · simp only [Bool.false_eq_true, if_false] at h1 h2 ⊢; omega
        · simp only [if_true] at h1 h2 ⊢; omega
      · left
        rw [← e2]; exact h1
    · rcases h2 with h2 | ⟨e2, r2⟩
      · left
        rw [e1]; exact h2
      · right
        exact ⟨e1.trans e2, ih i j k r1 r2⟩

/-- Rows with the same sort-key tuple are in order both ways. -/
theorem keysLe_of_keyTuple_eq (qf : QFrame) :
    ∀ (orders : List Order) (cs : List Comparable), comparables qf orders = some cs →
      ∀ i j, keyTuple qf orders i = keyTuple qf orders j → keysLe qf orders i j := by
  intro orders
  induction orders with
  | nil => intro _ _ _ _ _; trivial
  | cons o rest ih =>
    intro cs h i j ht
    obtain ⟨col, cs', hcol, hcs, rfl⟩ := comparables_cons qf o rest _ h
    simp only [keyTuple, List.map_cons, hcol, Option.some_bind, List.cons.injEq] at ht
    simp only [keysLe, hcol]
    refine Or.inr ⟨?_, ih cs' hcs i j ht.2⟩
    simp only [List.getD_eq_getElem?_getD, ht.1]

theorem sort_eq (qf : QFrame) (orders : List Order) (cs : List Comparable)
    (herr : qf.Err = none) (hcs : comparables qf orders = some cs) :
    qf.Sort orders = { qf with index := stableSort cs qf.index } := by
  simp [QFrame.Sort, herr, hcs]

/-- C9: on a well-formed int frame without a latched error, sorting by keys that all name a
column gives a frame with the same columns whose Index is a permutation of the input Index,
and in which every adjacent pair of rows (indeed every pair) is in non-decreasing order under
the composite order of the keys: the first key on which two rows differ decides, a reversed
key descending and every other key ascending. -/
theorem sort_sorted_perm (qf : QFrame) (N : Nat) (orders : List Order) (hwf : WellFormed qf N)
    (herr : qf.Err = none)
    (hkeys : ∀ o ∈ orders, (qf.columns.lookup o.column).isSome = true) :
    (qf.Sort orders).Err = none
    ∧ (qf.Sort orders).columns = qf.columns
    ∧ List.Perm (qf.Sort orders).index qf.index
    ∧ List.Chain' (keysLe qf orders) (qf.Sort orders).index
    ∧ List.Pairwise (keysLe qf orders) (qf.Sort orders).index
    ∧ WellFormed (qf.Sort orders) N := by
  obtain ⟨cs, hcs⟩ := comparables_isSome qf orders hkeys
  rw [sort_eq qf orders cs herr hcs]
  have hperm : List.Perm (stableSort cs qf.index) qf.index := List.perm_insertionSort _ _
  haveI : IsTotal Nat (notAfter cs) :=
    ⟨fun i j => by
      rw [notAfter_iff_keysLe qf orders cs hcs, notAfter_iff_keysLe qf orders cs hcs]
      exact keysLe_total qf orders cs hcs i j⟩
  haveI : IsTrans Nat (notAfter cs) :=
    ⟨fun i j k h1 h2 => by
      rw [notAfter_iff_keysLe qf orders cs hcs] at h1 h2 ⊢
      exact keysLe_trans qf orders i j k h1 h2⟩
  have hsorted : List.Pairwise (keysLe qf orders) (stableSort cs qf.index) :=
    (List.sorted_insertionSort (notAfter cs) qf.index).imp
      (fun h => (notAfter_iff_keysLe qf orders cs hcs _ _).mp h)
  exact ⟨herr, rfl, hperm, hsorted.chain', hsorted,
    hwf.1, fun p hp => hwf.2 p (hperm.mem_iff.mp hp)⟩

theorem sort_sorted_perm_witness :
    (WellFormed ⟨[("COL.1", [0, 1, 3, 2]), ("COL.2", [3, 2, 1, 1])], [0, 1, 2, 3], none⟩ 4
      ∧ (QFrame.mk [("COL.1", [0, 1, 3, 2]), ("COL.2", [3, 2, 1, 1])] [0, 1, 2, 3] none).Err
          = none
      ∧ ∀ o ∈ [Order.mk "COL.2" false, Order.mk "COL.1" false],
          ((QFrame.mk [("COL.1", [0, 1, 3, 2]), ("COL.2", [3, 2, 1, 1])] [0, 1, 2, 3]
            none).columns.lookup o.column).isSome = true)
    ∧ (((QFrame.mk [("COL.1", [0, 1, 3, 2]), ("COL.2", [3, 2, 1, 1])] [0, 1, 2, 3] none).Sort
          [⟨"COL.2", false⟩, ⟨"COL.1", false⟩]).Err = none
      ∧ ((QFrame.mk [("COL.1", [0, 1, 3, 2]), ("COL.2", [3, 2, 1, 1])] [0, 1, 2, 3] none).Sort
          [⟨"COL.2", false⟩, ⟨"COL.1", false⟩]).columns
          = (QFrame.mk [("COL.1", [0, 1, 3, 2]), ("COL.2", [3, 2, 1, 1])] [0, 1, 2, 3]
              none).columns
      ∧ List.Perm
          ((QFrame.mk [("COL.1", [0, 1, 3, 2]), ("COL.2", [3, 2, 1, 1])] [0, 1, 2, 3] none).Sort
            [⟨"COL.2", false⟩, ⟨"COL.1", false⟩]).index
          (QFrame.mk [("COL.1", [0, 1, 3, 2]), ("COL.2", [3, 2, 1, 1])] [0, 1, 2, 3] none).index
      ∧ List.Chain'
          (keysLe ⟨[("COL.1", [0, 1, 3, 2]), ("COL.2", [3, 2, 1, 1])], [0, 1, 2, 3], none⟩
            [⟨"COL.2", false⟩, ⟨"COL.1", false⟩])
          ((QFrame.mk [("COL.1", [0, 1, 3, 2]), ("COL.2", [3, 2, 1, 1])] [0, 1, 2, 3] none).Sort
            [⟨"COL.2", false⟩, ⟨"COL.1", false⟩]).index
      ∧ List.Pairwise
          (keysLe ⟨[("COL.1", [0, 1, 3, 2]), ("COL.2", [3, 2, 1, 1])], [0, 1, 2, 3], none⟩
            [⟨"COL.2", false⟩, ⟨"COL.1", false⟩])
          ((QFrame.mk [("COL.1", [0, 1, 3, 2]), ("COL.2", [3, 2, 1, 1])] [0, 1, 2, 3] none).Sort
            [⟨"COL.2", false⟩, ⟨"COL.1", false⟩]).index
      ∧ WellFormed
          ((QFrame.mk [("COL.1", [0, 1, 3, 2]), ("COL.2", [3, 2, 1, 1])] [0, 1, 2, 3] none).Sort
            [⟨"COL.2", false⟩, ⟨"COL.1", false⟩]) 4) :=
  ⟨⟨by decide, rfl, by decide⟩,
    sort_sorted_perm ⟨[("COL.1", [0, 1, 3, 2]), ("COL.2", [3, 2, 1, 1])], [0, 1, 2, 3], none⟩ 4
      [⟨"COL.2", false⟩, ⟨"COL.1", false⟩] (by decide) rfl (by decide)⟩

/-- C10: sort is stable. On a frame without a latched error and keys that all name a column,
the rows that carry any given sort-key tuple `t` appear in the result in the same order as in
the input: the subsequence of rows with key tuple `t` is the same before and after. -/
theorem sort_stable (qf : QFrame) (orders : List Order) (t : List (Option Int))
    (herr : qf.Err = none)
    (hkeys : ∀ o ∈ orders, (qf.columns.lookup o.column).isSome = true) :
    (qf.Sort orders).index.filter (fun p => decide (keyTuple qf orders p = t))
      = qf.index.filter (fun p => decide (keyTuple qf orders p = t)) := by
  obtain ⟨cs, hcs⟩ := comparables_isSome qf orders hkeys
  rw [sort_eq qf orders cs herr hcs]
  have hpair : (qf.index.filter (fun p => decide (keyTuple qf orders p = t))).Pairwise
      (notAfter cs) := by
    refine (List.pairwise_of_forall (fun _ _ => trivial) :
      List.Pairwise (fun _ _ : Nat => True) _).imp_of_mem ?_
    intro a b ha hb _
    have ha' := (List.mem_filter.mp ha).2
    have hb' := (List.mem_filter.mp hb).2
    simp only [decide_eq_true_eq] at ha' hb'
    exact (notAfter_iff_keysLe qf orders cs hcs a b).mpr
      (keysLe_of_keyTuple_eq qf orders cs hcs a b (ha'.trans hb'.symm))
  have hsub := List.sublist_insertionSort hpair (List.filter_sublist qf.index)
  have hsub2 := hsub.filter (fun p => decide (keyTuple qf orders p = t))
  rw [List.filter_filter] at hsub2
  simp only [Bool.and_self] at hsub2
  have hperm : List.Perm
      ((stableSort cs qf.index).filter (fun p => decide (keyTuple qf orders p = t)))
      (qf.index.filter (fun p => decide (keyTuple qf orders p = t))) :=
    (List.perm_insertionSort _ _).filter _
  exact (hsub2.eq_of_length hperm.length_eq.symm).symm

theorem sort_stable_witness :
    ((QFrame.mk [("COL.1", [0, 1, 3, 2]), ("COL.2", [1, 1, 1, 1])] [0, 1, 2, 3] none).Err = none
      ∧ ∀ o ∈ [Order.mk "COL.2" true],
          ((QFrame.mk [("COL.1", [0, 1, 3, 2]), ("COL.2", [1, 1, 1, 1])] [0, 1, 2, 3]
            none).columns.lookup o.column).isSome = true)
    ∧ ((QFrame.mk [("COL.1", [0, 1, 3, 2]), ("COL.2", [1, 1, 1, 1])] [0, 1, 2, 3] none).Sort
          [⟨"COL.2", true⟩]).index.filter
          (fun p => decide (keyTuple
            ⟨[("COL.1", [0, 1, 3, 2]), ("COL.2", [1, 1, 1, 1])], [0, 1, 2, 3], none⟩
            [⟨"COL.2", true⟩] p = [some 1]))
        = (QFrame.mk [("COL.1", [0, 1, 3, 2]), ("COL.2", [1, 1, 1, 1])] [0, 1, 2, 3]
            none).index.filter
          (fun p => decide (keyTuple
            ⟨[("COL.1", [0, 1, 3, 2]), ("COL.2", [1, 1, 1, 1])], [0, 1, 2, 3], none⟩
            [⟨"COL.2", true⟩] p = [some 1])) :=
  ⟨⟨rfl, by decide⟩,
    sort_stable ⟨[("COL.1", [0, 1, 3, 2]), ("COL.2", [1, 1, 1, 1])], [0, 1, 2, 3], none⟩
      [⟨"COL.2", true⟩] [some 1] rfl (by decide)⟩

theorem test_sort_stability :
    ((QFrame.mk [("COL.1", [0, 1, 3, 2]), ("COL.2", [1, 1, 1, 1])] [0, 1, 2, 3] none).Sort
      [⟨"COL.2", true⟩, ⟨"COL.1", false⟩]).toSequence "COL.1" = some [0, 1, 2, 3]
    ∧ ((QFrame.mk [("COL.1", [0, 1, 3, 2]), ("COL.2", [1, 1, 1, 1])] [0, 1, 2, 3] none).Sort
      [⟨"COL.2", true⟩]).toSequence "COL.1" = some [0, 1, 3, 2] := by
  decide

theorem test_keysLe :
    keysLe ⟨[("COL.1", [0, 1, 3, 2]), ("COL.2", [3, 2, 1, 1])], [0, 1, 2, 3], none⟩
        [⟨"COL.2", false⟩, ⟨"COL.1", false⟩] 3 2
    ∧ ¬ keysLe ⟨[("COL.1", [0, 1, 3, 2]), ("COL.2", [3, 2, 1, 1])], [0, 1, 2, 3], none⟩
        [⟨"COL.2", false⟩, ⟨"COL.1", false⟩] 2 3
    ∧ keysLe ⟨[("COL.1", [0, 1, 3, 2]), ("COL.2", [3, 2, 1, 1])], [0, 1, 2, 3], none⟩
        [⟨"COL.2", true⟩, ⟨"COL.1", false⟩] 0 3 := by
  decide

theorem test_filter_gt :
    ((QFrame.mk [("COL1", [1, 2, 3, 4, 5])] [0, 1, 2, 3, 4] none).Filter
      [⟨"COL1", .Gt, .const 3, false⟩]).bind (fun q => q.toSequence "COL1") = some [4, 5] := by
  decide

theorem test_sort_two_keys :
    ((QFrame.mk [("COL.1", [0, 1, 3, 2]), ("COL.2", [3, 2, 1, 1])] [0, 1, 2, 3] none).Sort
      [⟨"COL.2", false⟩, ⟨"COL.1", false⟩]).toSequence "COL.1" = some [2, 3, 1, 0] := by
  decide

/-! ## Slice -/

/-- C16: on a frame without a latched error, `Slice(start, end)` with `start ≤ end ≤ length`
shares the columns and gives, for every column, exactly the rows at the logical positions
`start .. end - 1` of the input, in the same order, `end - start` of them; on an empty frame
the result is the frame itself. -/
theorem slice_rows (qf : Frame) (start stop : Nat) (herr : qf.Err = none)
    (h₁ : start ≤ stop) (h₂ : stop ≤ qf.index.length) :
    (qf.Slice start stop).columns = qf.columns
    ∧ (qf.Slice start stop).Err = none
    ∧ (qf.Slice start stop).index.length = stop - start
    ∧ (∀ k : Nat, k < stop - start → (qf.Slice start stop).index[k]? = qf.index[start + k]?)
    ∧ (∀ name : String, (qf.Slice start stop).rows name
        = (qf.rows name).map (fun r => (r.drop start).take (stop - start)))
    ∧ (∀ (name : String) (r : List (Option Cell)), qf.rows name = some r →
        ∃ r' : List (Option Cell), (qf.Slice start stop).rows name = some r'
          ∧ r'.length = stop - start ∧ ∀ k : Nat, k < stop - start → r'[k]? = r[start + k]?)
    ∧ (qf.index = [] → qf.Slice start stop = qf) := by
  have hs : qf.Slice start stop = { qf with index := (qf.index.drop start).take (stop - start) } := by
    simp [Frame.Slice, herr]
  have hrows : ∀ name : String, (qf.Slice start stop).rows name
      = (qf.rows name).map (fun r => (r.drop start).take (stop - start)) := by
    intro name
    rw [hs]
    simp only [Frame.rows, Option.map_map]
    congr 1
    funext c
    simp only [Function.comp, List.map_take, List.map_drop]
  refine ⟨by rw [hs], by rw [hs]; exact herr, ?_, ?_, hrows, ?_, ?_⟩
  · rw [hs]
    simp only [List.length_take, List.length_drop]
    omega
  · intro k hk
    rw [hs]
    simp only [List.getElem?_take, hk, if_true, List.getElem?_drop]
  · intro name r hr
    refine ⟨(r.drop start).take (stop - start), by rw [hrows, hr]; rfl, ?_, ?_⟩
    · have hlen : r.length = qf.index.length := by
        simp only [Frame.rows] at hr
        cases hc : qf.columns.lookup name with
        | none => rw [hc] at hr; cases hr
        | some c =>
          rw [hc] at hr
          simp only [Option.map_some', Option.some.injEq] at hr
          rw [← hr, List.length_map]
      simp only [List.length_take, List.length_drop]
      omega
    · intro k hk
      simp only [List.getElem?_take, hk, if_true, List.getElem?_drop]
  · intro hnil
    rw [hs, hnil]
    cases qf
    simp_all

theorem slice_rows_witness :
    ((Frame.mk [("COL.1", .float [0.0, 1.5, 2.5, 3.5]), ("COL.2", .int [1, 2, 3, 4])]
        [0, 1, 2, 3] none).Err = none
      ∧ 1 ≤ 3
      ∧ 3 ≤ (Frame.mk [("COL.1", .float [0.0, 1.5, 2.5, 3.5]), ("COL.2", .int [1, 2, 3, 4])]
        [0, 1, 2, 3] none).index.length)
    ∧ ((Frame.mk [("COL.1", .float [0.0, 1.5, 2.5, 3.5]), ("COL.2", .int [1, 2, 3, 4])]
          [0, 1, 2, 3] none).Slice 1 3).index.length = 3 - 1
    ∧ ∀ name : String,
        ((Frame.mk [("COL.1", .float [0.0, 1.5, 2.5, 3.5]), ("COL.2", .int [1, 2, 3, 4])]
          [0, 1, 2, 3] none).Slice 1 3).rows name
        = ((Frame.mk [("COL.1", .float [0.0, 1.5, 2.5, 3.5]), ("COL.2", .int [1, 2, 3, 4])]
          [0, 1, 2, 3] none).rows name).map (fun r => (r.drop 1).take (3 - 1)) :=
  ⟨⟨rfl, by decide, by decide⟩,
    (slice_rows ⟨[("COL.1", .float [0.0, 1.5, 2.5, 3.5]), ("COL.2", .int [1, 2, 3, 4])],
      [0, 1, 2, 3], none⟩ 1 3 rfl (by decide) (by decide)).2.2.1,
    (slice_rows ⟨[("COL.1", .float [0.0, 1.5, 2.5, 3.5]), ("COL.2", .int [1, 2, 3, 4])],
      [0, 1, 2, 3], none⟩ 1 3 rfl (by decide) (by decide)).2.2.2.2.1⟩

theorem test_slice :
    ((Frame.mk [("COL.1", .float [0.0, 1.5, 2.5, 3.5]), ("COL.2", .int [1, 2, 3, 4])]
        [0, 1, 2, 3] none).Slice 1 3).rows "COL.2" = some [some (.int 2), some (.int 3)]
    ∧ ((Frame.mk [("COL.1", .float [0.0, 1.5, 2.5, 3.5]), ("COL.2", .int [1, 2, 3, 4])]
        [0, 1, 2, 3] none).Slice 1 3).rows "COL.1"
        = some [some (.float 1.5), some (.float 2.5)]
    ∧ ((Frame.mk [("COL.1", .int []), ("COL.2", .int [])] [] none).Slice 0 0).index = [] :=
  ⟨rfl, rfl, rfl⟩

/-! ## Typed views -/

/-- C17: for every frame and column name, each typed view accessor (`IntView`, `FloatView`,
`BoolView`, `StringView`, `EnumView`) returns the no-such-column error when the frame has no
column of that name, the invalid-column-type error when the named column is of another
variant, and otherwise returns a view of that column through the current Index of the frame:
its length is the length of the Index and its items are the values of the column in the
current logical row order. -/
theorem typed_views (qf : Frame) (colName : String) :
    ((qf.columns.lookup colName = none →
        qf.IntView colName = .error (.noSuchColumn "IntView" colName))
      ∧ (∀ c : AnyColumn, qf.columns.lookup colName = some c → (∀ d, c ≠ .int d) →
          qf.IntView colName = .error (.invalidColumnType "IntView" "int" c.DataType))
      ∧ (∀ d, qf.columns.lookup colName = some (.int d) →
          ∃ v : View (Int), qf.IntView colName = .ok v
            ∧ v.Len = qf.index.length
            ∧ (∀ i : Nat, v.ItemAt i = (qf.index[i]?).bind (fun p => d[p]?))
            ∧ v.Slice = qf.index.map (fun p => d[p]?)))
    ∧
    ((qf.columns.lookup colName = none →
        qf.FloatView colName = .error (.noSuchColumn "FloatView" colName))
      ∧ (∀ c : AnyColumn, qf.columns.lookup colName = some c → (∀ d, c ≠ .float d) →
          qf.FloatView colName = .error (.invalidColumnType "FloatView" "float" c.DataType))
      ∧ (∀ d, qf.columns.lookup colName = some (.float d) →
          ∃ v : View (Float), qf.FloatView colName = .ok v
            ∧ v.Len = qf.index.length
            ∧ (∀ i : Nat, v.ItemAt i = (qf.index[i]?).bind (fun p => d[p]?))
            ∧ v.Slice = qf.index.map (fun p => d[p]?)))
    ∧
    ((qf.columns.lookup colName = none →
        qf.BoolView colName = .error (.noSuchColumn "BoolView" colName))
      ∧ (∀ c : AnyColumn, qf.columns.lookup colName = some c → (∀ d, c ≠ .bool d) →
          qf.BoolView colName = .error (.invalidColumnType "BoolView" "bool" c.DataType))
      ∧ (∀ d, qf.columns.lookup colName = some (.bool d) →
          ∃ v : View (Bool), qf.BoolView colName = .ok v
            ∧ v.Len = qf.index.length
            ∧ (∀ i : Nat, v.ItemAt i = (qf.index[i]?).bind (fun p => d[p]?))
            ∧ v.Slice = qf.index.map (fun p => d[p]?)))
    ∧
    ((qf.columns.lookup colName = none →
        qf.StringView colName = .error (.noSuchColumn "StringView" colName))
      ∧ (∀ c : AnyColumn, qf.columns.lookup colName = some c → (∀ d, c ≠ .string d) →
          qf.StringView colName = .error (.invalidColumnType "StringView" "string" c.DataType))
      ∧ (∀ d, qf.columns.lookup colName = some (.string d) →
          ∃ v : View (Option String), qf.StringView colName = .ok v
            ∧ v.Len = qf.index.length
            ∧ (∀ i : Nat, v.ItemAt i = (qf.index[i]?).bind (fun p => d[p]?))
            ∧ v.Slice = qf.index.map (fun p => d[p]?)))
    ∧
    ((qf.columns.lookup colName = none →
        qf.EnumView colName = .error (.noSuchColumn "EnumView" colName))
      ∧ (∀ c : AnyColumn, qf.columns.lookup colName = some c → (∀ d, c ≠ .enum d) →
          qf.EnumView colName = .error (.invalidColumnType "EnumView" "enum" c.DataType))
      ∧ (∀ d, qf.columns.lookup colName = some (.enum d) →
          ∃ v : View (Option String), qf.EnumView colName = .ok v
            ∧ v.Len = qf.index.length
            ∧ (∀ i : Nat, v.ItemAt i = (qf.index[i]?).bind (fun p => (d.data[p]?).map d.decode))
            ∧ v.Slice = qf.index.map (fun p => (d.data[p]?).map d.decode))) := by
  refine ⟨?_, ?_, ?_, ?_, ?_⟩
  · refine ⟨fun h => by simp only [Frame.IntView, h], fun c h hne => ?_, fun d h => ?_⟩
    · cases c with
      | int d => exact absurd rfl (hne d)
      | _ => simp only [Frame.IntView, h, AnyColumn.DataType]
    · exact ⟨⟨d, qf.index⟩, by simp only [Frame.IntView, h], rfl,
        fun i => by simp only [View.ItemAt], by simp only [View.Slice]⟩
  · refine ⟨fun h => by simp only [Frame.FloatView, h], fun c h hne => ?_, fun d h => ?_⟩
    · cases c with
      | float d => exact absurd rfl (hne d)
      | _ => simp only [Frame.FloatView, h, AnyColumn.DataType]
    · exact ⟨⟨d, qf.index⟩, by simp only [Frame.FloatView, h], rfl,
        fun i => by simp only [View.ItemAt], by simp only [View.Slice]⟩
  · refine ⟨fun h => by simp only [Frame.BoolView, h], fun c h hne => ?_, fun d h => ?_⟩
    · cases c with
      | bool d => exact absurd rfl (hne d)
      | _ => simp only [Frame.BoolView, h, AnyColumn.DataType]
    · exact ⟨⟨d, qf.index⟩, by simp only [Frame.BoolView, h], rfl,
        fun i => by simp only [View.ItemAt], by simp only [View.Slice]⟩
  · refine ⟨fun h => by simp only [Frame.StringView, h], fun c h hne => ?_, fun d h => ?_⟩
    · cases c with
      | string d => exact absurd rfl (hne d)
      | _ => simp only [Frame.StringView, h, AnyColumn.DataType]
    · exact ⟨⟨d, qf.index⟩, by simp only [Frame.StringView, h], rfl,
        fun i => by simp only [View.ItemAt], by simp only [View.Slice]⟩
  · refine ⟨fun h => by simp only [Frame.EnumView, h], fun c h hne => ?_, fun d h => ?_⟩
    · cases c with
      | enum d => exact absurd rfl (hne d)
      | _ => simp only [Frame.EnumView, h, AnyColumn.DataType]
    · exact ⟨⟨d.data.map d.decode, qf.index⟩, by simp only [Frame.EnumView, h], rfl,
        fun i => by simp only [View.ItemAt, List.getElem?_map], by simp only [View.Slice, List.getElem?_map]⟩

theorem typed_views_witness :
    (∃ v : View Float,
        (Frame.mk [("COL1", .float [1.5, 0.5, 3.0])] [1, 0, 2] none).FloatView "COL1" = .ok v
        ∧ v.Len = (Frame.mk [("COL1", .float [1.5, 0.5, 3.0])] [1, 0, 2] none).index.length
        ∧ (∀ i : Nat, v.ItemAt i
            = ((Frame.mk [("COL1", .float [1.5, 0.5, 3.0])] [1, 0, 2] none).index[i]?).bind
                (fun p => ([1.5, 0.5, 3.0] : List Float)[p]?))
        ∧ v.Slice = (Frame.mk [("COL1", .float [1.5, 0.5, 3.0])] [1, 0, 2] none).index.map
            (fun p => ([1.5, 0.5, 3.0] : List Float)[p]?))
    ∧ (Frame.mk [("COL1", .float [1.5, 0.5, 3.0])] [1, 0, 2] none).IntView "COL1"
        = .error (.invalidColumnType "IntView" "int"
            (AnyColumn.float [1.5, 0.5, 3.0]).DataType)
    ∧ (Frame.mk [("COL1", .float [1.5, 0.5, 3.0])] [1, 0, 2] none).EnumView "COL2"
        = .error (.noSuchColumn "EnumView" "COL2") :=
  ⟨(typed_views ⟨[("COL1", .float [1.5, 0.5, 3.0])], [1, 0, 2], none⟩ "COL1").2.1.2.2
      [1.5, 0.5, 3.0] rfl,
    (typed_views ⟨[("COL1", .float [1.5, 0.5, 3.0])], [1, 0, 2], none⟩ "COL1").1.2.1
      (.float [1.5, 0.5, 3.0]) rfl (fun _ h => AnyColumn.noConfusion h),
    (typed_views ⟨[("COL1", .float [1.5, 0.5, 3.0])], [1, 0, 2], none⟩ "COL2").2.2.2.2.1 rfl⟩

theorem test_views :
    ((Frame.mk [("COL1", .float [1.5, 0.5, 3.0])] [1, 0, 2] none).FloatView "COL1").map
        View.Slice = .ok [some 0.5, some 1.5, some 3.0]
    ∧ isError ((Frame.mk [("COL1", .float [1.5, 0.5, 3.0])] [1, 0, 2] none).IntView "COL1")
        = true
    ∧ isError ((Frame.mk [("COL1", .float [1.5, 0.5, 3.0])] [1, 0, 2] none).FloatView "COL2")
        = true
    ∧ (((QFrame.mk [("COL1", [15, 5, 30])] [0, 1, 2] none).Sort [⟨"COL1", false⟩]).toFrame.IntView
        "COL1").map View.Slice = .ok [some 5, some 15, some 30] :=
  ⟨rfl, rfl, rfl, rfl⟩

/-! ## Enum cardinality -/

theorem enumNew_error (input : List (Option String)) (e : Error)
    (h : Ecolumn.New input = .error e) : e = Error.CardinalityExceeded := by
  simp only [Ecolumn.New] at h
  split at h
  · cases h; rfl
  · cases h

theorem build_error (input : ColumnInput) (e : Error) (h : input.build = .error e) :
    e = Error.CardinalityExceeded := by
  cases input with
  | enum data =>
    simp only [ColumnInput.build] at h
    cases hn : Ecolumn.New data with
    | error e' =>
      rw [hn] at h
      cases h
      exact enumNew_error data _ hn
    | ok col =>
      rw [hn] at h
      cases h
  | _ => simp [ColumnInput.build] at h

theorem buildColumns_error (inputs : List (String × ColumnInput)) (e : Error)
    (h : buildColumns inputs = .error e) : e = Error.CardinalityExceeded := by
  induction inputs with
  | nil => simp [buildColumns] at h
  | cons ni rest ih =>
    obtain ⟨name, input⟩ := ni
    simp only [buildColumns] at h
    split at h
    · next e' he' => cases h; exact build_error input _ he'
    · split at h
      · next e' he' => cases h; exact ih he'
      · cases h

theorem buildColumns_fails (name : String) (input : ColumnInput) (e : Error)
    (hb : input.build = .error e) :
    ∀ inputs : List (String × ColumnInput), (name, input) ∈ inputs →
      ∃ e', buildColumns inputs = .error e' := by
  intro inputs
  induction inputs with
  | nil => intro h; simp at h
  | cons ni rest ih =>
    intro h
    obtain ⟨name', input'⟩ := ni
    simp only [buildColumns]
    rcases List.mem_cons.mp h with heq | hrest
    · cases heq
      rw [hb]
      exact ⟨e, rfl⟩
    · cases hin : input'.build with
      | error e' => exact ⟨e', rfl⟩
      | ok col =>
        obtain ⟨e', he'⟩ := ih hrest
        rw [he']
        exact ⟨e', rfl⟩

theorem length_le_distinctValues (input : List (Option String)) (ds : List String)
    (hnodup : ds.Nodup) (hobs : ∀ d ∈ ds, some d ∈ input) :
    ds.length ≤ (Ecolumn.distinctValues input).length := by
  apply List.Subperm.length_le
  apply hnodup.subperm
  intro d hd
  simp only [Ecolumn.distinctValues, List.mem_dedup, List.mem_filterMap, id]
  exact ⟨some d, hobs d hd, rfl⟩

/-- C15: when more than 255 distinct values are observed in the input of an enum column whose
dictionary is inferred (`ds` lists more than 255 distinct observed values), building the
column fails with the max-cardinality error, and the frame built from inputs that contain
this column carries that error and no column and no row. -/
theorem enum_cardinality (inputs : List (String × ColumnInput)) (name : String)
    (values : List (Option String)) (ds : List String)
    (hmem : (name, ColumnInput.enum values) ∈ inputs) (hnodup : ds.Nodup)
    (hobs : ∀ d ∈ ds, some d ∈ values) (hcard : 255 < ds.length) :
    Ecolumn.New values = .error Error.CardinalityExceeded
    ∧ (Frame.New inputs).Err = some Error.CardinalityExceeded
    ∧ (Frame.New inputs).columns = []
    ∧ (Frame.New inputs).index = [] := by
  have hlen := length_le_distinctValues values ds hnodup hobs
  have hnew : Ecolumn.New values = .error Error.CardinalityExceeded := by
    simp only [Ecolumn.New, Ecolumn.maxCardinality]
    rw [if_pos (by omega)]
  have hb : (ColumnInput.enum values).build = .error Error.CardinalityExceeded := by
    simp only [ColumnInput.build, hnew]
  obtain ⟨e, he⟩ := buildColumns_fails name _ _ hb inputs hmem
  have hee := buildColumns_error inputs e he
  subst hee
  refine ⟨hnew, ?_, ?_, ?_⟩ <;> simp only [Frame.New, he]

theorem enum_cardinality_witness :
    (("foo", ColumnInput.enum ((List.range 256).map (fun n => some (Nat.repr n))))
        ∈ [("foo", ColumnInput.enum ((List.range 256).map (fun n => some (Nat.repr n))))]
      ∧ ((List.range 256).map Nat.repr).Nodup
      ∧ (∀ d ∈ (List.range 256).map Nat.repr,
          some d ∈ (List.range 256).map (fun n => some (Nat.repr n)))
      ∧ 255 < ((List.range 256).map Nat.repr).length)
    ∧ (Ecolumn.New ((List.range 256).map (fun n => some (Nat.repr n)))
        = .error Error.CardinalityExceeded
      ∧ (Frame.New
          [("foo", ColumnInput.enum ((List.range 256).map (fun n => some (Nat.repr n))))]).Err
          = some Error.CardinalityExceeded
      ∧ (Frame.New
          [("foo", ColumnInput.enum ((List.range 256).map (fun n => some (Nat.repr n))))]).columns
          = []
      ∧ (Frame.New
          [("foo", ColumnInput.enum ((List.range 256).map (fun n => some (Nat.repr n))))]).index
          = []) :=
  have hmem : ("foo", ColumnInput.enum ((List.range 256).map (fun n => some (Nat.repr n))))
      ∈ [("foo", ColumnInput.enum ((List.range 256).map (fun n => some (Nat.repr n))))] :=
    List.mem_singleton.mpr rfl
  have hnodup : ((List.range 256).map Nat.repr).Nodup := by decide!
  have hobs : ∀ d ∈ (List.range 256).map Nat.repr,
      some d ∈ (List.range 256).map (fun n => some (Nat.repr n)) := by
    intro d hd
    obtain ⟨n, hn, rfl⟩ := List.mem_map.mp hd
    exact List.mem_map.mpr ⟨n, hn, rfl⟩
  have hcard : 255 < ((List.range 256).map Nat.repr).length := by
    rw [List.length_map, List.length_range]; decide
  ⟨⟨hmem, hnodup, hobs, hcard⟩,
    enum_cardinality _ "foo" ((List.range 256).map (fun n => some (Nat.repr n)))
      ((List.range 256).map Nat.repr) hmem hnodup hobs hcard⟩

theorem test_enum_ok :
    (Frame.New [("foo", ColumnInput.enum [some "b", none, some "a", some "b"])]).Err = none
    ∧ Ecolumn.New [some "b", none, some "a", some "b"] = .ok ⟨["a", "b"], [1, 255, 0, 1]⟩ :=
  ⟨rfl, rfl⟩

end Qframe

namespace Qframe

open Column

/-! ## Partition of the rows into groups -/

theorem addRow_of_not_mem {κ : Type} [DecidableEq κ] (key : κ) (p : Nat) :
    ∀ G : List (Group κ), key ∉ G.map (fun g => g.key) →
      addRow key p G = G ++ [⟨key, [p]⟩] := by
  intro G
  induction G with
  | nil => intro _; rfl
  | cons g rest ih =>
    intro h
    simp only [List.map_cons, List.mem_cons, not_or] at h
    have hne : g.key ≠ key := fun hc => h.1 hc.symm
    simp only [addRow, hne, if_false, ih h.2, List.cons_append]

theorem addRow_of_mem {κ : Type} [DecidableEq κ] (key : κ) (p : Nat) :
    ∀ G : List (Group κ), (G.map (fun g => g.key)).Nodup → key ∈ G.map (fun g => g.key) →
      addRow key p G
        = G.map (fun g => if g.key = key then ⟨g.key, g.rows ++ [p]⟩ else g) := by
  intro G
  induction G with
  | nil => intro _ h; simp at h
  | cons g rest ih =>
    intro hnd hmem
    simp only [List.map_cons, List.nodup_cons] at hnd
    by_cases hk : g.key = key
    · have hrest : rest.map (fun g => if g.key = key then ⟨g.key, g.rows ++ [p]⟩ else g)
          = rest := by
        conv_rhs => rw [← List.map_id rest]
        apply List.map_congr_left
        intro g' hg'
        have hne : g'.key ≠ key := by
          intro hc
          apply hnd.1
          rw [hk, ← hc]
          exact List.mem_map.mpr ⟨g', hg', rfl⟩
        simp [hne]
      simp only [addRow, hk, if_true, List.map_cons, hrest]
    · have hmem' : key ∈ rest.map (fun g => g.key) := by
        simp only [List.map_cons, List.mem_cons] at hmem
        rcases hmem with h | h
        · exact absurd h.symm hk
        · exact h
      simp only [addRow, hk, if_false, List.map_cons, ih hnd.2 hmem']

theorem isPartition_step {κ : Type} [DecidableEq κ] (rk : Nat → κ) (pre : List Nat)
    (G : List (Group κ)) (p : Nat) (h : IsPartition rk pre G) :
    IsPartition rk (pre ++ [p]) (addRow (rk p) p G) := by
  obtain ⟨h1, h2, h3⟩ := h
  have hnd : (G.map (fun g => g.key)).Nodup :=
    h1.imp (fun {s t} hlt heq => by subst heq; exact lt_irrefl _ hlt)
  have hidx : ∀ s ∈ G.map (fun g => g.key),
      ((pre ++ [p]).map rk).indexOf s = (pre.map rk).indexOf s := by
    intro s hs
    rw [List.map_append, List.indexOf_append_of_mem ((h2 s).mp hs)]
  by_cases hk : rk p ∈ G.map (fun g => g.key)
  · rw [addRow_of_mem _ _ G hnd hk]
    have hkeys : (G.map (fun g => if g.key = rk p then (⟨g.key, g.rows ++ [p]⟩ : Group κ)
        else g)).map (fun g => g.key) = G.map (fun g => g.key) := by
      rw [List.map_map]
      apply List.map_congr_left
      intro g _
      simp only [Function.comp]
      split <;> rfl
    have hpre : rk p ∈ pre.map rk := (h2 _).mp hk
    refine ⟨?_, ?_, ?_⟩
    · rw [hkeys]
      refine h1.imp_of_mem ?_
      intro s t hs ht hlt
      rw [hidx s hs, hidx t ht]
      exact hlt
    · intro t
      rw [hkeys, h2, List.map_append, List.mem_append]
      constructor
      · exact Or.inl
      · rintro (ht | ht)
        · exact ht
        · simp only [List.map_cons, List.map_nil, List.mem_singleton] at ht
          rw [ht]; exact hpre
    · intro g' hg'
      obtain ⟨g, hg, rfl⟩ := List.mem_map.mp hg'
      by_cases hgk : g.key = rk p
      · simp [hgk, List.filter_append, h3 g hg]
      · have hne : rk p ≠ g.key := fun hc => hgk hc.symm
        simp [hgk, List.filter_append, h3 g hg, hne]
  · rw [addRow_of_not_mem _ _ G hk]
    have hpre : rk p ∉ pre.map rk := fun hc => hk ((h2 _).mpr hc)
    refine ⟨?_, ?_, ?_⟩
    · have hmap : (G ++ [(⟨rk p, [p]⟩ : Group κ)]).map (fun g => g.key)
          = G.map (fun g => g.key) ++ [rk p] := by simp
      rw [hmap, List.pairwise_append]
      refine ⟨h1.imp_of_mem ?_, List.pairwise_singleton _ _, ?_⟩
      · intro s t hs ht hlt
        rw [hidx s hs, hidx t ht]
        exact hlt
      · intro s hs t ht
        simp only [List.mem_singleton] at ht
        subst ht
        rw [hidx s hs, List.map_append, List.indexOf_append_of_not_mem hpre]
        have hlt := List.indexOf_lt_length.mpr ((h2 s).mp hs)
        simp only [List.map_cons, List.map_nil, List.indexOf_cons_self]
        omega
    · intro t
      simp only [List.map_append, List.mem_append, h2, List.map_cons, List.map_nil,
        List.mem_singleton]
    · intro g hg
      rcases List.mem_append.mp hg with hg | hg
      · have hne : rk p ≠ g.key :=
          fun hc => hk (hc ▸ List.mem_map.mpr ⟨g, hg, rfl⟩)
        simp [List.filter_append, h3 g hg, hne]
      · simp only [List.mem_singleton] at hg
        subst hg
        have hnil : pre.filter (fun q => decide (rk q = rk p)) = [] := by
          rw [List.filter_eq_nil_iff]
          intro a ha hc
          exact hpre (List.mem_map.mpr ⟨a, ha, of_decide_eq_true hc⟩)
        simp [List.filter_append, hnil]

theorem isPartition_foldl {κ : Type} [DecidableEq κ] (rk : Nat → κ) :
    ∀ (rest pre : List Nat) (G : List (Group κ)), IsPartition rk pre G →
      IsPartition rk (pre ++ rest)
        (rest.foldl (fun groups p => addRow (rk p) p groups) G) := by
  intro rest
  induction rest with
  | nil => intro pre G h; simpa using h
  | cons p rest ih =>
    intro pre G h
    have h' := ih (pre ++ [p]) _ (isPartition_step rk pre G p h)
    simpa [List.append_assoc] using h'

/-- The scan of §4.5 yields the partition of the rows in first-occurrence order. -/
theorem isPartition_groupRows {κ : Type} [DecidableEq κ] (rk : Nat → κ) (index : List Nat) :
    IsPartition rk index (groupRows rk index) := by
  have h := isPartition_foldl rk index [] []
    ⟨List.Pairwise.nil, fun t => by simp, fun g hg => by simp at hg⟩
  simpa [groupRows] using h

theorem head?_filter (q : Nat → Bool) (l : List Nat) : (l.filter q).head? = l.find? q := by
  induction l with
  | nil => rfl
  | cons a rest ih =>
    cases h : q a <;> simp [List.filter_cons, List.find?_cons, h, ih]

theorem headD_of_head? (l : List Nat) (p d : Nat) (h : l.head? = some p) : l.headD d = p := by
  cases l with
  | nil => simp at h
  | cons a rest => simpa using h

/-- Two rows hold the same values in the named columns exactly when their key tuples are
equal. -/
theorem sameKey_iff (qf : QFrame) (names : List String) (p q : Nat) :
    sameKey qf names p q = true ↔ rowKey qf.columns names p = rowKey qf.columns names q := by
  unfold sameKey rowKey
  rw [List.all_eq_true, List.map_inj_left]
  refine forall_congr' (fun n => forall_congr' (fun _ => ?_))
  cases qf.columns.lookup n <;> simp

theorem sameKey_eq (qf : QFrame) (names : List String) (p q : Nat) :
    sameKey qf names p q
      = decide (rowKey qf.columns names p = rowKey qf.columns names q) := by
  rw [Bool.eq_iff_iff, sameKey_iff, decide_eq_true_iff]

/-- The first row of the Index with the key of `p` stands where that key first occurs. -/
theorem indexOf_first {κ : Type} [DecidableEq κ] (rk : Nat → κ) (p : Nat) :
    ∀ index : List Nat, index.find? (fun q => decide (rk q = rk p)) = some p →
      index.indexOf p = (index.map rk).indexOf (rk p) := by
  intro index
  induction index with
  | nil => intro h; simp at h
  | cons a rest ih =>
    intro h
    by_cases ha : rk a = rk p
    · have hap : a = p := by simpa [List.find?_cons, ha] using h
      subst hap
      simp
    · have hne : a ≠ p := fun hc => ha (by rw [hc])
      have h' : rest.find? (fun q => decide (rk q = rk p)) = some p := by
        simpa [List.find?_cons, ha] using h
      rw [List.indexOf_cons_ne _ hne, List.map_cons, List.indexOf_cons_ne _ ha, ih h']

/-- Every group of a partition has a first row; it is the first row of the Index with the key
of the group, and the group holds exactly the rows with the key of that row. -/
theorem partition_group {κ : Type} [DecidableEq κ] (rk : Nat → κ) (index : List Nat)
    (G : List (Group κ)) (h : IsPartition rk index G) :
    ∀ g ∈ G, ∃ p, g.rows.head? = some p ∧ rk p = g.key
      ∧ index.find? (fun q => decide (rk q = rk p)) = some p
      ∧ g.rows = index.filter (fun q => decide (rk q = rk p)) := by
  intro g hg
  obtain ⟨_, h2, h3⟩ := h
  have hmem := (h2 g.key).mp (List.mem_map.mpr ⟨g, hg, rfl⟩)
  obtain ⟨a, ha, hak⟩ := List.mem_map.mp hmem
  have hhead : g.rows.head? = index.find? (fun p => decide (rk p = g.key)) := by
    rw [h3 g hg, head?_filter]
  cases hf : index.find? (fun p => decide (rk p = g.key)) with
  | none =>
    rw [List.find?_eq_none] at hf
    exact absurd (decide_eq_true hak) (hf a ha)
  | some p =>
    have hdec := List.find?_some hf
    have hp : rk p = g.key := by simpa using hdec
    refine ⟨p, by rw [hhead, hf], hp, by rw [hp]; exact hf, by rw [hp]; exact h3 g hg⟩

/-- The groups of a partition stand in the order in which their first rows first occur in the
Index. -/
theorem partition_order {κ : Type} [DecidableEq κ] (rk : Nat → κ) (index : List Nat)
    (G : List (Group κ)) (h : IsPartition rk index G) :
    G.Pairwise (fun a b => index.indexOf (a.rows.headD 0) < index.indexOf (b.rows.headD 0)) := by
  have hG := partition_group rk index G h
  obtain ⟨h1, _, _⟩ := h
  rw [List.pairwise_map] at h1
  refine h1.imp_of_mem ?_
  intro a b ha hb hlt
  obtain ⟨p, hh, hp, hf, _⟩ := hG a ha
  obtain ⟨q, hh', hq, hf', _⟩ := hG b hb
  rw [headD_of_head? _ _ _ hh, headD_of_head? _ _ _ hh', indexOf_first rk p index hf,
    indexOf_first rk q index hf', hp, hq]
  exact hlt

/-! ## Group-by with aggregation -/

theorem keyColumns_spec (qf : QFrame) (groups : List (List Nat)) :
    ∀ names : List String, (∀ n ∈ names, (qf.columns.lookup n).isSome = true) →
      ∃ ks, keyColumns qf groups names = some ks
        ∧ (∀ (n : String) (col : List Int), n ∈ names → qf.columns.lookup n = some col →
            ks.lookup n = some (groups.map (fun rows => col.getD (rows.headD 0) 0)))
        ∧ (∀ n : String, n ∉ names → ks.lookup n = none) := by
  intro names
  induction names with
  | nil => intro _; exact ⟨[], rfl, fun n col hn => by simp at hn, fun n _ => rfl⟩
  | cons m rest ih =>
    intro h
    obtain ⟨ks, hks, hfound, hnone⟩ := ih (fun n hn => h n (List.mem_cons_of_mem _ hn))
    obtain ⟨mcol, hm⟩ := Option.isSome_iff_exists.mp (h m (List.mem_cons_self _ _))
    refine ⟨(m, groups.map (fun rows => mcol.getD (rows.headD 0) 0)) :: ks,
      by simp [keyColumns, hm, hks], ?_, ?_⟩
    · intro n col hn hcol
      by_cases hnm : n = m
      · subst hnm
        rw [hm] at hcol
        cases hcol
        simp [List.lookup_cons]
      · have hne : (n == m) = false := by simpa using hnm
        rw [List.lookup_cons, hne]
        rcases List.mem_cons.mp hn with hc | hc
        · exact absurd hc hnm
        · exact hfound n col hc hcol
    · intro n hn
      simp only [List.mem_cons, not_or] at hn
      have hne : (n == m) = false := by simpa using hn.1
      rw [List.lookup_cons, hne]
      exact hnone n hn.2

theorem readAll_range (data : List Int) : readAll data (List.range data.length) = some data := by
  rw [readAll_inRange data _ (fun p hp => List.mem_range.mp hp)]
  congr 1
  apply List.ext_getElem
  · simp
  · intro i h₁ h₂
    simp only [List.getElem_map, List.getElem_range]
    exact List.getD_eq_getElem _ 0 h₂

theorem toSequence_range (columns : List (String × List Int)) (k : Nat) (e : Option Error)
    (name : String) (data : List Int) (hl : columns.lookup name = some data)
    (hlen : data.length = k) :
    (QFrame.mk columns (List.range k) e).toSequence name = some data := by
  simp only [QFrame.toSequence, hl, Option.some_bind]
  rw [← hlen, readAll_range]

/-- C12: group-by with a sum aggregation. On a well-formed int frame without a latched error,
with key columns that exist and a source column that is not a key, there is a list `G` of
groups of rows such that: every group has a first row and is exactly the list of the rows of
the input, in input order, that hold the same values as that row in every key column; every
row of the input is in a group; the groups stand in the order in which their first rows occur
in the input (so no two groups have the same key values: one group per distinct key tuple, in
first-occurrence order); the result has one row per group; its aggregated column holds for each
group the sum of the source column over the rows of the group, and each key column the value of
the key at the first row of the group; an empty input gives no row. -/
theorem groupBy_sum (qf : QFrame) (N : Nat) (names : List String) (src : String)
    (scol : List Int) (hwf : WellFormed qf N) (herr : qf.Err = none)
    (hkeys : ∀ n ∈ names, (qf.columns.lookup n).isSome = true)
    (hsrc : qf.columns.lookup src = some scol) (hnot : src ∉ names) :
    ∃ G : List (List Nat),
      (∀ g ∈ G, ∃ p : Nat, g.head? = some p
          ∧ g = qf.index.filter (fun q => sameKey qf names q p))
      ∧ (∀ p ∈ qf.index, ∃ g ∈ G, p ∈ g)
      ∧ G.Pairwise (fun g h => qf.index.indexOf (g.headD 0) < qf.index.indexOf (h.headD 0))
      ∧ (∀ g ∈ G, ∀ p ∈ g, p ∈ qf.index ∧ p < N)
      ∧ ((qf.GroupBy names).Aggregate [⟨sum, src⟩]).Err = none
      ∧ ((qf.GroupBy names).Aggregate [⟨sum, src⟩]).index = List.range G.length
      ∧ ((qf.GroupBy names).Aggregate [⟨sum, src⟩]).toSequence src
          = some (G.map (fun g => (g.map (fun p => scol.getD p 0)).sum))
      ∧ (∀ (n : String) (col : List Int), n ∈ names → qf.columns.lookup n = some col →
          ((qf.GroupBy names).Aggregate [⟨sum, src⟩]).toSequence n
            = some (G.map (fun g => col.getD (g.headD 0) 0)))
      ∧ (qf.index = [] → ((qf.GroupBy names).Aggregate [⟨sum, src⟩]).index = []) := by
  have hP := isPartition_groupRows (rowKey qf.columns names) qf.index
  have hG := partition_group _ _ _ hP
  have hord := partition_order _ _ _ hP
  have hsk : ∀ p : Nat, (fun q => sameKey qf names q p)
      = (fun q => decide (rowKey qf.columns names q = rowKey qf.columns names p)) :=
    fun p => funext (fun q => sameKey_eq qf names q p)
  have hall : names.all (fun n => (qf.columns.lookup n).isSome) = true :=
    List.all_eq_true.mpr hkeys
  have hgb : qf.GroupBy names
      = ⟨qf, names, groupRows (rowKey qf.columns names) qf.index, none⟩ := by
    simp only [QFrame.GroupBy, herr, Option.isSome_none, Bool.false_eq_true, if_false, hall,
      if_true]
  obtain ⟨ks, hks, hfound, hnone⟩ := keyColumns_spec qf
    ((groupRows (rowKey qf.columns names) qf.index).map (fun gr => gr.rows)) names hkeys
  have hagg : (qf.GroupBy names).Aggregate [⟨sum, src⟩]
      = ⟨ks ++ [(src, aggregate scol
            ((groupRows (rowKey qf.columns names) qf.index).map (fun gr => gr.rows)) sum)],
          List.range (groupRows (rowKey qf.columns names) qf.index).length, none⟩ := by
    simp only [hgb, Grouper.Aggregate, Option.isSome_none, Bool.false_eq_true, if_false, hks,
      aggColumns, hsrc]
  refine ⟨(groupRows (rowKey qf.columns names) qf.index).map (fun gr => gr.rows),
    ?_, ?_, ?_, ?_, ?_, ?_, ?_, ?_, ?_⟩
  · intro g hg
    obtain ⟨gr, hgr, rfl⟩ := List.mem_map.mp hg
    obtain ⟨p, hh, _, _, hrows⟩ := hG gr hgr
    exact ⟨p, hh, by rw [hsk p]; exact hrows⟩
  · intro p hp
    have hk := (hP.2.1 (rowKey qf.columns names p)).mpr (List.mem_map.mpr ⟨p, hp, rfl⟩)
    obtain ⟨gr, hgr, hkey⟩ := List.mem_map.mp hk
    refine ⟨gr.rows, List.mem_map.mpr ⟨gr, hgr, rfl⟩, ?_⟩
    rw [hP.2.2 gr hgr, List.mem_filter]
    exact ⟨hp, decide_eq_true hkey.symm⟩
  · rw [List.pairwise_map]
    exact hord
  · intro g hg p hp
    obtain ⟨gr, hgr, rfl⟩ := List.mem_map.mp hg
    rw [hP.2.2 gr hgr] at hp
    have hmem := List.mem_of_mem_filter hp
    exact ⟨hmem, hwf.2 p hmem⟩
  · rw [hagg]
  · rw [hagg, List.length_map]
  · rw [hagg]
    have hl : (ks ++ [(src, aggregate scol
        ((groupRows (rowKey qf.columns names) qf.index).map (fun gr => gr.rows)) sum)]).lookup src
        = some (aggregate scol
            ((groupRows (rowKey qf.columns names) qf.index).map (fun gr => gr.rows)) sum) := by
      rw [List.lookup_append, hnone src hnot]
      simp [List.lookup_cons]
    rw [toSequence_range _ _ _ _ _ hl (by simp [aggregate])]
    rfl
  · intro n col hn hcol
    rw [hagg]
    have hl : (ks ++ [(src, aggregate scol
        ((groupRows (rowKey qf.columns names) qf.index).map (fun gr => gr.rows)) sum)]).lookup n
        = some (((groupRows (rowKey qf.columns names) qf.index).map (fun gr => gr.rows)).map
            (fun rows => col.getD (rows.headD 0) 0)) := by
      rw [List.lookup_append, hfound n col hn hcol]
      rfl
    rw [toSequence_range _ _ _ _ _ hl (by simp)]
  · intro hnil
    rw [hagg, hnil]
    rfl

theorem groupBy_sum_witness :
    (WellFormed groupByInput 4 ∧ groupByInput.Err = none
      ∧ (∀ n ∈ ["COL.1", "COL.2"], (groupByInput.columns.lookup n).isSome = true)
      ∧ groupByInput.columns.lookup "COL.3" = some [1, 2, 5, 7]
      ∧ "COL.3" ∉ ["COL.1", "COL.2"])
    ∧ (∃ G : List (List Nat),
      (∀ g ∈ G, ∃ p : Nat, g.head? = some p
          ∧ g = groupByInput.index.filter
              (fun q => sameKey groupByInput ["COL.1", "COL.2"] q p))
      ∧ (∀ p ∈ groupByInput.index, ∃ g ∈ G, p ∈ g)
      ∧ G.Pairwise (fun g h =>
          groupByInput.index.indexOf (g.headD 0) < groupByInput.index.indexOf (h.headD 0))
      ∧ (∀ g ∈ G, ∀ p ∈ g, p ∈ groupByInput.index ∧ p < 4)
      ∧ ((groupByInput.GroupBy ["COL.1", "COL.2"]).Aggregate [⟨sum, "COL.3"⟩]).Err = none
      ∧ ((groupByInput.GroupBy ["COL.1", "COL.2"]).Aggregate [⟨sum, "COL.3"⟩]).index
          = List.range G.length
      ∧ ((groupByInput.GroupBy ["COL.1", "COL.2"]).Aggregate [⟨sum, "COL.3"⟩]).toSequence
            "COL.3"
          = some (G.map (fun g => (g.map (fun p => [1, 2, 5, 7].getD p 0)).sum))
      ∧ (∀ (n : String) (col : List Int), n ∈ ["COL.1", "COL.2"] →
          groupByInput.columns.lookup n = some col →
          ((groupByInput.GroupBy ["COL.1", "COL.2"]).Aggregate [⟨sum, "COL.3"⟩]).toSequence n
            = some (G.map (fun g => col.getD (g.headD 0) 0)))
      ∧ (groupByInput.index = [] →
          ((groupByInput.GroupBy ["COL.1", "COL.2"]).Aggregate [⟨sum, "COL.3"⟩]).index = []))
    ∧ ((groupByInput.GroupBy ["COL.1", "COL.2"]).Aggregate [⟨sum, "COL.3"⟩]).index = [0, 1, 2]
    ∧ ((groupByInput.GroupBy ["COL.1", "COL.2"]).Aggregate [⟨sum, "COL.3"⟩]).toSequence "COL.1"
        = some [0, 1, 2]
    ∧ ((groupByInput.GroupBy ["COL.1", "COL.2"]).Aggregate [⟨sum, "COL.3"⟩]).toSequence "COL.2"
        = some [0, 1, 1]
    ∧ ((groupByInput.GroupBy ["COL.1", "COL.2"]).Aggregate [⟨sum, "COL.3"⟩]).toSequence "COL.3"
        = some [3, 5, 7] :=
  ⟨⟨by decide, rfl, by decide, by decide, by decide⟩,
    groupBy_sum groupByInput 4 ["COL.1", "COL.2"] "COL.3" [1, 2, 5, 7] (by decide) rfl
      (by decide) (by decide) (by decide),
    by decide, by decide, by decide, by decide⟩

/-! ## Distinct -/

theorem foldl_addRow_nodup {κ : Type} [DecidableEq κ] (rk : Nat → κ) :
    ∀ (D : List Nat) (G : List (Group κ)), (G.map (fun g => g.key) ++ D.map rk).Nodup →
      D.foldl (fun groups p => addRow (rk p) p groups) G
        = G ++ D.map (fun p => (⟨rk p, [p]⟩ : Group κ)) := by
  intro D
  induction D with
  | nil => intro G _; simp
  | cons p rest ih =>
    intro G h
    have hk : rk p ∉ G.map (fun g => g.key) := by
      intro hc
      have hdis := (List.nodup_append.mp h).2.2
      exact hdis hc (List.mem_map.mpr ⟨p, List.mem_cons_self _ _, rfl⟩)
    have h' : ((G ++ [(⟨rk p, [p]⟩ : Group κ)]).map (fun g => g.key) ++ rest.map rk).Nodup := by
      simpa [List.map_append, List.append_assoc] using h
    rw [List.foldl_cons, addRow_of_not_mem _ _ G hk, ih _ h']
    simp [List.append_assoc]

theorem groupRows_of_nodup {κ : Type} [DecidableEq κ] (rk : Nat → κ) (D : List Nat)
    (h : (D.map rk).Nodup) :
    groupRows rk D = D.map (fun p => (⟨rk p, [p]⟩ : Group κ)) := by
  have h' := foldl_addRow_nodup rk D [] (by simpa using h)
  simpa [groupRows] using h'

/-- The first rows of the groups of a partition: each is the first row of the Index with its
key, and their keys are the keys of the groups. -/
theorem firstRows_spec {κ : Type} [DecidableEq κ] (rk : Nat → κ) (index : List Nat) :
    ∀ G : List (Group κ),
      (∀ g ∈ G, g.key ∈ index.map rk
        ∧ g.rows = index.filter (fun p => decide (rk p = g.key))) →
      (G.filterMap (fun g => g.rows.head?)).map rk = G.map (fun g => g.key)
      ∧ ∀ p ∈ G.filterMap (fun g => g.rows.head?),
          index.find? (fun q => decide (rk q = rk p)) = some p := by
  intro G
  induction G with
  | nil => intro _; exact ⟨rfl, fun p hp => by simp at hp⟩
  | cons g rest ih =>
    intro h
    obtain ⟨hkeys, hfirst⟩ := ih (fun g' hg' => h g' (List.mem_cons_of_mem _ hg'))
    obtain ⟨hmem, hrows⟩ := h g (List.mem_cons_self _ _)
    obtain ⟨a, ha, hak⟩ := List.mem_map.mp hmem
    have hhead : g.rows.head? = index.find? (fun p => decide (rk p = g.key)) := by
      rw [hrows, head?_filter]
    cases hf : index.find? (fun p => decide (rk p = g.key)) with
    | none =>
      rw [List.find?_eq_none] at hf
      exact absurd (decide_eq_true hak) (hf a ha)
    | some p =>
      have hdec := List.find?_some hf
      have hp : rk p = g.key := by simpa using hdec
      rw [hf] at hhead
      refine ⟨by simp [List.filterMap_cons, hhead, hp, hkeys], ?_⟩
      intro q hq
      simp only [List.filterMap_cons, hhead, List.mem_cons] at hq
      rcases hq with hq | hq
      · subst hq
        rw [hp]; exact hf
      · exact hfirst q hq

/-- C13: distinct keeps, in first-occurrence order, the first row of every group of rows equal
on all columns, and is idempotent. For every int frame, `Distinct` applied twice gives the
same frame as `Distinct` applied once; the columns are shared; an empty frame stays empty; and
on a frame without a latched error each row kept is the first row of the input that holds its
values in all columns, every row of the input holds the values of a row kept, and the rows kept
stand in the order in which they first occur in the input (so none is kept twice). -/
theorem distinct_idempotent (qf : QFrame) :
    qf.Distinct.Distinct = qf.Distinct
    ∧ qf.Distinct.columns = qf.columns
    ∧ (qf.index = [] → qf.Distinct.index = [])
    ∧ (qf.Err = none →
        (∀ p ∈ qf.Distinct.index,
            qf.index.find? (fun q => sameKey qf (qf.columns.map (fun c => c.1)) q p) = some p)
        ∧ (∀ q ∈ qf.index, ∃ p ∈ qf.Distinct.index,
            sameKey qf (qf.columns.map (fun c => c.1)) q p = true)
        ∧ qf.Distinct.index.Pairwise
            (fun p q => qf.index.indexOf p < qf.index.indexOf q)) := by
  have hsk : ∀ p : Nat, (fun q => sameKey qf (qf.columns.map (fun c => c.1)) q p)
      = (fun q => decide (rowKey qf.columns (qf.columns.map (fun c => c.1)) q
          = rowKey qf.columns (qf.columns.map (fun c => c.1)) p)) :=
    fun p => funext (fun q => sameKey_eq qf _ q p)
  cases herr : qf.Err with
  | some e =>
    have hd : qf.Distinct = qf := by simp [QFrame.Distinct, herr]
    refine ⟨by rw [hd, hd], by rw [hd], fun h => by rw [hd]; exact h, fun h => by cases h⟩
  | none =>
    have hP := isPartition_groupRows (rowKey qf.columns (qf.columns.map (fun c => c.1))) qf.index
    have hd : qf.Distinct = { qf with index := (List.filterMap (fun g => g.rows.head?)
        (groupRows (rowKey qf.columns (qf.columns.map (fun c => c.1))) qf.index)) } := by
      simp [QFrame.Distinct, herr]
    obtain ⟨hkeys, hfirst⟩ := firstRows_spec
      (rowKey qf.columns (qf.columns.map (fun c => c.1))) qf.index
      (groupRows (rowKey qf.columns (qf.columns.map (fun c => c.1))) qf.index)
      (fun g hg => ⟨(hP.2.1 g.key).mp (List.mem_map.mpr ⟨g, hg, rfl⟩), hP.2.2 g hg⟩)
    have hnd : ((List.filterMap (fun g => g.rows.head?)
        (groupRows (rowKey qf.columns (qf.columns.map (fun c => c.1))) qf.index)).map
          (rowKey qf.columns (qf.columns.map (fun c => c.1)))).Nodup := by
      rw [hkeys]
      exact hP.1.imp (fun {s t} hlt heq => by subst heq; exact lt_irrefl _ hlt)
    refine ⟨?_, by rw [hd], fun hnil => ?_, fun _ => ?_⟩
    · rw [hd]
      simp only [QFrame.Distinct, herr, Option.isSome_none, Bool.false_eq_true, if_false,
        groupRows_of_nodup _ _ hnd, List.filterMap_map]
      congr 1
      induction (List.filterMap (fun g => g.rows.head?)
        (groupRows (rowKey qf.columns (qf.columns.map (fun c => c.1))) qf.index)) with
      | nil => rfl
      | cons a rest ih => simp [List.filterMap_cons, ih]
    · rw [hd, hnil]
      rfl
    · rw [hd]
      refine ⟨?_, ?_, ?_⟩
      · intro p hp
        rw [hsk p]
        exact hfirst p hp
      · intro q hq
        have hk := (hP.2.1 (rowKey qf.columns (qf.columns.map (fun c => c.1)) q)).mpr
          (List.mem_map.mpr ⟨q, hq, rfl⟩)
        rw [← hkeys] at hk
        obtain ⟨p, hp, hpq⟩ := List.mem_map.mp hk
        exact ⟨p, hp, (sameKey_iff qf _ q p).mpr hpq.symm⟩
      · have h1 := hP.1
        rw [← hkeys, List.pairwise_map] at h1
        refine h1.imp_of_mem ?_
        intro p q hp hq hlt
        rw [indexOf_first _ p qf.index (hfirst p hp), indexOf_first _ q qf.index (hfirst q hq)]
        exact hlt

theorem distinct_idempotent_witness :
    distinctInput.Distinct.Distinct = distinctInput.Distinct
    ∧ distinctInput.Distinct.columns = distinctInput.columns
    ∧ ((∀ p ∈ distinctInput.Distinct.index,
          distinctInput.index.find?
            (fun q => sameKey distinctInput (distinctInput.columns.map (fun c => c.1)) q p)
            = some p)
      ∧ (∀ q ∈ distinctInput.index, ∃ p ∈ distinctInput.Distinct.index,
          sameKey distinctInput (distinctInput.columns.map (fun c => c.1)) q p = true)
      ∧ distinctInput.Distinct.index.Pairwise
          (fun p q => distinctInput.index.indexOf p < distinctInput.index.indexOf q))
    ∧ distinctInput.Distinct.index = [0, 1]
    ∧ distinctInput.Distinct.toSequence "COL.1" = some [0, 1]
    ∧ distinctInput.Distinct.toSequence "COL.2" = some [0, 1]
    ∧ (QFrame.mk [("COL.1", []), ("COL.2", [])] [] none).Distinct.index = [] :=
  ⟨(distinct_idempotent distinctInput).1, (distinct_idempotent distinctInput).2.1,
    (distinct_idempotent distinctInput).2.2.2 rfl, by decide, by decide, by decide,
    (distinct_idempotent (QFrame.mk [("COL.1", []), ("COL.2", [])] [] none)).2.2.1 rfl⟩

/-! ## Filtered assign -/

theorem lookup_map_replace (name : String) (data : List Int) :
    ∀ columns : List (String × List Int), (columns.lookup name).isSome = true →
      (columns.map (fun c => if c.1 = name then (name, data) else c)).lookup name
        = some data := by
  intro columns
  induction columns with
  | nil => intro h; simp at h
  | cons c rest ih =>
    intro h
    obtain ⟨k, v⟩ := c
    by_cases hk : k = name
    · subst hk
      simp [List.lookup_cons]
    · have hne : (name == k) = false := by simpa using fun hc : name = k => hk hc.symm
      rw [List.lookup_cons, hne] at h
      simp only [List.map_cons, hk, if_false, List.lookup_cons, hne]
      exact ih h

theorem lookup_setColumn_self (columns : List (String × List Int)) (name : String)
    (data : List Int) : (setColumn columns name data).lookup name = some data := by
  unfold setColumn
  split
  · next h => exact lookup_map_replace name data columns h
  · next h =>
    have hnone : columns.lookup name = none := by
      cases hl : columns.lookup name with
      | none => rfl
      | some v => rw [hl] at h; simp at h
    rw [List.lookup_append, hnone]
    simp [List.lookup_cons]

theorem mem_setColumn (columns : List (String × List Int)) (name : String) (data : List Int)
    (c : String × List Int) (hc : c ∈ setColumn columns name data) :
    c ∈ columns ∨ c = (name, data) := by
  unfold setColumn at hc
  split at hc
  · obtain ⟨c', hc', rfl⟩ := List.mem_map.mp hc
    by_cases h : c'.1 = name
    · right; simp [h]
    · left; simpa [h] using hc'
  · rcases List.mem_append.mp hc with h | h
    · exact Or.inl h
    · exact Or.inr (List.mem_singleton.mp h)

theorem getD_apply1 (fn : Int → Int) (column : List Int) (index : List Nat) (p : Nat)
    (hp : p < column.length) :
    (apply1 fn column index).getD p 0 = if p ∈ index then fn (column.getD p 0) else 0 := by
  have hlen : p < (apply1 fn column index).length := by simpa [apply1] using hp
  rw [List.getD_eq_getElem _ 0 hlen]
  simp [apply1]

/-- C14: filtered assign. On a well-formed int frame without a latched error, applying `f` from
an existing source column under a clause on an existing column gives a frame with the Index of
the input whose destination column holds `f(source value)` at every row that satisfies the
clause and `0` at every row that does not, both when the destination is a new column (it is
appended after the existing columns) and when it is an existing one (it is replaced, the
column order kept). -/
theorem filteredAssign_zero_fill (qf : QFrame) (N : Nat) (cname : String) (ccol : List Int)
    (cmp : Comparator) (c : Int) (inv : Bool) (f : Int → Int) (dst src : String)
    (scol : List Int) (hwf : WellFormed qf N) (herr : qf.Err = none)
    (hc : qf.columns.lookup cname = some ccol) (hs : qf.columns.lookup src = some scol) :
    ∃ out : QFrame,
      qf.FilteredAssign ⟨cname, cmp, .const c, inv⟩ [⟨f, dst, src⟩] = some out
      ∧ out.Err = none
      ∧ out.index = qf.index
      ∧ WellFormed out N
      ∧ out.toSequence dst = some (qf.index.map (fun p =>
          if (if inv then !(cmp.holds (ccol.getD p 0) c) else cmp.holds (ccol.getD p 0) c)
          then f (scol.getD p 0) else 0))
      ∧ (qf.columns.lookup dst = none →
          ∃ data : List Int, out.columns = qf.columns ++ [(dst, data)])
      ∧ ((qf.columns.lookup dst).isSome = true →
          out.columns.map (fun col => col.1) = qf.columns.map (fun col => col.1)) := by
  have hfil := filter_single_const qf N cname ccol cmp c inv hwf herr hc
  have hsl : scol.length = N := hwf.1 (src, scol) (mem_of_lookup_eq_some src scol _ hs)
  have hout : qf.FilteredAssign ⟨cname, cmp, .const c, inv⟩ [⟨f, dst, src⟩]
      = some { qf with columns := setColumn qf.columns dst (apply1 f scol (qf.index.filter
          (fun p => if inv then !(cmp.holds (ccol.getD p 0) c)
            else cmp.holds (ccol.getD p 0) c))) } := by
    simp only [QFrame.FilteredAssign, hfil, herr, Option.isSome_none, Bool.false_eq_true,
      if_false, List.foldl_cons, List.foldl_nil, QFrame.Assign, hs]
  have hdl : (apply1 f scol (qf.index.filter
      (fun p => if inv then !(cmp.holds (ccol.getD p 0) c)
        else cmp.holds (ccol.getD p 0) c))).length = N := by
    simp [apply1, hsl]
  refine ⟨_, hout, herr, rfl, ?_, ?_, ?_, ?_⟩
  · refine ⟨?_, hwf.2⟩
    intro col hcol
    rcases mem_setColumn _ _ _ col hcol with h | h
    · exact hwf.1 col h
    · rw [h]; exact hdl
  · simp only [QFrame.toSequence, lookup_setColumn_self, Option.some_bind]
    rw [readAll_inRange _ _ (fun p hp => by rw [hdl]; exact hwf.2 p hp)]
    congr 1
    apply List.map_congr_left
    intro p hp
    rw [getD_apply1 f scol _ p (by rw [hsl]; exact hwf.2 p hp)]
    simp only [List.mem_filter, hp, true_and]
  · intro hnone
    refine ⟨apply1 f scol (qf.index.filter (fun p =>
      if inv then !(cmp.holds (ccol.getD p 0) c) else cmp.holds (ccol.getD p 0) c)), ?_⟩
    simp only [setColumn, hnone, Option.isSome_none, Bool.false_eq_true, if_false]
  · intro hsome
    simp only [setColumn, hsome, if_true, List.map_map]
    apply List.map_congr_left
    intro col _
    simp only [Function.comp]
    split
    · next h => exact h.symm
    · rfl

theorem filteredAssign_zero_fill_witness :
    (WellFormed assignInput 3 ∧ assignInput.Err = none
      ∧ assignInput.columns.lookup "COL1" = some [3, 2, 1])
    ∧ (∃ out : QFrame,
        assignInput.FilteredAssign ⟨"COL1", .Gt, .const 1, false⟩
          [⟨fun a => a + 1, "COL3", "COL1"⟩] = some out
        ∧ out.Err = none
        ∧ out.index = assignInput.index
        ∧ WellFormed out 3
        ∧ out.toSequence "COL3" = some (assignInput.index.map (fun p =>
            if (if false then !(Comparator.Gt.holds ([3, 2, 1].getD p 0) 1)
              else Comparator.Gt.holds ([3, 2, 1].getD p 0) 1)
            then (fun a => a + 1) ([3, 2, 1].getD p 0) else 0))
        ∧ (assignInput.columns.lookup "COL3" = none →
            ∃ data : List Int, out.columns = assignInput.columns ++ [("COL3", data)])
        ∧ ((assignInput.columns.lookup "COL3").isSome = true →
            out.columns.map (fun col => col.1) = assignInput.columns.map (fun col => col.1)))
    ∧ (∃ out : QFrame,
        assignInput.FilteredAssign ⟨"COL1", .Gt, .const 1, false⟩
          [⟨fun a => a + 1, "COL1", "COL1"⟩] = some out
        ∧ out.Err = none
        ∧ out.index = assignInput.index
        ∧ WellFormed out 3
        ∧ out.toSequence "COL1" = some (assignInput.index.map (fun p =>
            if (if false then !(Comparator.Gt.holds ([3, 2, 1].getD p 0) 1)
              else Comparator.Gt.holds ([3, 2, 1].getD p 0) 1)
            then (fun a => a + 1) ([3, 2, 1].getD p 0) else 0))
        ∧ (assignInput.columns.lookup "COL1" = none →
            ∃ data : List Int, out.columns = assignInput.columns ++ [("COL1", data)])
        ∧ ((assignInput.columns.lookup "COL1").isSome = true →
            out.columns.map (fun col => col.1) = assignInput.columns.map (fun col => col.1))) :=
  ⟨⟨by decide, rfl, by decide⟩,
    filteredAssign_zero_fill assignInput 3 "COL1" [3, 2, 1] .Gt 1 false (fun a => a + 1) "COL3"
      "COL1" [3, 2, 1] (by decide) rfl (by decide) (by decide),
    filteredAssign_zero_fill assignInput 3 "COL1" [3, 2, 1] .Gt 1 false (fun a => a + 1) "COL1"
      "COL1" [3, 2, 1] (by decide) rfl (by decide) (by decide)⟩

/-! ## Group-by, distinct, filtered assign: the cases of the tests -/

theorem test_groupBy :
    ((QFrame.mk [("COL.1", [0, 0, 1, 2]), ("COL.2", [0, 0, 1, 1]), ("COL.3", [1, 2, 5, 7])]
        [0, 1, 2, 3] none).GroupBy ["COL.1", "COL.2"]).Aggregate [⟨sum, "COL.3"⟩]
      = ⟨[("COL.1", [0, 1, 2]), ("COL.2", [0, 1, 1]), ("COL.3", [3, 5, 7])], [0, 1, 2], none⟩
    ∧ ((QFrame.mk [("COL.1", []), ("COL.2", [])] [] none).GroupBy ["COL.1"]).Aggregate
        [⟨sum, "COL.2"⟩]
      = ⟨[("COL.1", []), ("COL.2", [])], [], none⟩ := by
  decide

theorem test_distinct :
    (QFrame.mk [("COL.1", [0, 1, 0, 1]), ("COL.2", [0, 1, 0, 1])] [0, 1, 2, 3] none).Distinct
      = ⟨[("COL.1", [0, 1, 0, 1]), ("COL.2", [0, 1, 0, 1])], [0, 1], none⟩
    ∧ (QFrame.mk [("COL.1", []), ("COL.2", [])] [] none).Distinct
      = ⟨[("COL.1", []), ("COL.2", [])], [], none⟩ := by
  decide

theorem test_filteredAssign :
    (QFrame.mk [("COL1", [3, 2, 1])] [0, 1, 2] none).FilteredAssign
        ⟨"COL1", .Gt, .const 1, false⟩ [⟨fun a => a + 1, "COL3", "COL1"⟩]
      = some ⟨[("COL1", [3, 2, 1]), ("COL3", [4, 3, 0])], [0, 1, 2], none⟩
    ∧ (QFrame.mk [("COL1", [3, 2, 1])] [0, 1, 2] none).FilteredAssign
        ⟨"COL1", .Gt, .const 1, false⟩
        [⟨fun a => a + 1, "COL3", "COL1"⟩, ⟨fun a => a + 1, "COL3", "COL3"⟩]
      = some ⟨[("COL1", [3, 2, 1]), ("COL3", [5, 4, 0])], [0, 1, 2], none⟩
    ∧ (QFrame.mk [("COL1", [3, 2, 1])] [0, 1, 2] none).FilteredAssign
        ⟨"COL1", .Gt, .const 1, false⟩ [⟨fun a => a + 1, "COL1", "COL1"⟩]
      = some ⟨[("COL1", [4, 3, 0])], [0, 1, 2], none⟩ := by
  decide

end Qframe

namespace Scolumn

open Column Qframe

/-! ## Null pinning -/

theorem notAfter_asc (column : List (Option String)) (i j : Nat) :
    notAfter [Comparable column false] i j
      ↔ nullFirstLe (column.getD i none) (column.getD j none) := by
  simp only [notAfter, compareRows, Comparable]
  cases column.getD i none with
  | none => cases column.getD j none <;> simp [nullFirstLe]
  | some x =>
    cases column.getD j none with
    | none => simp [nullFirstLe]
    | some y =>
      simp only [nullFirstLe]
      generalize x.toList = a
      generalize y.toList = b
      rcases lt_trichotomy a b with h | h | h
      · simp [h, le_of_lt h]
      · subst h; simp
      · simp [h, not_lt.mpr (le_of_lt h), not_le.mpr h]

theorem notAfter_desc (column : List (Option String)) (i j : Nat) :
    notAfter [Comparable column true] i j
      ↔ nullFirstLe (column.getD j none) (column.getD i none) := by
  simp only [notAfter, compareRows, Comparable]
  cases column.getD i none with
  | none => cases column.getD j none <;> simp [nullFirstLe]
  | some x =>
    cases column.getD j none with
    | none => simp [nullFirstLe]
    | some y =>
      simp only [nullFirstLe]
      generalize x.toList = a
      generalize y.toList = b
      rcases lt_trichotomy a b with h | h | h
      · simp [h, not_le.mpr h]
      · subst h; simp
      · simp [h, not_lt.mpr (le_of_lt h), le_of_lt h]

theorem nullFirstLe_total (x y : Option String) : nullFirstLe x y ∨ nullFirstLe y x := by
  cases x <;> cases y <;> simp [nullFirstLe, le_total]

theorem nullFirstLe_trans (x y z : Option String) (h₁ : nullFirstLe x y)
    (h₂ : nullFirstLe y z) : nullFirstLe x z := by
  cases x <;> cases y <;> cases z <;> simp_all [nullFirstLe]
  exact le_trans h₁ h₂

/-- A sequence in the order "nulls first, then ascending" is a block of nulls followed by
ascending non-null values. -/
theorem nullFirst_blocks :
    ∀ l : List (Option String), l.Pairwise nullFirstLe →
      ∃ (k : Nat) (strs : List String), l = List.replicate k none ++ strs.map some
        ∧ strs.Pairwise (fun a b => a.toList ≤ b.toList) := by
  intro l
  induction l with
  | nil => intro _; exact ⟨0, [], rfl, List.Pairwise.nil⟩
  | cons x rest ih =>
    intro h
    obtain ⟨hx, hrest⟩ := List.pairwise_cons.mp h
    obtain ⟨k, strs, hl, hs⟩ := ih hrest
    cases x with
    | none => exact ⟨k + 1, strs, by rw [hl, List.replicate_succ, List.cons_append], hs⟩
    | some a =>
      have hk : k = 0 := by
        by_contra hne
        have hmem : (none : Option String) ∈ rest := by
          rw [hl]
          exact List.mem_append_left _ (List.mem_replicate.mpr ⟨hne, rfl⟩)
        exact hx none hmem
      subst hk
      refine ⟨0, a :: strs, by rw [hl]; rfl, List.pairwise_cons.mpr ⟨?_, hs⟩⟩
      intro b hb
      have hmem : some b ∈ rest := by
        rw [hl]
        exact List.mem_append_right _ (List.mem_map.mpr ⟨b, hb, rfl⟩)
      exact hx (some b) hmem

/-- C11: null pinning. For every nullable-string column read through an in-range Index, the
ascending sort gives all nulls first, followed by the non-null values in ascending lexical
order, and the descending sort gives the non-null values in descending lexical order, followed
by all nulls; both results are permutations of the Index. -/
theorem null_pinning (column : List (Option String)) (index : List Nat)
    (hidx : ∀ p ∈ index, p < column.length) :
    (∃ (k : Nat) (strs : List String),
        readAll column (sortIndex column false index)
          = List.replicate k none ++ strs.map some
        ∧ strs.Pairwise (fun a b => a.toList ≤ b.toList))
    ∧ (∃ (k : Nat) (strs : List String),
        readAll column (sortIndex column true index)
          = strs.map some ++ List.replicate k none
        ∧ strs.Pairwise (fun a b => b.toList ≤ a.toList))
    ∧ List.Perm (sortIndex column false index) index
    ∧ List.Perm (sortIndex column true index) index
    ∧ (∀ p ∈ sortIndex column false index, p < column.length)
    ∧ (∀ p ∈ sortIndex column true index, p < column.length) := by
  have hpa : List.Perm (sortIndex column false index) index := List.perm_insertionSort _ _
  have hpd : List.Perm (sortIndex column true index) index := List.perm_insertionSort _ _
  refine ⟨?_, ?_, hpa, hpd, fun p hp => hidx p (hpa.mem_iff.mp hp),
    fun p hp => hidx p (hpd.mem_iff.mp hp)⟩
  · haveI : IsTotal Nat (notAfter [Comparable column false]) :=
      ⟨fun i j => by
        rw [notAfter_asc, notAfter_asc]
        exact nullFirstLe_total _ _⟩
    haveI : IsTrans Nat (notAfter [Comparable column false]) :=
      ⟨fun i j k h₁ h₂ => by
        rw [notAfter_asc] at h₁ h₂ ⊢
        exact nullFirstLe_trans _ _ _ h₁ h₂⟩
    have hs : List.Pairwise (notAfter [Comparable column false])
        (sortIndex column false index) :=
      List.sorted_insertionSort (notAfter [Comparable column false]) index
    have hv : (readAll column (sortIndex column false index)).Pairwise nullFirstLe := by
      rw [readAll, List.pairwise_map]
      exact hs.imp (fun h => (notAfter_asc column _ _).mp h)
    exact nullFirst_blocks _ hv
  · haveI : IsTotal Nat (notAfter [Comparable column true]) :=
      ⟨fun i j => by
        rw [notAfter_desc, notAfter_desc]
        exact nullFirstLe_total _ _⟩
    haveI : IsTrans Nat (notAfter [Comparable column true]) :=
      ⟨fun i j k h₁ h₂ => by
        rw [notAfter_desc] at h₁ h₂ ⊢
        exact nullFirstLe_trans _ _ _ h₂ h₁⟩
    have hs : List.Pairwise (notAfter [Comparable column true])
        (sortIndex column true index) :=
      List.sorted_insertionSort (notAfter [Comparable column true]) index
    have hv : (readAll column (sortIndex column true index)).reverse.Pairwise nullFirstLe := by
      rw [List.pairwise_reverse, readAll, List.pairwise_map]
      exact hs.imp (fun h => (notAfter_desc column _ _).mp h)
    obtain ⟨k, strs, hl, hstrs⟩ := nullFirst_blocks _ hv
    refine ⟨k, strs.reverse, ?_, ?_⟩
    · have h := congrArg List.reverse hl
      rw [List.reverse_reverse] at h
      rw [h, List.reverse_append, List.reverse_replicate, List.map_reverse]
    · rw [List.pairwise_reverse]
      exact hstrs

theorem null_pinning_witness :
    (∀ p ∈ [0, 1, 2, 3, 4, 5, 6],
        p < [some "b", none, some "a", none, some "c", some "a", none].length)
    ∧ ((∃ (k : Nat) (strs : List String),
        readAll [some "b", none, some "a", none, some "c", some "a", none]
            (sortIndex [some "b", none, some "a", none, some "c", some "a", none] false
              [0, 1, 2, 3, 4, 5, 6])
          = List.replicate k none ++ strs.map some
        ∧ strs.Pairwise (fun a b => a.toList ≤ b.toList))
      ∧ (∃ (k : Nat) (strs : List String),
        readAll [some "b", none, some "a", none, some "c", some "a", none]
            (sortIndex [some "b", none, some "a", none, some "c", some "a", none] true
              [0, 1, 2, 3, 4, 5, 6])
          = strs.map some ++ List.replicate k none
        ∧ strs.Pairwise (fun a b => b.toList ≤ a.toList))) :=
  ⟨by decide,
    (null_pinning [some "b", none, some "a", none, some "c", some "a", none]
      [0, 1, 2, 3, 4, 5, 6] (by decide)).1,
    (null_pinning [some "b", none, some "a", none, some "c", some "a", none]
      [0, 1, 2, 3, 4, 5, 6] (by decide)).2.1⟩

theorem test_null_pinning :
    readAll [some "b", none, some "a", none, some "c", some "a", none]
        (sortIndex [some "b", none, some "a", none, some "c", some "a", none] false
          [0, 1, 2, 3, 4, 5, 6])
      = [none, none, none, some "a", some "a", some "b", some "c"]
    ∧ readAll [some "b", none, some "a", none, some "c", some "a", none]
        (sortIndex [some "b", none, some "a", none, some "c", some "a", none] true
          [0, 1, 2, 3, 4, 5, 6])
      = [some "c", some "b", some "a", some "a", none, none, none] := by
  decide

end Scolumn

namespace Generator

/-! ## The placeholders of the view template -/

theorem placeholders_viewTemplate :
    placeholders viewTemplate
      = ["Type", "lowerType", "type", "package", "type", "lowerType", "type", "type", "type",
          "type", "package", "type", "type", "lowerType", "type"] := by
  decide

theorem lookup_spec (typeName srcPackage : String) :
    (spec typeName srcPackage).Values.lookup "type" = some typeName
    ∧ (spec typeName srcPackage).Values.lookup "lowerType" = some (toLower typeName)
    ∧ (spec typeName srcPackage).Values.lookup "package" = some srcPackage
    ∧ (spec typeName srcPackage).Values.lookup "Type" = none := by
  refine ⟨?_, ?_, ?_, ?_⟩ <;> simp [spec, List.lookup]

theorem unbound_spec (typeName srcPackage : String) :
    unbound (spec typeName srcPackage) = ["Type"] := by
  have h := lookup_spec typeName srcPackage
  obtain ⟨h1, h2, h3, h4⟩ := h
  have hT : (spec typeName srcPackage).Template = viewTemplate := rfl
  unfold unbound
  rw [hT, placeholders_viewTemplate]
  simp only [List.filter_cons, List.filter_nil, h1, h2, h3, h4, Option.isNone_some,
    Option.isNone_none]
  decide

/-- The template as `GenerateQFrame` uses it for the int column: the values `spec` builds, and
the placeholder that stays without one. -/
theorem test_generate_int :
    (spec "Int" "icolumn").Values
      = [("type", "Int"), ("lowerType", "int"), ("package", "icolumn")]
    ∧ (spec "Int" "icolumn").Name = "Int"
    ∧ generatedViews.map (fun s => s.Values.lookup "lowerType")
      = [some "int", some "float", some "bool", some "string", some "enum"]
    ∧ generatedViews.map (fun s => s.Values.lookup "package")
      = [some "icolumn", some "fcolumn", some "bcolumn", some "scolumn", some "ecolumn"]
    ∧ generatedViews.map (fun s => s.Values.lookup "Type") = [none, none, none, none, none] := by
  decide

/-- C25, as the code behaves: the template refers to the four placeholders `Type`, `type`,
`lowerType` and `package`, and the `Values` map that `spec typeName srcPackage` builds has
`type = typeName`, `lowerType =` the lower-cased `typeName` and `package = srcPackage`, but no
key `Type`: for every `typeName` and `srcPackage`, and so for each of the five column variants
of `GenerateQFrame`, the placeholder `Type` of the first line of the template is left without a
value. -/
theorem type_placeholder_unbound (typeName srcPackage : String) :
    (∀ k : String, k ∈ placeholders (spec typeName srcPackage).Template
        ↔ k = "Type" ∨ k = "type" ∨ k = "lowerType" ∨ k = "package")
    ∧ (spec typeName srcPackage).Values.lookup "type" = some typeName
    ∧ (spec typeName srcPackage).Values.lookup "lowerType" = some (toLower typeName)
    ∧ (spec typeName srcPackage).Values.lookup "package" = some srcPackage
    ∧ (spec typeName srcPackage).Values.lookup "Type" = none
    ∧ unbound (spec typeName srcPackage) = ["Type"]
    ∧ (∀ s ∈ generatedViews, unbound s = ["Type"]) := by
  obtain ⟨h1, h2, h3, h4⟩ := lookup_spec typeName srcPackage
  refine ⟨?_, h1, h2, h3, h4, unbound_spec typeName srcPackage, ?_⟩
  · intro k
    have hT : (spec typeName srcPackage).Template = viewTemplate := rfl
    rw [hT, placeholders_viewTemplate]
    simp only [List.mem_cons, List.mem_singleton, List.not_mem_nil, or_false]
    tauto
  · intro s hs
    simp only [generatedViews, view, List.mem_cons, List.mem_singleton, List.not_mem_nil,
      or_false] at hs
    rcases hs with rfl | rfl | rfl | rfl | rfl <;> exact unbound_spec _ _

end Generator
